import Mathlib

/-!
Shallow embedding of the Greedy-Algorithm-Visualizer step-trace engines
(`src/unnamed/part_000` = Kruskal route, `src/routes/prim.js`,
`src/routes/dijkstra.js`, `src/utils/graph-utils.js`).

Modelling conventions, applied uniformly:
* A node is represented by its id string; a JS `null` node or a node whose
  `id` is missing/falsy is represented by the empty string `""` (every place
  the source tests `node && node.id` the model tests `id ≠ ""`).
* Edge weights are natural numbers (the validator admits exactly the
  non-negative numeric weights; `weight || 0` is the identity on them).
* JS objects used as string-keyed maps become association lists in insertion
  order; assigning to an existing key overwrites in place, assigning to a new
  key appends (`setEntry`), matching JS enumeration order.
* JS `Array.prototype.sort` is stable; it is modelled by `List.insertionSort`,
  which is also stable for the total preorders used here.
* The source's `UnionFind.find` uses path compression; compression changes no
  root and no rank, only the parent chain's length, so the model computes the
  root by chasing parents with fuel `parent.length` (an upper bound on any
  acyclic chain) and leaves the state unchanged.  Every observable output
  (`find`, `connected`, `union`, component grouping) is unaffected.
* Throwing functions return `Except String _`.
* The Dijkstra main loop is a `while` whose variant is not structural; it is
  modelled with an explicit fuel parameter chosen in `dijkstraAlgorithm` to
  exceed the真 iteration bound (1 + one pop per queue entry ever pushed, and
  at most one push per arc).  All theorems below hold for every fuel value.
-/

namespace GreedyViz

/-- Association-list lookup: first entry with the given key (JS object read). -/
def getEntry {κ β : Type} [DecidableEq κ] (k : κ) : List (κ × β) → Option β
  | [] => none
  | (k', v) :: rest => if k' = k then some v else getEntry k rest

/-- Association-list write: overwrite the existing entry in place, else
append at the end (JS object assignment / key insertion order). -/
def setEntry {κ β : Type} [DecidableEq κ] (k : κ) (v : β) : List (κ × β) → List (κ × β)
  | [] => [(k, v)]
  | (k', v') :: rest => if k' = k then (k, v) :: rest else (k', v') :: setEntry k v rest

/-! ## Data model (`Graph` as consumed by the engines) -/

structure Edge where
  id : Option String
  from_ : String
  to_ : String
  weight : Nat
  directed : Bool
deriving DecidableEq, Repr

structure Graph where
  nodes : List String
  edges : List Edge
deriving DecidableEq, Repr

/-- `validateGraph` (graph-utils.js lines 36-60).  The shape checks that the
two fields are arrays are enforced by the `Graph` type itself; weight presence
and non-negativity are enforced by `weight : Nat`. -/
def validateGraph (g : Graph) : Except String Unit :=
  if g.nodes.length = 0 then
    Except.error "Graph must have at least one node"
  else if g.edges.any (fun e => e.from_ = "" || e.to_ = "") then
    Except.error "Each edge must have from, to, and weight properties"
  else
    Except.ok ()

/-! ## Union-Find (graph-utils.js lines 1-34) -/

structure UnionFind where
  parent : List Nat
  rank : List Nat
deriving DecidableEq, Repr

def UnionFind.create (n : Nat) : UnionFind :=
  { parent := List.range n, rank := List.replicate n 0 }

/-- Root of `x`: chase parent pointers; `fuel = parent.length` bounds every
acyclic chain.  (The source also path-compresses; see the header note.) -/
def UnionFind.findAux (p : List Nat) : Nat → Nat → Nat
  | 0, x => x
  | fuel + 1, x =>
    let px := p.getD x x
    if px = x then x else UnionFind.findAux p fuel px

def UnionFind.find (uf : UnionFind) (x : Nat) : Nat :=
  UnionFind.findAux uf.parent uf.parent.length x

def UnionFind.union (uf : UnionFind) (x y : Nat) : UnionFind × Bool :=
  let rootX := uf.find x
  let rootY := uf.find y
  if rootX = rootY then (uf, false)
  else if uf.rank.getD rootX 0 < uf.rank.getD rootY 0 then
    ({ uf with parent := uf.parent.set rootX rootY }, true)
  else if uf.rank.getD rootY 0 < uf.rank.getD rootX 0 then
    ({ uf with parent := uf.parent.set rootY rootX }, true)
  else
    ({ parent := uf.parent.set rootY rootX,
       rank := uf.rank.set rootX (uf.rank.getD rootX 0 + 1) }, true)

def UnionFind.connected (uf : UnionFind) (x y : Nat) : Bool :=
  uf.find x = uf.find y

/-! ## Adjacency list builder (graph-utils.js lines 62-90) -/

structure Arc where
  to_ : String
  weight : Nat
  edgeId : String
deriving DecidableEq, Repr

abbrev AdjList := List (String × List Arc)

/-- `edge.id || "from-to"` (an absent id and an empty-string id both fall back). -/
def Edge.edgeIdOf (e : Edge) : String :=
  match e.id with
  | some i => if i = "" then e.from_ ++ "-" ++ e.to_ else i
  | none => e.from_ ++ "-" ++ e.to_

def createAdjacencyList (g : Graph) : AdjList :=
  let init : AdjList :=
    g.nodes.foldl (fun acc nid => if nid = "" then acc else setEntry nid [] acc) []
  g.edges.foldl (fun acc e =>
    if e.from_ ≠ "" ∧ e.to_ ≠ "" ∧ (getEntry e.from_ acc).isSome ∧ (getEntry e.to_ acc).isSome then
      let fwd : Arc := { to_ := e.to_, weight := e.weight, edgeId := e.edgeIdOf }
      let acc1 :=
        match getEntry e.from_ acc with
        | some arcs => setEntry e.from_ (arcs ++ [fwd]) acc
        | none => acc
      if e.directed then acc1
      else
        let rev : Arc := { to_ := e.from_, weight := e.weight, edgeId := e.edgeIdOf }
        match getEntry e.to_ acc1 with
        | some arcs => setEntry e.to_ (arcs ++ [rev]) acc1
        | none => acc1
    else acc) init

/-! ## Kruskal trace engine (`src/unnamed/part_000`) -/

/-- An edge together with the `status` annotation the engine spreads onto it. -/
structure StatusEdge where
  id : Option String
  from_ : String
  to_ : String
  weight : Nat
  directed : Bool
  status : String
deriving DecidableEq, Repr

def Edge.withStatus (e : Edge) (s : String) : StatusEdge :=
  { id := e.id, from_ := e.from_, to_ := e.to_, weight := e.weight,
    directed := e.directed, status := s }

structure KStep where
  step : Nat
  description : String
  currentEdge : Option StatusEdge
  sortedEdges : List StatusEdge
  mstEdges : List StatusEdge
  unionFindState : List (List String)
  totalCost : Nat
  action : String
  wouldCreateCycle : Option Bool
deriving DecidableEq, Repr

/-- `nodeMap` (lines 20-25): id to dense index, later duplicates overwrite. -/
def nodeMapOf (nodes : List String) : List (String × Nat) :=
  nodes.enum.foldl (fun acc p =>
    if p.2 = "" then acc else setEntry p.2 p.1 acc) []

/-- `getUnionFindState` (lines 115-125).  The components object is keyed by
the numeric root, and JS enumerates integer-like keys in ascending numeric
order, hence the final sort by root. -/
def getUnionFindState (uf : UnionFind) (nodes : List String) : List (List String) :=
  let comps : List (Nat × List String) :=
    nodes.enum.foldl (fun acc p =>
      if p.2 = "" then acc
      else
        let root := uf.find p.1
        match getEntry root acc with
        | some l => setEntry root (l ++ [p.2]) acc
        | none => acc ++ [(root, [p.2])]) []
  (comps.insertionSort (fun a b => a.1 ≤ b.1)).map (fun p => p.2)

/-- The `sortedEdges` snapshot of an accept/reject step (lines 69-74). -/
def kruskalExamSnapshot (sorted : List Edge) (mst : List StatusEdge)
    (index : Nat) (status : String) : List StatusEdge :=
  sorted.enum.map (fun p =>
    p.2.withStatus
      (if p.1 < index then
        (if (mst.find? (fun m => m.id = p.2.id)).isSome then "accepted" else "rejected")
      else if p.1 = index then status
      else "pending"))

/-- The `sortedEdges` snapshot of a complete step (lines 87-90). -/
def kruskalCompleteSnapshot (sorted : List Edge) (mst : List StatusEdge)
    (index : Nat) : List StatusEdge :=
  sorted.enum.map (fun p =>
    p.2.withStatus
      (if p.1 ≤ index then
        (if (mst.find? (fun m => m.id = p.2.id)).isSome then "accepted" else "rejected")
      else "pending"))

structure KState where
  uf : UnionFind
  mstEdges : List StatusEdge
  totalCost : Nat
  steps : List KStep
deriving DecidableEq, Repr

/-- Body of `edges.forEach` (lines 38-98).  A `return` inside a JS `forEach`
callback only ends the current iteration, so after the completion check the
loop always moves on to the next edge. -/
def kruskalIter (sorted : List Edge) (nmap : List (String × Nat))
    (nodeCount : Nat) (nodes : List String) (e : Edge) (index : Nat)
    (st : KState) : KState :=
    if e.from_ = "" ∨ e.to_ = "" then
      st
    else
      match getEntry e.from_ nmap, getEntry e.to_ nmap with
      | some fromNode, some toNode =>
        let wouldCreateCycle := st.uf.connected fromNode toNode
        let st1 : KState :=
          if wouldCreateCycle then
            let desc := "Edge " ++ e.from_ ++ "-" ++ e.to_ ++ " (weight: " ++
              toString e.weight ++ ") would create a cycle. Rejected."
            { st with steps := st.steps ++ [{
                step := index + 1
                description := desc
                currentEdge := some (e.withStatus "rejected")
                sortedEdges := kruskalExamSnapshot sorted st.mstEdges index "rejected"
                mstEdges := st.mstEdges
                unionFindState := getUnionFindState st.uf nodes
                totalCost := st.totalCost
                action := "reject"
                wouldCreateCycle := some true }] }
          else
            let uf' := (st.uf.union fromNode toNode).1
            let mst' := st.mstEdges ++ [e.withStatus "accepted"]
            let cost' := st.totalCost + e.weight
            let desc := "Edge " ++ e.from_ ++ "-" ++ e.to_ ++ " (weight: " ++
              toString e.weight ++ ") added to MST."
            { uf := uf'
              mstEdges := mst'
              totalCost := cost'
              steps := st.steps ++ [{
                step := index + 1
                description := desc
                currentEdge := some (e.withStatus "accepted")
                sortedEdges := kruskalExamSnapshot sorted mst' index "accepted"
                mstEdges := mst'
                unionFindState := getUnionFindState uf' nodes
                totalCost := cost'
                action := "accept"
                wouldCreateCycle := some false }] }
        let st2 : KState :=
          if (st1.mstEdges.length : Int) = (nodeCount : Int) - 1 then
            { st1 with steps := st1.steps ++ [{
                step := index + 2
                description := "MST completed! Total cost: " ++ toString st1.totalCost
                currentEdge := none
                sortedEdges := kruskalCompleteSnapshot sorted st1.mstEdges index
                mstEdges := st1.mstEdges
                unionFindState := getUnionFindState st1.uf nodes
                totalCost := st1.totalCost
                action := "complete"
                wouldCreateCycle := none }] }
          else st1
        st2
      | _, _ => st

def kruskalLoop (sorted : List Edge) (nmap : List (String × Nat))
    (nodeCount : Nat) (nodes : List String) :
    List Edge → Nat → KState → KState
  | [], _, st => st
  | e :: rest, index, st =>
    kruskalLoop sorted nmap nodeCount nodes rest (index + 1)
      (kruskalIter sorted nmap nodeCount nodes e index st)

structure KFinal where
  mstEdges : List StatusEdge
  totalCost : Nat
  edgeCount : Nat
deriving DecidableEq, Repr

structure KResult where
  algorithm : String
  steps : List KStep
  finalResult : KFinal
deriving DecidableEq, Repr

def kruskalAlgorithm (g : Graph) : Except String KResult :=
  match validateGraph g with
  | Except.error msg => Except.error ("Kruskal algorithm error: " ++ msg)
  | Except.ok _ =>
    let edges := g.edges.insertionSort (fun a b => a.weight ≤ b.weight)
    let nodeCount := g.nodes.length
    let uf := UnionFind.create nodeCount
    let nmap := nodeMapOf g.nodes
    let initStep : KStep := {
      step := 0
      description := "Starting Kruskal's Algorithm. Edges sorted by weight."
      currentEdge := none
      sortedEdges := edges.map (fun e => e.withStatus "pending")
      mstEdges := []
      unionFindState := getUnionFindState uf g.nodes
      totalCost := 0
      action := "initialize"
      wouldCreateCycle := none }
    let st := kruskalLoop edges nmap nodeCount g.nodes edges 0
      { uf := uf, mstEdges := [], totalCost := 0, steps := [initStep] }
    Except.ok {
      algorithm := "Kruskal"
      steps := st.steps
      finalResult := {
        mstEdges := st.mstEdges
        totalCost := st.totalCost
        edgeCount := st.mstEdges.length } }

/-! ## Prim trace engine (`src/routes/prim.js`) -/

/-- Priority-queue entry (lines 34-39 / 93-98). -/
structure QEdge where
  from_ : String
  to_ : String
  weight : Nat
  edgeId : String
deriving DecidableEq, Repr

/-- `{...currentEdge, status}` as stored in a step's `currentEdge`. -/
structure QEdgeS where
  from_ : String
  to_ : String
  weight : Nat
  edgeId : String
  status : String
deriving DecidableEq, Repr

def QEdge.withStatus (q : QEdge) (s : String) : QEdgeS :=
  { from_ := q.from_, to_ := q.to_, weight := q.weight, edgeId := q.edgeId, status := s }

/-- MST edge record pushed at lines 77-83. -/
structure PMstEdge where
  id : String
  from_ : String
  to_ : String
  weight : Nat
  status : String
deriving DecidableEq, Repr

structure PStep where
  step : Nat
  description : String
  currentEdge : Option QEdgeS
  visitedNodes : List String
  priorityQueue : List QEdge
  mstEdges : List PMstEdge
  totalCost : Nat
  action : String
  newEdgesAdded : Option (List QEdge)
deriving DecidableEq, Repr

/-- `edge.edgeId || "from-to"` fallback used at lines 38 and 97. -/
def Arc.qedgeFrom (a : Arc) (src : String) : QEdge :=
  { from_ := src, to_ := a.to_, weight := a.weight,
    edgeId := if a.edgeId = "" then src ++ "-" ++ a.to_ else a.edgeId }

/-- The `while` loop, lines 58-118.  Returns (steps, visited, mstEdges,
totalCost, stepCount).  Terminates because a skipped entry shrinks the queue
and an accepted entry shrinks `n - visited.length` (the guard at the loop
head gives `visited.length < n` in that case). -/
def primLoop (adj : AdjList) (n : Nat) :
    (queue : List QEdge) → (visited : List String) → (mst : List PMstEdge) →
    (cost : Nat) → (steps : List PStep) → (stepCount : Nat) →
    List PStep × List String × List PMstEdge × Nat × Nat
  | [], visited, mst, cost, steps, sc => (steps, visited, mst, cost, sc)
  | q :: rest, visited, mst, cost, steps, sc =>
    if h : visited.length < n then
      if q.to_ = "" then
        -- `if (!currentEdge || !currentEdge.to) continue;`
        primLoop adj n rest visited mst cost steps sc
      else if hv : q.to_ ∈ visited then
        primLoop adj n rest visited mst cost
          (steps ++ [{
            step := sc
            description := "Edge " ++ q.from_ ++ "-" ++ q.to_ ++ " (weight: " ++
              toString q.weight ++ ") skipped - both nodes already in MST"
            currentEdge := some (q.withStatus "skipped")
            visitedNodes := visited
            priorityQueue := rest
            mstEdges := mst
            totalCost := cost
            action := "skip"
            newEdgesAdded := none }]) (sc + 1)
      else
        -- the JS locals mstEdges-push / totalCost / visited-add / newEdges /
        -- filtered+re-sorted queue are written out in place
        primLoop adj n
          ((rest ++ ((getEntry q.to_ adj).getD []).filterMap (fun a =>
            if a.to_ ≠ "" ∧ a.to_ ∉ visited ++ [q.to_] then some (a.qedgeFrom q.to_)
            else none)).filter
              (fun e => e.to_ ≠ "" ∧ e.to_ ∉ visited ++ [q.to_])
            |>.insertionSort (fun a b => a.weight ≤ b.weight))
          (visited ++ [q.to_])
          (mst ++ [{
            id := q.edgeId, from_ := q.from_, to_ := q.to_,
            weight := q.weight, status := "accepted" }])
          (cost + q.weight)
          (steps ++ [{
            step := sc
            description := "Added edge " ++ q.from_ ++ "-" ++ q.to_ ++ " (weight: " ++
              toString q.weight ++ ") to MST. Added " ++
              toString (((getEntry q.to_ adj).getD []).filterMap (fun a =>
                if a.to_ ≠ "" ∧ a.to_ ∉ visited ++ [q.to_] then some (a.qedgeFrom q.to_)
                else none)).length ++
              " new edges to consider."
            currentEdge := some (q.withStatus "accepted")
            visitedNodes := visited ++ [q.to_]
            priorityQueue := (rest ++ ((getEntry q.to_ adj).getD []).filterMap (fun a =>
              if a.to_ ≠ "" ∧ a.to_ ∉ visited ++ [q.to_] then some (a.qedgeFrom q.to_)
              else none)).filter
                (fun e => e.to_ ≠ "" ∧ e.to_ ∉ visited ++ [q.to_])
              |>.insertionSort (fun a b => a.weight ≤ b.weight)
            mstEdges := mst ++ [{
              id := q.edgeId, from_ := q.from_, to_ := q.to_,
              weight := q.weight, status := "accepted" }]
            totalCost := cost + q.weight
            action := "accept"
            newEdgesAdded := some (((getEntry q.to_ adj).getD []).filterMap (fun a =>
              if a.to_ ≠ "" ∧ a.to_ ∉ visited ++ [q.to_] then some (a.qedgeFrom q.to_)
              else none)) }]) (sc + 1)
    else (steps, visited, mst, cost, sc)
termination_by queue visited => (n - visited.length, queue.length)
decreasing_by
  · apply Prod.Lex.right
    simp
  · apply Prod.Lex.right
    simp
  · apply Prod.Lex.left
    simp only [List.length_append, List.length_cons, List.length_nil]
    omega

structure PFinal where
  mstEdges : List PMstEdge
  totalCost : Nat
  edgeCount : Nat
  startNode : String
deriving DecidableEq, Repr

structure PResult where
  algorithm : String
  steps : List PStep
  finalResult : PFinal
deriving DecidableEq, Repr

/-- The body of `primAlgorithm` once a usable (truthy) start id is chosen
(prim.js lines 27-142). -/
def primMain (g : Graph) (startNode : String) : PResult :=
  let adj := createAdjacencyList g
  let visited := [startNode]
  let startNeighbors := (getEntry startNode adj).getD []
  let pq0 := startNeighbors.filterMap (fun a =>
    if a.to_ ≠ "" ∧ a.to_ ∉ visited then some (a.qedgeFrom startNode) else none)
  let pq := pq0.insertionSort (fun a b => a.weight ≤ b.weight)
  let initStep : PStep := {
    step := 0
    description := "Starting Prim's Algorithm from node " ++ startNode
    currentEdge := none
    visitedNodes := visited
    priorityQueue := pq
    mstEdges := []
    totalCost := 0
    action := "initialize"
    newEdgesAdded := none }
  let res := primLoop adj g.nodes.length pq visited [] 0 [initStep] 1
  let steps := res.1
  let visitedF := res.2.1
  let mstF := res.2.2.1
  let costF := res.2.2.2.1
  let scF := res.2.2.2.2
  let steps2 :=
    if visitedF.length = g.nodes.length then
      steps ++ [{
        step := scF
        description := "MST completed! All nodes visited. Total cost: " ++ toString costF
        currentEdge := none
        visitedNodes := visitedF
        priorityQueue := []
        mstEdges := mstF
        totalCost := costF
        action := "complete"
        newEdgesAdded := none }]
    else steps
  { algorithm := "Prim"
    steps := steps2
    finalResult := {
      mstEdges := mstF
      totalCost := costF
      edgeCount := mstF.length
      startNode := startNode } }

def primAlgorithm (g : Graph) (startNodeId : Option String) : Except String PResult :=
  match validateGraph g with
  | Except.error msg => Except.error ("Prim algorithm error: " ++ msg)
  | Except.ok _ =>
    if g.nodes.length = 0 then
      Except.error "Prim algorithm error: Graph must have at least one node"
    else
      -- `startNodeId || (graph.nodes[0] ? graph.nodes[0].id : null)`
      let fallback := g.nodes.headD ""
      let startNode :=
        match startNodeId with
        | some s => if s = "" then fallback else s
        | none => fallback
      if startNode = "" then
        Except.error "Prim algorithm error: No valid start node found"
      else
        Except.ok (primMain g startNode)

/-! ## Dijkstra trace engine (`src/routes/dijkstra.js`) -/

/-- A distance value: `⊤` is the JS `Infinity` sentinel. -/
abbrev Dist := WithTop Nat

/-- `d === Infinity ? '∞' : String(d || 0)` for a distance that is present. -/
def renderDist : Dist → String
  | ⊤ => "∞"
  | (n : Nat) => toString n

/-- Same rendering applied to a possibly-absent map entry: JS evaluates
`undefined === Infinity` to false and `String(undefined || 0)` to `"0"`. -/
def renderDistOpt : Option Dist → String
  | some d => renderDist d
  | none => "0"

structure DQEntry where
  nodeId : String
  distance : Dist
deriving DecidableEq, Repr

structure PathInfo where
  path : List String
  distance : Dist
deriving DecidableEq, Repr

structure UpdatedNeighbor where
  nodeId : String
  oldDistance : String
  newDistance : String
  via : String
deriving DecidableEq, Repr

structure DStep where
  step : Nat
  description : String
  currentNode : Option String
  distances : List (String × Dist)
  previous : List (String × Option String)
  visited : List String
  priorityQueue : List DQEntry
  shortestPaths : List (String × PathInfo)
  action : String
  updatedNeighbors : Option (List UpdatedNeighbor)
deriving DecidableEq, Repr

/-- The backward walk of `getShortestPaths` (lines 241-251), in visit order
(the JS loop `unshift`s, so the stored path is the reverse of this list).
`fuel` is the remaining number of allowed `unshift`s (`maxSteps`). -/
def walkBack (previous : List (String × Option String)) (source : String) :
    Nat → String → List String
  | 0, _ => []
  | fuel + 1, current =>
    if current = source then [current]
    else
      match getEntry current previous with
      | some (some p) => current :: walkBack previous source fuel p
      | _ => [current]

/-- `getShortestPaths` (lines 219-270). -/
def getShortestPaths (previous : List (String × Option String)) (source : String)
    (processedNodes : List String) (distances : List (String × Dist)) :
    List (String × PathInfo) :=
  if source = "" then []
  else
    processedNodes.foldl (fun acc nodeId =>
      if nodeId = "" then acc
      else if nodeId = source then
        setEntry nodeId { path := [source], distance := (0 : Nat) } acc
      else
        let path := (walkBack previous source (processedNodes.length + 1) nodeId).reverse
        if path.head? = some source then
          setEntry nodeId { path := path, distance := (getEntry nodeId distances).getD ⊤ } acc
        else
          setEntry nodeId { path := [], distance := (⊤ : Dist) } acc) []

/-- `targetNodeId && ...`: a target participates only when non-null and truthy. -/
def hasTarget : Option String → Bool
  | some t => t ≠ ""
  | none => false

structure DState where
  distances : List (String × Dist)
  previous : List (String × Option String)
  visited : List String
  queue : List DQEntry
  steps : List DStep
  stepCount : Nat
deriving DecidableEq, Repr

/-- `currentDist === Infinity ? Infinity : currentDist + edgeWeight` (line 110). -/
def addDist (d : Dist) (w : Nat) : Dist :=
  match d with
  | ⊤ => ⊤
  | (n : Nat) => ((n + w : Nat) : Dist)

/-- Relaxation of one adjacency entry (lines 102-132), acting on
(distances, previous, queue, updatedNeighbors). -/
def relaxArc (currentNodeId : String) (visited : List String) (st : DState)
    (a : Arc) : DState :=
  if a.to_ = "" then st
  else if a.to_ ∈ visited then st
  else
    let currentDist := (getEntry currentNodeId st.distances).getD ⊤
    let newDistance : Dist := addDist currentDist a.weight
    let oldDistance := (getEntry a.to_ st.distances).getD ⊤
    if newDistance < oldDistance then
      { st with
        distances := setEntry a.to_ newDistance st.distances
        previous := setEntry a.to_ (some currentNodeId) st.previous
        queue := (st.queue.filter (fun item => item.nodeId ≠ a.to_)) ++
          [{ nodeId := a.to_, distance := newDistance }] }
    else st

/-- `updatedNeighbors` entry produced when `relaxArc` lowered a distance. -/
def updatedEntryOf (currentNodeId : String) (oldD newD : Dist) (nid : String) :
    UpdatedNeighbor :=
  { nodeId := nid, oldDistance := renderDist oldD, newDistance := renderDist newD,
    via := currentNodeId }

/-- One pass over the neighbor list, also collecting `updatedNeighbors`. -/
def relaxNeighbors (currentNodeId : String) (visited : List String) :
    List Arc → DState → List UpdatedNeighbor → DState × List UpdatedNeighbor
  | [], st, upd => (st, upd)
  | a :: rest, st, upd =>
    let st' := relaxArc currentNodeId visited st a
    let upd' :=
      if a.to_ = "" ∨ a.to_ ∈ visited then upd
      else
        let currentDist := (getEntry currentNodeId st.distances).getD ⊤
        let newDistance : Dist := addDist currentDist a.weight
        let oldDistance := (getEntry a.to_ st.distances).getD ⊤
        if newDistance < oldDistance then
          upd ++ [updatedEntryOf currentNodeId oldDistance newDistance a.to_]
        else upd
    relaxNeighbors currentNodeId visited rest st' upd'

/-- One iteration of the `while` loop (lines 59-148): the returned flag is
true when the loop stops (empty queue, or target reached — the `break`).
`while (priorityQueue.length > 0)`: the sorted queue is empty exactly when
the queue is, so one match covers both the guard and the `shift`. -/
def dijkstraIter (adj : AdjList) (source : String) (targetNodeId : Option String)
    (st : DState) : DState × Bool :=
    match st.queue.insertionSort (fun a b => a.distance ≤ b.distance) with
    | [] => (st, true)
    | current :: rest =>
        if current.nodeId = "" then
          ({ st with queue := rest }, false)
        else if current.nodeId ∈ st.visited then
          ({ st with queue := rest }, false)
        else
          let currentNodeId := current.nodeId
          let visited' := st.visited ++ [currentNodeId]
          let distanceStr := renderDistOpt (getEntry currentNodeId st.distances)
          let processStep : DStep := {
            step := st.stepCount
            description := "Processing node " ++ currentNodeId ++ " with distance " ++ distanceStr
            currentNode := some currentNodeId
            distances := st.distances
            previous := st.previous
            visited := visited'
            priorityQueue := rest
            shortestPaths := getShortestPaths st.previous source visited' st.distances
            action := "process_node"
            updatedNeighbors := none }
          let st1 : DState := { st with
            visited := visited'
            queue := rest
            steps := st.steps ++ [processStep]
            stepCount := st.stepCount + 1 }
          if hasTarget targetNodeId ∧ some currentNodeId = targetNodeId then
            (st1, true)
          else
            let neighbors := (getEntry currentNodeId adj).getD []
            let r := relaxNeighbors currentNodeId visited' neighbors st1 []
            let st2 := r.1
            let upd := r.2
            let st3 : DState :=
              if upd.length > 0 then
                { st2 with
                  steps := st2.steps ++ [{
                    step := st2.stepCount
                    description := "Updated distances for " ++ toString upd.length ++
                      " neighbor(s) of node " ++ currentNodeId
                    currentNode := some currentNodeId
                    distances := st2.distances
                    previous := st2.previous
                    visited := visited'
                    priorityQueue := st2.queue
                    shortestPaths := getShortestPaths st2.previous source visited' st2.distances
                    action := "update_distances"
                    updatedNeighbors := some upd }]
                  stepCount := st2.stepCount + 1 }
              else st2
            (st3, false)

def dijkstraLoop (adj : AdjList) (source : String) (targetNodeId : Option String) :
    Nat → DState → DState
  | 0, st => st
  | fuel + 1, st =>
    let r := dijkstraIter adj source targetNodeId st
    if r.2 then r.1 else dijkstraLoop adj source targetNodeId fuel r.1

structure DFinal where
  sourceNode : String
  targetNode : Option String
  distances : List (String × Dist)
  shortestPaths : List (String × PathInfo)
  pathExists : Bool
deriving DecidableEq, Repr

structure DResult where
  algorithm : String
  steps : List DStep
  finalResult : DFinal
deriving DecidableEq, Repr

/-- `path.join(' → ')`. -/
def joinArrow : List String → String
  | [] => ""
  | [x] => x
  | x :: rest => x ++ " → " ++ joinArrow rest

def dijkstraAlgorithm (g : Graph) (sourceNodeId : String) (targetNodeId : Option String) :
    Except String DResult :=
  match validateGraph g with
  | Except.error msg => Except.error ("Dijkstra algorithm error: " ++ msg)
  | Except.ok _ =>
    if sourceNodeId = "" then
      Except.error "Dijkstra algorithm error: Source node ID is required"
    else if ¬ (g.nodes.any (fun nid => nid ≠ "" ∧ nid = sourceNodeId)) then
      Except.error ("Dijkstra algorithm error: Source node '" ++ sourceNodeId ++
        "' not found in graph")
    else
      let adj := createAdjacencyList g
      let distances0 : List (String × Dist) :=
        g.nodes.foldl (fun acc nid =>
          if nid = "" then acc
          else setEntry nid (if nid = sourceNodeId then ((0 : Nat) : Dist) else ⊤) acc) []
      let previous0 : List (String × Option String) :=
        g.nodes.foldl (fun acc nid =>
          if nid = "" then acc else setEntry nid none acc) []
      let queue0 : List DQEntry := [{ nodeId := sourceNodeId, distance := (0 : Nat) }]
      let initStep : DStep := {
        step := 0
        description := "Starting Dijkstra's Algorithm from node " ++ sourceNodeId
        currentNode := none
        distances := distances0
        previous := previous0
        visited := []
        priorityQueue := queue0
        shortestPaths := []
        action := "initialize"
        updatedNeighbors := none }
      -- Fuel: one pop per iteration; at most `1 + 2 * edges` entries are ever
      -- pushed, so this strictly exceeds the number of iterations.
      let fuel := 2 * g.edges.length + g.nodes.length + 2
      let st := dijkstraLoop adj sourceNodeId targetNodeId fuel {
        distances := distances0
        previous := previous0
        visited := []
        queue := queue0
        steps := [initStep]
        stepCount := 1 }
      let finalPaths := getShortestPaths st.previous sourceNodeId g.nodes st.distances
      let finalDescription :=
        if hasTarget targetNodeId then
          match targetNodeId with
          | some t =>
            if getEntry t st.distances = some (⊤ : Dist) then
              "No path exists from " ++ sourceNodeId ++ " to " ++ t
            else
              let pathStr :=
                match getEntry t finalPaths with
                | some pi => if pi.path.length > 0 then joinArrow pi.path else "No path"
                | none => "No path"
              let distStr := renderDistOpt (getEntry t st.distances)
              "Shortest path from " ++ sourceNodeId ++ " to " ++ t ++ ": " ++ pathStr ++
                " (distance: " ++ distStr ++ ")"
          | none => "All shortest paths from " ++ sourceNodeId ++ " computed"
        else "All shortest paths from " ++ sourceNodeId ++ " computed"
      let completeStep : DStep := {
        step := st.stepCount
        description := finalDescription
        currentNode := none
        distances := st.distances
        previous := st.previous
        visited := st.visited
        priorityQueue := []
        shortestPaths := finalPaths
        action := "complete"
        updatedNeighbors := none }
      Except.ok {
        algorithm := "Dijkstra"
        steps := st.steps ++ [completeStep]
        finalResult := {
          sourceNode := sourceNodeId
          targetNode := match targetNodeId with
            | some t => if t = "" then none else some t
            | none => none
          distances := st.distances
          shortestPaths := finalPaths
          pathExists :=
            match targetNodeId with
            | some t =>
              if t = "" then true
              else decide (getEntry t st.distances ≠ some (⊤ : Dist))
            | none => true } }

/-! ## Basic lemmas about the association-list primitives -/

theorem getEntry_setEntry {κ β : Type} [DecidableEq κ] (k k' : κ) (v : β)
    (l : List (κ × β)) :
    getEntry k (setEntry k' v l) = if k' = k then some v else getEntry k l := by
  induction l with
  | nil => simp [getEntry, setEntry]
  | cons p rest ih =>
    by_cases h1 : p.1 = k'
    · by_cases h2 : k' = k <;> simp [getEntry, setEntry, h1, h2]
    · simp only [setEntry, h1, if_neg]
      by_cases h2 : p.1 = k
      · have : ¬ k' = k := fun he => h1 (h2.trans he.symm ▸ rfl)
        simp [getEntry, h2, this]
      · simp [getEntry, h2, ih]

theorem mem_setEntry {κ β : Type} [DecidableEq κ] (p : κ × β) (k : κ) (v : β)
    (l : List (κ × β)) : p ∈ setEntry k v l → p = (k, v) ∨ p ∈ l := by
  induction l with
  | nil =>
    intro h
    simpa [setEntry] using h
  | cons q rest ih =>
    intro h
    by_cases h1 : q.1 = k
    · simp only [setEntry, if_pos h1, List.mem_cons] at h
      rcases h with h | h
      · exact Or.inl h
      · exact Or.inr (List.mem_cons_of_mem q h)
    · simp only [setEntry, if_neg h1, List.mem_cons] at h
      rcases h with h | h
      · exact Or.inr (h ▸ List.mem_cons_self q rest)
      · rcases ih h with h' | h'
        · exact Or.inl h'
        · exact Or.inr (List.mem_cons_of_mem q h')

theorem getEntry_mem {κ β : Type} [DecidableEq κ] (k : κ) (v : β)
    (l : List (κ × β)) (h : getEntry k l = some v) : (k, v) ∈ l := by
  induction l with
  | nil => simp [getEntry] at h
  | cons q rest ih =>
    by_cases h1 : q.1 = k
    · simp only [getEntry, h1, if_pos, Option.some.injEq] at h
      subst h
      have : q = (k, q.2) := by
        cases q
        simp_all
      rw [← this]
      exact List.mem_cons_self q rest
    · simp only [getEntry, h1, if_neg] at h
      exact List.mem_cons_of_mem q (ih h)

/-- Generic preservation of an invariant along a `foldl`. -/
theorem foldl_invariant {α σ : Type} (f : σ → α → σ) (P : σ → Prop)
    (l : List α) (s : σ) (hs : P s) (hstep : ∀ s a, a ∈ l → P s → P (f s a)) :
    P (l.foldl f s) := by
  induction l generalizing s with
  | nil => exact hs
  | cons a rest ih =>
    exact ih (f s a) (hstep s a (List.mem_cons_self a rest) hs)
      (fun s' a' ha' h' => hstep s' a' (List.mem_cons_of_mem a ha') h')

/-! ## Concrete inputs used by counterexamples and witnesses -/

/-- An undirected edge with an explicit id. -/
def mkEdge (i f t : String) (w : Nat) : Edge :=
  { id := some i, from_ := f, to_ := t, weight := w, directed := false }

/-- Connected triangle: the MST (A-B, B-C) completes one edge before the edge
list ends, which exercises Kruskal's early-stop path. -/
def triangleGraph : Graph :=
  { nodes := ["A", "B", "C"],
    edges := [mkEdge "e1" "A" "B" 1, mkEdge "e2" "B" "C" 2, mkEdge "e3" "A" "C" 3] }

/-- Disconnected graph: node C is isolated. -/
def discGraph : Graph :=
  { nodes := ["A", "B", "C"],
    edges := [mkEdge "e1" "A" "B" 1] }

/-- One node, no edges. -/
def singleGraph : Graph :=
  { nodes := ["A"], edges := [] }

/-! ## C2 -/

/-- C2 (claim: for every run of the three engines, the `step` fields of the
emitted trace are strictly increasing integers starting at 0).  The code
violates this: Kruskal's completion check uses `return` inside
`edges.forEach`, which only ends one iteration, so on the triangle graph the
edge A-C is still examined after the `complete` step, producing the step
sequence 0,1,2,3,3,4 in which 3 repeats. -/
theorem kruskal_trace_steps_repeat_after_completion :
    (kruskalAlgorithm triangleGraph).map (fun r => r.steps.map (fun s => s.step)) =
      Except.ok [0, 1, 2, 3, 3, 4] ∧
    ¬ List.Chain' (· < ·) [0, 1, 2, 3, 3, 4] := by
  constructor
  · rfl
  · intro h
    simp only [List.chain'_cons, List.chain'_nil] at h
    omega

/-! ## C3 -/

/-- C3 (claim: once the accepted edge count reaches nodeCount - 1, Kruskal
appends exactly one final `complete` step and processes no further edges, so
the last step is the `complete` step and no accept/reject step follows it).
The code violates this: on the triangle graph the action sequence is
initialize, accept, accept, complete, reject, complete — the edge A-C is
examined after the first `complete` step and a second `complete` step is
appended. -/
theorem kruskal_processes_edges_after_completion :
    (kruskalAlgorithm triangleGraph).map (fun r => r.steps.map (fun s => s.action)) =
      Except.ok ["initialize", "accept", "accept", "complete", "reject", "complete"] ∧
    (kruskalAlgorithm triangleGraph).map
        (fun r => (r.steps.filter (fun s => s.action = "complete")).length) =
      Except.ok 2 := by
  exact ⟨rfl, rfl⟩

/-! ## C9 -/

def emptyGraph : Graph := { nodes := [], edges := [] }

theorem primLoop_nil (adj : AdjList) (n : Nat) (v : List String) (m : List PMstEdge)
    (c : Nat) (st : List PStep) (sc : Nat) :
    primLoop adj n [] v m c st sc = (st, v, m, c, sc) := by
  simp [primLoop]

/-- C9 counterexample (claim: runPrim fails with an InvalidStart error
whenever the graph has zero nodes or no usable start node — in particular a
supplied startNodeId that is not the id of any node — returning no Trace or
FinalResult in that case).  The code only tests the chosen start id for
truthiness, never for membership, so the unknown start "Z" on a one-node
graph succeeds and returns a full result (and even a `complete` step, since
the lone visited node "Z" makes `visited.size === nodes.length`). -/
theorem prim_accepts_unknown_start :
    primAlgorithm singleGraph (some "Z") =
      Except.ok {
        algorithm := "Prim"
        steps := [{
          step := 0
          description := "Starting Prim's Algorithm from node Z"
          currentEdge := none
          visitedNodes := ["Z"]
          priorityQueue := []
          mstEdges := []
          totalCost := 0
          action := "initialize"
          newEdgesAdded := none },
          {
          step := 1
          description := "MST completed! All nodes visited. Total cost: 0"
          currentEdge := none
          visitedNodes := ["Z"]
          priorityQueue := []
          mstEdges := []
          totalCost := 0
          action := "complete"
          newEdgesAdded := none }]
        finalResult := {
          mstEdges := []
          totalCost := 0
          edgeCount := 0
          startNode := "Z" } } := by
  simp +decide [primAlgorithm, primMain, primLoop, singleGraph, validateGraph,
    createAdjacencyList, setEntry, getEntry, nodeMapOf]

theorem validateGraph_ok_nodes_ne (g : Graph) (h : validateGraph g = Except.ok ()) :
    g.nodes.length ≠ 0 := by
  intro hlen
  simp only [validateGraph, hlen, if_true] at h
  exact Except.noConfusion h

/-- C9 amended: runPrim fails when the graph has zero nodes, or when no start
id can be determined (no usable supplied id and the first node's id is
missing); but a supplied non-empty startNodeId always yields a successful
run on a valid graph, even when it is not the id of any node. -/
theorem prim_start_failure_behavior (g : Graph) (startId : Option String) :
    (g.nodes = [] → ∃ msg, primAlgorithm g startId = Except.error msg) ∧
    ((startId = none ∨ startId = some "") → g.nodes.headD "" = "" →
      validateGraph g = Except.ok () →
      primAlgorithm g startId =
        Except.error "Prim algorithm error: No valid start node found") ∧
    (∀ s, validateGraph g = Except.ok () → startId = some s → s ≠ "" →
      (primAlgorithm g startId).isOk = true) := by
  refine ⟨?_, ?_, ?_⟩
  · intro hnil
    refine ⟨"Prim algorithm error: Graph must have at least one node", ?_⟩
    have hval : validateGraph g = Except.error "Graph must have at least one node" := by
      simp only [validateGraph, hnil, List.length_nil, if_true]
    simp only [primAlgorithm, hval]
    rfl
  · intro hsid hhead hval
    have hlen := validateGraph_ok_nodes_ne g hval
    rcases hsid with h | h <;> subst h <;>
      simp only [primAlgorithm, hval, hlen, if_false, hhead, if_pos rfl, ite_self, if_true]
  · intro s hval hsid hs
    have hlen := validateGraph_ok_nodes_ne g hval
    simp only [primAlgorithm, hval, hsid, hlen, if_false, hs, if_neg hs, Except.isOk,
      Except.toBool]

/-- A graph whose single node carries the empty (falsy) id. -/
def blankNodeGraph : Graph := { nodes := [""], edges := [] }

/-- Witness for `prim_start_failure_behavior` at concrete inputs. -/
theorem prim_start_failure_behavior_witness :
    (∃ msg, primAlgorithm emptyGraph none = Except.error msg) ∧
    primAlgorithm blankNodeGraph none =
      Except.error "Prim algorithm error: No valid start node found" ∧
    (primAlgorithm singleGraph (some "Z")).isOk = true := by
  refine ⟨?_, ?_, ?_⟩
  · exact (prim_start_failure_behavior emptyGraph none).1 rfl
  · exact (prim_start_failure_behavior blankNodeGraph none).2.1 (Or.inl rfl) rfl rfl
  · exact (prim_start_failure_behavior singleGraph (some "Z")).2.2 "Z" rfl rfl (by decide)

/-! ## C10 -/

theorem getLast?_snoc {α : Type} (l : List α) (a : α) : (l ++ [a]).getLast? = some a := by
  simp

/-- Lookup misses survive the node-initialisation folds of the engines. -/
theorem getEntry_initFold_none {β : Type} (f : String → β) (nodes : List String)
    (t : String) (ht : t ∉ nodes) (acc : List (String × β))
    (hacc : getEntry t acc = none) :
    getEntry t (nodes.foldl
      (fun acc nid => if nid = "" then acc else setEntry nid (f nid) acc) acc) = none := by
  apply foldl_invariant _ (fun acc => getEntry t acc = none) _ _ hacc
  intro s nid hmem hs
  by_cases h0 : nid = ""
  · simpa [h0] using hs
  · have hne : nid ≠ t := fun he => ht (he ▸ hmem)
    simp only [h0, if_neg, if_false, getEntry_setEntry, hne, hs]

/-- Keys are non-empty node ids; every arc's far endpoint is a non-empty
node id. -/
def AdjInv (g : Graph) (acc : AdjList) : Prop :=
  (∀ k, (getEntry k acc).isSome = true → k ∈ g.nodes ∧ k ≠ "") ∧
  (∀ p ∈ acc, ∀ a ∈ p.2, a.to_ ∈ g.nodes ∧ a.to_ ≠ "")

theorem createAdjacencyList_invariant (g : Graph) : AdjInv g (createAdjacencyList g) := by
  unfold createAdjacencyList
  refine foldl_invariant _ (AdjInv g) _ _ ?_ ?_
  · -- the node-initialisation fold
    refine foldl_invariant _ (AdjInv g) _ _ ?_ ?_
    · constructor
      · intro k hk
        simp [getEntry] at hk
      · intro p hp
        simp at hp
    · intro s nid hmem hs
      by_cases h0 : nid = ""
      · simpa [h0] using hs
      · simp only [h0, if_neg, if_false]
        constructor
        · intro k hk
          rw [getEntry_setEntry] at hk
          by_cases hkn : nid = k
          · exact ⟨hkn ▸ hmem, hkn ▸ h0⟩
          · rw [if_neg hkn] at hk
            exact hs.1 k hk
        · intro p hp a ha
          rcases mem_setEntry p nid [] s hp with h | h
          · rw [h] at ha
            simp at ha
          · exact hs.2 p h a ha
  · -- the edge fold
    intro s e hmem hs
    by_cases hc : e.from_ ≠ "" ∧ e.to_ ≠ "" ∧ (getEntry e.from_ s).isSome = true ∧
        (getEntry e.to_ s).isSome = true
    · rw [if_pos hc]
      obtain ⟨hf, ht, hfs, hts⟩ := hc
      have hto : e.to_ ∈ g.nodes ∧ e.to_ ≠ "" := hs.1 _ hts
      have hfrom : e.from_ ∈ g.nodes ∧ e.from_ ≠ "" := hs.1 _ hfs
      obtain ⟨arcsF, harcsF⟩ := Option.isSome_iff_exists.mp hfs
      have hkeys1 : ∀ k, (getEntry k (setEntry e.from_
          (arcsF ++ [{ to_ := e.to_, weight := e.weight, edgeId := e.edgeIdOf }]) s)).isSome = true →
          k ∈ g.nodes ∧ k ≠ "" := by
        intro k hk
        rw [getEntry_setEntry] at hk
        by_cases hkn : e.from_ = k
        · exact hkn ▸ hfrom
        · rw [if_neg hkn] at hk
          exact hs.1 k hk
      have hvals1 : ∀ p ∈ setEntry e.from_
          (arcsF ++ [{ to_ := e.to_, weight := e.weight, edgeId := e.edgeIdOf }]) s,
          ∀ a ∈ p.2, a.to_ ∈ g.nodes ∧ a.to_ ≠ "" := by
        intro p hp a ha
        rcases mem_setEntry _ _ _ _ hp with h | h
        · rw [h] at ha
          simp only [List.mem_append, List.mem_singleton] at ha
          rcases ha with ha | ha
          · exact hs.2 _ (getEntry_mem _ _ _ harcsF) a ha
          · rw [ha]
            exact hto
        · exact hs.2 p h a ha
      rw [harcsF]
      by_cases hd : e.directed
      · simp only [hd, if_true]
        exact ⟨hkeys1, hvals1⟩
      · simp only [hd, if_false, Bool.false_eq_true]
        set acc1 := setEntry e.from_
          (arcsF ++ [{ to_ := e.to_, weight := e.weight, edgeId := e.edgeIdOf }]) s with hacc1
        cases hts1 : getEntry e.to_ acc1 with
        | none => exact ⟨hkeys1, hvals1⟩
        | some arcsT =>
          constructor
          · intro k hk
            rw [getEntry_setEntry] at hk
            by_cases hkn : e.to_ = k
            · exact hkn ▸ hto
            · rw [if_neg hkn] at hk
              exact hkeys1 k hk
          · intro p hp a ha
            rcases mem_setEntry _ _ _ _ hp with h | h
            · rw [h] at ha
              simp only [List.mem_append, List.mem_singleton] at ha
              rcases ha with ha | ha
              · exact hvals1 _ (getEntry_mem _ _ _ hts1) a ha
              · rw [ha]
                exact hfrom
            · exact hvals1 p h a ha
    · rw [if_neg hc]
      exact hs

theorem relaxArc_skeleton (c : String) (v : List String) (st : DState) (a : Arc) :
    (relaxArc c v st a).steps = st.steps ∧ (relaxArc c v st a).stepCount = st.stepCount ∧
    (relaxArc c v st a).visited = st.visited := by
  unfold relaxArc
  by_cases h0 : a.to_ = ""
  · simp [h0]
  · by_cases h1 : a.to_ ∈ v
    · simp [h0, h1]
    · simp only [h0, if_neg, if_false, h1]
      by_cases h2 : addDist ((getEntry c st.distances).getD ⊤) a.weight <
          (getEntry a.to_ st.distances).getD ⊤
      · simp [h2]
      · simp [h2]

theorem relaxNeighbors_skeleton (c : String) (v : List String) (arcs : List Arc)
    (st : DState) (upd : List UpdatedNeighbor) :
    (relaxNeighbors c v arcs st upd).1.steps = st.steps ∧
    (relaxNeighbors c v arcs st upd).1.stepCount = st.stepCount ∧
    (relaxNeighbors c v arcs st upd).1.visited = st.visited := by
  induction arcs generalizing st upd with
  | nil => exact ⟨rfl, rfl, rfl⟩
  | cons a rest ih =>
    have hs := relaxArc_skeleton c v st a
    simp only [relaxNeighbors]
    refine ⟨?_, ?_, ?_⟩
    · rw [(ih _ _).1, hs.1]
    · rw [(ih _ _).2.1, hs.2.1]
    · rw [(ih _ _).2.2, hs.2.2]

theorem relaxArc_distances_none (c : String) (v : List String) (st : DState)
    (a : Arc) (t : String) (hat : a.to_ ≠ t)
    (h : getEntry t st.distances = none) :
    getEntry t (relaxArc c v st a).distances = none := by
  unfold relaxArc
  by_cases h0 : a.to_ = ""
  · simpa [h0] using h
  · by_cases h1 : a.to_ ∈ v
    · simpa [h0, h1] using h
    · simp only [h0, if_neg, if_false, h1]
      by_cases h2 : addDist ((getEntry c st.distances).getD ⊤) a.weight <
          (getEntry a.to_ st.distances).getD ⊤
      · simp only [h2, if_pos, if_true]
        rw [getEntry_setEntry, if_neg hat]
        exact h
      · simpa [h2] using h

theorem relaxNeighbors_distances_none (c : String) (v : List String)
    (arcs : List Arc) (st : DState) (upd : List UpdatedNeighbor) (t : String)
    (harcs : ∀ a ∈ arcs, a.to_ ≠ t) (h : getEntry t st.distances = none) :
    getEntry t (relaxNeighbors c v arcs st upd).1.distances = none := by
  induction arcs generalizing st upd with
  | nil => exact h
  | cons a rest ih =>
    simp only [relaxNeighbors]
    exact ih _ _ (fun a' ha' => harcs a' (List.mem_cons_of_mem a ha'))
      (relaxArc_distances_none c v st a t (harcs a (List.mem_cons_self a rest)) h)

theorem dijkstraIter_distances_none (adj : AdjList) (s : String) (tgt : Option String)
    (st : DState) (t : String)
    (hadj : ∀ p ∈ adj, ∀ a ∈ p.2, a.to_ ≠ t)
    (h : getEntry t st.distances = none) :
    getEntry t (dijkstraIter adj s tgt st).1.distances = none := by
  have harcs : ∀ c, ∀ a ∈ (getEntry c adj).getD [], a.to_ ≠ t := by
    intro c a ha
    cases hget : getEntry c adj with
    | none =>
      rw [hget] at ha
      simp at ha
    | some arcs =>
      rw [hget] at ha
      exact hadj _ (getEntry_mem _ _ _ hget) a ha
  unfold dijkstraIter
  cases hq : st.queue.insertionSort (fun a b => a.distance ≤ b.distance) with
  | nil => exact h
  | cons current rest =>
    by_cases h0 : current.nodeId = ""
    · simp only [h0, if_pos, if_true]
      exact h
    · simp only [h0, if_neg, if_false]
      by_cases h1 : current.nodeId ∈ st.visited
      · simp only [h1, if_pos, if_true]
        exact h
      · simp only [h1, if_neg, if_false]
        by_cases h2 : hasTarget tgt = true ∧ some current.nodeId = tgt
        · simp only [h2, and_self, if_pos, if_true]
          exact h
        · simp only [if_neg h2]
          by_cases h3 : 0 < (relaxNeighbors current.nodeId (st.visited ++ [current.nodeId])
              ((getEntry current.nodeId adj).getD [])
              { st with
                visited := st.visited ++ [current.nodeId]
                queue := rest
                steps := st.steps ++ [{
                  step := st.stepCount
                  description := "Processing node " ++ current.nodeId ++ " with distance " ++
                    renderDistOpt (getEntry current.nodeId st.distances)
                  currentNode := some current.nodeId
                  distances := st.distances
                  previous := st.previous
                  visited := st.visited ++ [current.nodeId]
                  priorityQueue := rest
                  shortestPaths := getShortestPaths st.previous s
                    (st.visited ++ [current.nodeId]) st.distances
                  action := "process_node"
                  updatedNeighbors := none }]
                stepCount := st.stepCount + 1 } []).2.length
          · simp only [gt_iff_lt, h3, if_pos, if_true]
            exact relaxNeighbors_distances_none _ _ _ _ _ t (harcs _) h
          · simp only [gt_iff_lt, h3, if_neg, if_false]
            exact relaxNeighbors_distances_none _ _ _ _ _ t (harcs _) h

theorem dijkstraLoop_distances_none (adj : AdjList) (s : String) (tgt : Option String)
    (t : String) (hadj : ∀ p ∈ adj, ∀ a ∈ p.2, a.to_ ≠ t) :
    ∀ fuel st, getEntry t st.distances = none →
      getEntry t (dijkstraLoop adj s tgt fuel st).distances = none := by
  intro fuel
  induction fuel with
  | zero => exact fun st h => h
  | succ fuel ih =>
    intro st h
    rw [dijkstraLoop]
    by_cases hstop : (dijkstraIter adj s tgt st).2 = true
    · simp only [hstop, if_pos, if_true]
      exact dijkstraIter_distances_none adj s tgt st t hadj h
    · simp only [hstop, if_neg, if_false, Bool.not_eq_true]
      exact ih _ (dijkstraIter_distances_none adj s tgt st t hadj h)


/-- C10: calling Dijkstra with a valid graph, a valid source, and a
targetNodeId that is not the id of any node does not fail — the run ends with
a normal `complete` step, the distances map has no entry for the target, and
`pathExists` is reported true even though the target does not exist (JS
`distances[target] !== Infinity` is true for `undefined`). -/
theorem dijkstra_ignores_unknown_target (g : Graph) (s t : String)
    (hval : validateGraph g = Except.ok ()) (hs : s ≠ "") (hsrc : s ∈ g.nodes)
    (ht : t ∉ g.nodes) (ht' : t ≠ "") :
    ∃ r, dijkstraAlgorithm g s (some t) = Except.ok r ∧
      r.steps.getLast?.map (fun stp => stp.action) = some "complete" ∧
      getEntry t r.finalResult.distances = none ∧
      r.finalResult.pathExists = true := by
  have hany : (g.nodes.any (fun nid => nid ≠ "" ∧ nid = s)) = true := by
    rw [List.any_eq_true]
    refine ⟨s, hsrc, ?_⟩
    simp [hs]
  have hd0 : getEntry t (g.nodes.foldl (fun acc nid =>
      if nid = "" then acc
      else setEntry nid (if nid = s then ((0 : Nat) : Dist) else ⊤) acc)
      ([] : List (String × Dist))) = none :=
    getEntry_initFold_none _ g.nodes t ht [] rfl
  have hadj : ∀ p ∈ createAdjacencyList g, ∀ a ∈ p.2, a.to_ ≠ t := by
    intro p hp a ha he
    exact ht (he ▸ ((createAdjacencyList_invariant g).2 p hp a ha).1)
  simp only [dijkstraAlgorithm, hval, hs, if_neg, if_false, hany, not_true, Bool.true_eq_false]
  refine ⟨_, rfl, ?_, ?_, ?_⟩
  · simp [getLast?_snoc]
  · exact dijkstraLoop_distances_none (createAdjacencyList g) s (some t) t hadj _ _ hd0
  · have hnone := dijkstraLoop_distances_none (createAdjacencyList g) s (some t) t hadj
      (2 * g.edges.length + g.nodes.length + 2)
      { distances := g.nodes.foldl (fun acc nid =>
          if nid = "" then acc
          else setEntry nid (if nid = s then ((0 : Nat) : Dist) else ⊤) acc) []
        previous := g.nodes.foldl (fun acc nid =>
          if nid = "" then acc else setEntry nid none acc) []
        visited := []
        queue := [{ nodeId := s, distance := (0 : Nat) }]
        steps := [{
          step := 0
          description := "Starting Dijkstra's Algorithm from node " ++ s
          currentNode := none
          distances := g.nodes.foldl (fun acc nid =>
            if nid = "" then acc
            else setEntry nid (if nid = s then ((0 : Nat) : Dist) else ⊤) acc) []
          previous := g.nodes.foldl (fun acc nid =>
            if nid = "" then acc else setEntry nid none acc) []
          visited := []
          priorityQueue := [{ nodeId := s, distance := (0 : Nat) }]
          shortestPaths := []
          action := "initialize"
          updatedNeighbors := none }]
        stepCount := 1 } hd0
    simp only [ht', if_neg, if_false, hnone]
    decide

/-- Witness for `dijkstra_ignores_unknown_target`. -/
theorem dijkstra_ignores_unknown_target_witness :
    ∃ r, dijkstraAlgorithm singleGraph "A" (some "Z") = Except.ok r ∧
      r.steps.getLast?.map (fun stp => stp.action) = some "complete" ∧
      getEntry "Z" r.finalResult.distances = none ∧
      r.finalResult.pathExists = true :=
  dijkstra_ignores_unknown_target singleGraph "A" "Z" rfl (by decide)
    (by decide) (by decide) (by decide)


/-! ## C8 -/

theorem walkBack_head (previous : List (String × Option String)) (source : String)
    (fuel : Nat) (cur : String) :
    (walkBack previous source (fuel + 1) cur).head? = some cur := by
  unfold walkBack
  by_cases h : cur = source
  · simp [h]
  · simp only [h, if_neg, if_false]
    cases getEntry cur previous with
    | none => rfl
    | some p =>
      cases p with
      | none => rfl
      | some p' => rfl

/-- The endpoint property of one reconstructed-path table. -/
def SPentryGood (source : String) (p : String × PathInfo) : Prop :=
  p.2.path ≠ [] → p.2.path.head? = some source ∧ p.2.path.getLast? = some p.1

theorem getShortestPaths_endpoints (previous : List (String × Option String))
    (source : String) (processedNodes : List String)
    (distances : List (String × Dist)) :
    ∀ p ∈ getShortestPaths previous source processedNodes distances,
      SPentryGood source p := by
  unfold getShortestPaths
  by_cases hsrc : source = ""
  · simp [hsrc]
  · simp only [hsrc, if_neg, if_false]
    apply foldl_invariant _ (fun acc => ∀ p ∈ acc, SPentryGood source p)
    · intro p hp
      simp at hp
    · intro acc nodeId hmem hacc p hp
      by_cases h0 : nodeId = ""
      · rw [if_pos h0] at hp
        exact hacc p hp
      · rw [if_neg h0] at hp
        by_cases h1 : nodeId = source
        · rw [if_pos h1] at hp
          rcases mem_setEntry _ _ _ _ hp with h | h
          · intro hne
            subst h1
            rw [h]
            exact ⟨rfl, rfl⟩
          · exact hacc p h
        · rw [if_neg h1] at hp
          by_cases h2 : ((walkBack previous source (processedNodes.length + 1)
              nodeId).reverse).head? = some source
          · rw [if_pos h2] at hp
            rcases mem_setEntry _ _ _ _ hp with h | h
            · intro hne
              rw [h]
              refine ⟨h2, ?_⟩
              rw [List.getLast?_reverse]
              exact walkBack_head previous source processedNodes.length nodeId
            · exact hacc p h
          · rw [if_neg h2] at hp
            rcases mem_setEntry _ _ _ _ hp with h | h
            · intro hne
              rw [h] at hne
              simp at hne
            · exact hacc p h

/-- Every table a step carries satisfies the endpoint property. -/
def SPgood (source : String) (stp : DStep) : Prop :=
  ∀ p ∈ stp.shortestPaths, SPentryGood source p

theorem dijkstraIter_SPgood (adj : AdjList) (s : String) (tgt : Option String)
    (st : DState) (hst : ∀ stp ∈ st.steps, SPgood s stp) :
    ∀ stp ∈ (dijkstraIter adj s tgt st).1.steps, SPgood s stp := by
  unfold dijkstraIter
  cases hq : st.queue.insertionSort (fun a b => a.distance ≤ b.distance) with
  | nil => exact hst
  | cons current rest =>
    by_cases h0 : current.nodeId = ""
    · simp only [h0, if_pos, if_true]
      exact hst
    · simp only [h0, if_neg, if_false]
      by_cases h1 : current.nodeId ∈ st.visited
      · simp only [h1, if_pos, if_true]
        exact hst
      · simp only [h1, if_neg, if_false]
        have hproc : ∀ stp ∈ st.steps ++ [{
            step := st.stepCount
            description := "Processing node " ++ current.nodeId ++ " with distance " ++
              renderDistOpt (getEntry current.nodeId st.distances)
            currentNode := some current.nodeId
            distances := st.distances
            previous := st.previous
            visited := st.visited ++ [current.nodeId]
            priorityQueue := rest
            shortestPaths := getShortestPaths st.previous s
              (st.visited ++ [current.nodeId]) st.distances
            action := "process_node"
            updatedNeighbors := none }], SPgood s stp := by
          intro stp hstp
          rcases List.mem_append.mp hstp with h | h
          · exact hst stp h
          · rw [List.mem_singleton] at h
            rw [h]
            intro p hp
            exact getShortestPaths_endpoints _ _ _ _ p hp
        by_cases h2 : hasTarget tgt = true ∧ some current.nodeId = tgt
        · rw [if_pos h2]
          exact hproc
        · simp only [if_neg h2]
          set stBig : DState := { st with
            visited := st.visited ++ [current.nodeId]
            queue := rest
            steps := st.steps ++ [{
              step := st.stepCount
              description := "Processing node " ++ current.nodeId ++ " with distance " ++
                renderDistOpt (getEntry current.nodeId st.distances)
              currentNode := some current.nodeId
              distances := st.distances
              previous := st.previous
              visited := st.visited ++ [current.nodeId]
              priorityQueue := rest
              shortestPaths := getShortestPaths st.previous s
                (st.visited ++ [current.nodeId]) st.distances
              action := "process_node"
              updatedNeighbors := none }]
            stepCount := st.stepCount + 1 } with hstBig
          have hrelaxSteps := (relaxNeighbors_skeleton current.nodeId
            (st.visited ++ [current.nodeId]) ((getEntry current.nodeId adj).getD [])
            stBig []).1
          by_cases h3 : 0 < (relaxNeighbors current.nodeId (st.visited ++ [current.nodeId])
              ((getEntry current.nodeId adj).getD []) stBig []).2.length
          · simp only [gt_iff_lt, h3, if_pos, if_true]
            intro stp hstp
            simp only [List.mem_append] at hstp
            rcases hstp with hstp | hstp
            · rw [hrelaxSteps] at hstp
              exact hproc stp hstp
            · rw [List.mem_singleton] at hstp
              rw [hstp]
              intro p hp
              exact getShortestPaths_endpoints _ _ _ _ p hp
          · simp only [gt_iff_lt, h3, if_neg, if_false]
            intro stp hstp
            rw [hrelaxSteps] at hstp
            exact hproc stp hstp

theorem dijkstraLoop_SPgood (adj : AdjList) (s : String) (tgt : Option String) :
    ∀ fuel st, (∀ stp ∈ st.steps, SPgood s stp) →
      ∀ stp ∈ (dijkstraLoop adj s tgt fuel st).steps, SPgood s stp := by
  intro fuel
  induction fuel with
  | zero => exact fun st h => h
  | succ fuel ih =>
    intro st h
    rw [dijkstraLoop]
    by_cases hstop : (dijkstraIter adj s tgt st).2 = true
    · simp only [hstop, if_pos, if_true]
      exact dijkstraIter_SPgood adj s tgt st h
    · simp only [hstop, if_neg, if_false, Bool.not_eq_true]
      exact ih _ (dijkstraIter_SPgood adj s tgt st h)

/-- C8: in every step of a Dijkstra trace and for every nodeId in that step's
shortestPaths table, a non-empty path begins with the source id and ends with
the nodeId. -/
theorem dijkstra_paths_endpoints (g : Graph) (s : String) (tgt : Option String)
    (r : DResult) (h : dijkstraAlgorithm g s tgt = Except.ok r) :
    ∀ stp ∈ r.steps, ∀ p ∈ stp.shortestPaths, p.2.path ≠ [] →
      p.2.path.head? = some s ∧ p.2.path.getLast? = some p.1 := by
  unfold dijkstraAlgorithm at h
  split at h
  · exact absurd h (by simp)
  · split at h
    · exact absurd h (by simp)
    · split at h
      · exact absurd h (by simp)
      · rw [Except.ok.injEq] at h
        subst h
        intro stp hstp
        simp only [List.mem_append] at hstp
        rcases hstp with hstp | hstp
        · have := dijkstraLoop_SPgood (createAdjacencyList g) s tgt
            (2 * g.edges.length + g.nodes.length + 2) _ ?_ stp hstp
          · exact this
          · intro stp0 hstp0
            rw [List.mem_singleton] at hstp0
            rw [hstp0]
            intro p hp
            simp at hp
        · rw [List.mem_singleton] at hstp
          rw [hstp]
          intro p hp
          exact getShortestPaths_endpoints _ _ _ _ p hp

/-- Witness for `dijkstra_paths_endpoints`. -/
theorem dijkstra_paths_endpoints_witness :
    ∃ r, dijkstraAlgorithm discGraph "A" none = Except.ok r ∧
      ∀ stp ∈ r.steps, ∀ p ∈ stp.shortestPaths, p.2.path ≠ [] →
        p.2.path.head? = some "A" ∧ p.2.path.getLast? = some p.1 := by
  cases hh : dijkstraAlgorithm discGraph "A" none with
  | error e =>
    exfalso
    have hok : (dijkstraAlgorithm discGraph "A" none).isOk = true := by decide
    rw [hh] at hok
    exact Bool.noConfusion hok
  | ok r =>
    exact ⟨r, rfl, dijkstra_paths_endpoints discGraph "A" none r hh⟩


/-! ## C5 -/

/-- Frontier invariant: every queue entry's far endpoint is unvisited.  The
filter at line 104 of prim.js re-establishes this after every accepted edge,
so the skip branch (lines 63-75) can never run. -/
theorem primLoop_no_skip (adj : AdjList) (n : Nat) :
    ∀ queue visited mst cost steps sc,
      (∀ e ∈ queue, e.to_ ∉ visited) →
      (∀ stp ∈ steps, stp.action ≠ "skip") →
      ∀ stp ∈ (primLoop adj n queue visited mst cost steps sc).1, stp.action ≠ "skip" := by
  intro queue visited mst cost steps sc
  induction queue, visited, mst, cost, steps, sc using primLoop.induct adj n with
  | case1 visited mst cost steps sc =>
    intro hq hsteps
    rw [primLoop_nil]
    exact hsteps
  | case2 q rest visited mst cost steps sc h hto ih =>
    intro hq hsteps
    rw [primLoop]
    simp only [dif_pos h, if_pos hto]
    exact ih (fun e he => hq e (List.mem_cons_of_mem q he)) hsteps
  | case3 q rest visited mst cost steps sc h hto hv ih =>
    intro hq hsteps
    exact absurd hv (hq q (List.mem_cons_self q rest))
  | case4 q rest visited mst cost steps sc h hto hv ih =>
    intro hq hsteps
    rw [primLoop]
    simp only [dif_pos h, if_neg hto, dif_neg hv]
    apply ih
    · intro e he
      have hmem : e ∈ (rest ++ (((getEntry q.to_ adj).getD []).filterMap (fun a =>
          if a.to_ ≠ "" ∧ a.to_ ∉ visited ++ [q.to_] then some (a.qedgeFrom q.to_)
          else none))).filter
          (fun e => decide (e.to_ ≠ "" ∧ e.to_ ∉ visited ++ [q.to_])) := by
        have hperm := List.perm_insertionSort
          (fun (a b : QEdge) => a.weight ≤ b.weight)
          ((rest ++ (((getEntry q.to_ adj).getD []).filterMap (fun a =>
            if a.to_ ≠ "" ∧ a.to_ ∉ visited ++ [q.to_] then some (a.qedgeFrom q.to_)
            else none))).filter
            (fun e => decide (e.to_ ≠ "" ∧ e.to_ ∉ visited ++ [q.to_])))
        exact hperm.subset he
      have := List.of_mem_filter hmem
      simp only [decide_eq_true_eq] at this
      exact this.2
    · intro stp hstp
      rcases List.mem_append.mp hstp with hstp | hstp
      · exact hsteps stp hstp
      · rw [List.mem_singleton] at hstp
        subst hstp
        simp
  | case5 q rest visited mst cost steps sc h =>
    intro hq hsteps
    rw [primLoop]
    simp only [dif_neg h]
    exact hsteps

/-- Shared content for C5: the trace of `primMain` is skip-free. -/
theorem primMain_no_skip (g : Graph) (s : String) :
    ∀ stp ∈ (primMain g s).steps, stp.action ≠ "skip" := by
  intro stp hstp
  simp only [primMain] at hstp
  have hcore : ∀ hstp2 : stp ∈ (primLoop (createAdjacencyList g) g.nodes.length
      ((((getEntry s (createAdjacencyList g)).getD []).filterMap (fun a =>
        if a.to_ ≠ "" ∧ a.to_ ∉ [s] then some (a.qedgeFrom s) else none)).insertionSort
        (fun a b => a.weight ≤ b.weight))
      [s] [] 0 [{
        step := 0
        description := "Starting Prim's Algorithm from node " ++ s
        currentEdge := none
        visitedNodes := [s]
        priorityQueue := (((getEntry s (createAdjacencyList g)).getD []).filterMap (fun a =>
          if a.to_ ≠ "" ∧ a.to_ ∉ [s] then some (a.qedgeFrom s) else none)).insertionSort
          (fun a b => a.weight ≤ b.weight)
        mstEdges := []
        totalCost := 0
        action := "initialize"
        newEdgesAdded := none }] 1).1, stp.action ≠ "skip" := by
    intro hstp2
    refine primLoop_no_skip _ _ _ _ _ _ _ _ ?_ ?_ stp hstp2
    · intro e he
      have hsub := (List.perm_insertionSort
        (fun (a b : QEdge) => a.weight ≤ b.weight) _).subset he
      rw [List.mem_filterMap] at hsub
      obtain ⟨a, hamem, ha⟩ := hsub
      split at ha
      · next hcond =>
          rw [Option.some.injEq] at ha
          rw [← ha]
          exact hcond.2
      · exact absurd ha (by simp)
    · intro stp0 hstp0
      rw [List.mem_singleton] at hstp0
      subst hstp0
      simp
  split at hstp
  · rcases List.mem_append.mp hstp with hstp | hstp
    · exact hcore hstp
    · rw [List.mem_singleton] at hstp
      subst hstp
      simp
  · exact hcore hstp

/-- Shared content for C5: every successful Prim run has a skip-free trace. -/
theorem prim_ok_no_skip (g : Graph) (startId : Option String) (r : PResult)
    (h : primAlgorithm g startId = Except.ok r) :
    ∀ stp ∈ r.steps, stp.action ≠ "skip" := by
  unfold primAlgorithm at h
  split at h
  · exact absurd h (by simp)
  · split at h
    · exact absurd h (by simp)
    · dsimp only at h
      split at h
      · exact absurd h (by simp)
      · rw [Except.ok.injEq] at h
        subst h
        exact primMain_no_skip g _

/-- C5 counterexample (claim: for some valid graph input a popped minimum
frontier edge has an already-visited far endpoint and the engine emits a
`skip` step).  The claim's scenario is impossible: prim.js filters the
frontier after every accepted edge (line 104), so stale entries never
survive to be popped and no run ever emits a `skip` step. -/
theorem prim_skip_scenario_impossible :
    ¬ ∃ (g : Graph) (startId : Option String) (r : PResult) (stp : PStep),
        primAlgorithm g startId = Except.ok r ∧ stp ∈ r.steps ∧
        stp.action = "skip" := by
  rintro ⟨g, startId, r, stp, h, hmem, hact⟩
  exact prim_ok_no_skip g startId r h stp hmem hact

/-- C5 amended: the frontier never holds a poppable stale entry — after every
accepted edge the queue is filtered down to edges with unvisited far
endpoints, so the skip branch is dead code and no step of any successful Prim
run has action `skip`. -/
theorem prim_never_emits_skip (g : Graph) (startId : Option String)
    (r : PResult) (h : primAlgorithm g startId = Except.ok r) :
    ∀ stp ∈ r.steps, stp.action ≠ "skip" :=
  prim_ok_no_skip g startId r h

/-- Witness for `prim_never_emits_skip`. -/
theorem prim_never_emits_skip_witness :
    ∃ r, primAlgorithm triangleGraph (some "A") = Except.ok r ∧
      ∀ stp ∈ r.steps, stp.action ≠ "skip" := by
  cases hh : primAlgorithm triangleGraph (some "A") with
  | error e =>
    exfalso
    have hok : (primAlgorithm triangleGraph (some "A")).isOk = true := by
      simp +decide [primAlgorithm, primMain, primLoop, triangleGraph,
        validateGraph, createAdjacencyList, setEntry, getEntry, Arc.qedgeFrom,
        Edge.edgeIdOf, Except.isOk, Except.toBool]
    rw [hh] at hok
    exact Bool.noConfusion hok
  | ok r =>
    exact ⟨r, rfl, prim_never_emits_skip triangleGraph (some "A") r hh⟩


/-! ## C7 -/

/-- Per-edge facts about `kruskalIter`: the MST grows by at most one edge,
the running total stays the sum of the accepted weights, and any `complete`
step it appends witnesses that the accepted count equals nodeCount - 1. -/
theorem kruskalIter_shape (sorted : List Edge) (nmap : List (String × Nat))
    (nodeCount : Nat) (nodes : List String) (e : Edge) (index : Nat) (st : KState) :
    (st.mstEdges.length ≤
        (kruskalIter sorted nmap nodeCount nodes e index st).mstEdges.length) ∧
    (st.totalCost = (st.mstEdges.map (fun x => x.weight)).sum →
      (kruskalIter sorted nmap nodeCount nodes e index st).totalCost =
        ((kruskalIter sorted nmap nodeCount nodes e index st).mstEdges.map
          (fun x => x.weight)).sum) ∧
    (∀ stp ∈ (kruskalIter sorted nmap nodeCount nodes e index st).steps,
      stp ∈ st.steps ∨ stp.action = "accept" ∨ stp.action = "reject" ∨
      (stp.action = "complete" ∧
        ((kruskalIter sorted nmap nodeCount nodes e index st).mstEdges.length : Int) =
          (nodeCount : Int) - 1)) := by
  unfold kruskalIter
  by_cases h0 : e.from_ = "" ∨ e.to_ = ""
  · rw [if_pos h0]
    exact ⟨Nat.le_refl _, fun h => h, fun stp h => Or.inl h⟩
  · rw [if_neg h0]
    cases hf : getEntry e.from_ nmap with
    | none => exact ⟨Nat.le_refl _, fun h => h, fun stp h => Or.inl h⟩
    | some fromNode =>
      cases ht : getEntry e.to_ nmap with
      | none => exact ⟨Nat.le_refl _, fun h => h, fun stp h => Or.inl h⟩
      | some toNode =>
        by_cases hc : st.uf.connected fromNode toNode = true
        · simp only [hc, if_pos, if_true]
          split
          · next hcomp =>
              refine ⟨Nat.le_refl _, fun h => h, ?_⟩
              intro stp hstp
              simp only [List.append_assoc, List.mem_append, List.mem_singleton] at hstp
              rcases hstp with hstp | hstp | hstp
              · exact Or.inl hstp
              · subst hstp
                exact Or.inr (Or.inr (Or.inl rfl))
              · subst hstp
                exact Or.inr (Or.inr (Or.inr ⟨rfl, hcomp⟩))
          · refine ⟨Nat.le_refl _, fun h => h, ?_⟩
            intro stp hstp
            simp only [List.mem_append, List.mem_singleton] at hstp
            rcases hstp with hstp | hstp
            · exact Or.inl hstp
            · subst hstp
              exact Or.inr (Or.inr (Or.inl rfl))
        · simp only [hc, if_neg, if_false, Bool.false_eq_true]
          split
          · next hcomp =>
              refine ⟨by simp, ?_, ?_⟩
              · intro h
                simp [h, List.map_append, List.sum_append, Edge.withStatus]
              · intro stp hstp
                simp only [List.append_assoc, List.mem_append, List.mem_singleton] at hstp
                rcases hstp with hstp | hstp | hstp
                · exact Or.inl hstp
                · subst hstp
                  exact Or.inr (Or.inl rfl)
                · subst hstp
                  exact Or.inr (Or.inr (Or.inr ⟨rfl, hcomp⟩))
          · refine ⟨by simp, ?_, ?_⟩
            · intro h
              simp [h, List.map_append, List.sum_append, Edge.withStatus]
            · intro stp hstp
              simp only [List.mem_append, List.mem_singleton] at hstp
              rcases hstp with hstp | hstp
              · exact Or.inl hstp
              · subst hstp
                exact Or.inr (Or.inl rfl)

theorem kruskalLoop_mst_mono (sorted : List Edge) (nmap : List (String × Nat))
    (nodeCount : Nat) (nodes : List String) :
    ∀ rem idx st, st.mstEdges.length ≤
      (kruskalLoop sorted nmap nodeCount nodes rem idx st).mstEdges.length := by
  intro rem
  induction rem with
  | nil => exact fun idx st => Nat.le_refl _
  | cons e rest ih =>
    intro idx st
    rw [kruskalLoop]
    exact Nat.le_trans (kruskalIter_shape sorted nmap nodeCount nodes e idx st).1 (ih _ _)

theorem kruskalLoop_cost_sum (sorted : List Edge) (nmap : List (String × Nat))
    (nodeCount : Nat) (nodes : List String) :
    ∀ rem idx st, st.totalCost = (st.mstEdges.map (fun x => x.weight)).sum →
      (kruskalLoop sorted nmap nodeCount nodes rem idx st).totalCost =
        ((kruskalLoop sorted nmap nodeCount nodes rem idx st).mstEdges.map
          (fun x => x.weight)).sum := by
  intro rem
  induction rem with
  | nil => exact fun idx st h => h
  | cons e rest ih =>
    intro idx st h
    rw [kruskalLoop]
    exact ih _ _ ((kruskalIter_shape sorted nmap nodeCount nodes e idx st).2.1 h)

theorem kruskalLoop_no_complete (sorted : List Edge) (nmap : List (String × Nat))
    (nodeCount : Nat) (nodes : List String) :
    ∀ rem idx st, (∀ stp ∈ st.steps, stp.action ≠ "complete") →
      (kruskalLoop sorted nmap nodeCount nodes rem idx st).mstEdges.length + 1 <
        nodeCount →
      ∀ stp ∈ (kruskalLoop sorted nmap nodeCount nodes rem idx st).steps,
        stp.action ≠ "complete" := by
  intro rem
  induction rem with
  | nil => exact fun idx st h _ => h
  | cons e rest ih =>
    intro idx st hsteps hbound
    rw [kruskalLoop] at hbound ⊢
    refine ih _ _ ?_ hbound
    intro stp hstp
    rcases (kruskalIter_shape sorted nmap nodeCount nodes e idx st).2.2 stp hstp with
      h | h | h | ⟨hact, hlen⟩
    · exact hsteps stp h
    · rw [h]
      decide
    · rw [h]
      decide
    · exfalso
      have hmono := kruskalLoop_mst_mono sorted nmap nodeCount nodes rest (idx + 1)
        (kruskalIter sorted nmap nodeCount nodes e idx st)
      omega

/-- Per-run facts about `primLoop`: it only appends skip/accept steps, each
accepted edge adds exactly one visited node, and the running total stays the
sum of the accepted weights. -/
theorem primLoop_shape (adj : AdjList) (n : Nat) :
    ∀ queue visited mst cost steps sc,
      (∀ stp ∈ (primLoop adj n queue visited mst cost steps sc).1,
        stp ∈ steps ∨ stp.action = "skip" ∨ stp.action = "accept") ∧
      ((primLoop adj n queue visited mst cost steps sc).2.1.length + mst.length =
        visited.length + (primLoop adj n queue visited mst cost steps sc).2.2.1.length) ∧
      (cost = (mst.map (fun m => m.weight)).sum →
        (primLoop adj n queue visited mst cost steps sc).2.2.2.1 =
          ((primLoop adj n queue visited mst cost steps sc).2.2.1.map
            (fun m => m.weight)).sum) := by
  intro queue visited mst cost steps sc
  induction queue, visited, mst, cost, steps, sc using primLoop.induct adj n with
  | case1 visited mst cost steps sc =>
    rw [primLoop_nil]
    exact ⟨fun stp h => Or.inl h, by simp, fun h => h⟩
  | case2 q rest visited mst cost steps sc h hto ih =>
    rw [primLoop]
    simp only [dif_pos h, if_pos hto]
    exact ih
  | case3 q rest visited mst cost steps sc h hto hv ih =>
    rw [primLoop]
    simp only [dif_pos h, if_neg hto, dif_pos hv]
    refine ⟨?_, ih.2.1, ih.2.2⟩
    intro stp hstp
    rcases ih.1 stp hstp with hm | hm | hm
    · simp only [List.mem_append, List.mem_singleton] at hm
      rcases hm with hm | hm
      · exact Or.inl hm
      · subst hm
        exact Or.inr (Or.inl rfl)
    · exact Or.inr (Or.inl hm)
    · exact Or.inr (Or.inr hm)
  | case4 q rest visited mst cost steps sc h hto hv ih =>
    rw [primLoop]
    simp only [dif_pos h, if_neg hto, dif_neg hv]
    refine ⟨?_, ?_, ?_⟩
    · intro stp hstp
      rcases ih.1 stp hstp with hm | hm | hm
      · simp only [List.mem_append, List.mem_singleton] at hm
        rcases hm with hm | hm
        · exact Or.inl hm
        · subst hm
          exact Or.inr (Or.inr rfl)
      · exact Or.inr (Or.inl hm)
      · exact Or.inr (Or.inr hm)
    · have h2 := ih.2.1
      simp only [dite_eq_ite] at h2
      simp only [List.length_append, List.length_cons, List.length_nil] at h2 ⊢
      omega
    · intro hc
      apply ih.2.2
      simp [hc, List.map_append, List.sum_append]
  | case5 q rest visited mst cost steps sc h =>
    rw [primLoop]
    simp only [dif_neg h]
    exact ⟨fun stp hstp => Or.inl hstp, by simp, fun hc => hc⟩

/-- Disconnected-run facts at the `primMain` level. -/
theorem primMain_disconnected (g : Graph) (s : String)
    (hne : (primMain g s).finalResult.edgeCount + 1 ≠ g.nodes.length) :
    (∀ stp ∈ (primMain g s).steps, stp.action ≠ "complete") ∧
    (primMain g s).finalResult.totalCost =
      ((primMain g s).finalResult.mstEdges.map (fun m => m.weight)).sum ∧
    (primMain g s).finalResult.edgeCount =
      (primMain g s).finalResult.mstEdges.length := by
  have hshape := primLoop_shape (createAdjacencyList g) g.nodes.length
    ((((getEntry s (createAdjacencyList g)).getD []).filterMap (fun a =>
      if a.to_ ≠ "" ∧ a.to_ ∉ [s] then some (a.qedgeFrom s) else none)).insertionSort
      (fun a b => a.weight ≤ b.weight))
    [s] [] 0 [{
      step := 0
      description := "Starting Prim's Algorithm from node " ++ s
      currentEdge := none
      visitedNodes := [s]
      priorityQueue := (((getEntry s (createAdjacencyList g)).getD []).filterMap (fun a =>
        if a.to_ ≠ "" ∧ a.to_ ∉ [s] then some (a.qedgeFrom s) else none)).insertionSort
        (fun a b => a.weight ≤ b.weight)
      mstEdges := []
      totalCost := 0
      action := "initialize"
      newEdgesAdded := none }] 1
  simp only [primMain] at hne ⊢
  have hcount : ¬ ((primLoop (createAdjacencyList g) g.nodes.length
      ((((getEntry s (createAdjacencyList g)).getD []).filterMap (fun a =>
        if a.to_ ≠ "" ∧ a.to_ ∉ [s] then some (a.qedgeFrom s) else none)).insertionSort
        (fun a b => a.weight ≤ b.weight))
      [s] [] 0 [{
        step := 0
        description := "Starting Prim's Algorithm from node " ++ s
        currentEdge := none
        visitedNodes := [s]
        priorityQueue := (((getEntry s (createAdjacencyList g)).getD []).filterMap (fun a =>
          if a.to_ ≠ "" ∧ a.to_ ∉ [s] then some (a.qedgeFrom s) else none)).insertionSort
          (fun a b => a.weight ≤ b.weight)
        mstEdges := []
        totalCost := 0
        action := "initialize"
        newEdgesAdded := none }] 1).2.1.length = g.nodes.length) := by
    have hcnt := hshape.2.1
    simp only [List.length_cons, List.length_nil] at hcnt
    intro heq
    exact hne (by omega)
  refine ⟨?_, ?_, by trivial⟩
  · intro stp hstp
    rw [if_neg hcount] at hstp
    rcases hshape.1 stp hstp with hm | hm | hm
    · rw [List.mem_singleton] at hm
      subst hm
      simp
    · rw [hm]
      decide
    · rw [hm]
      decide
  · exact hshape.2.2 rfl

/-- C7: on a disconnected graph, Kruskal (fewer than nodeCount - 1 edges ever
accepted, i.e. final edgeCount + 1 < nodeCount) and Prim (not every node
reached, i.e. final edgeCount + 1 ≠ nodeCount, since each accepted edge
visits exactly one new node beyond the start) emit no `complete` step, and
both still return a FinalResult reporting the partial forest: totalCost is
the sum of the accepted edges' weights and edgeCount is their number. -/
theorem disconnected_runs_report_partial_forest :
    (∀ g r, kruskalAlgorithm g = Except.ok r →
      r.finalResult.edgeCount + 1 < g.nodes.length →
      (∀ stp ∈ r.steps, stp.action ≠ "complete") ∧
      r.finalResult.totalCost = (r.finalResult.mstEdges.map (fun x => x.weight)).sum ∧
      r.finalResult.edgeCount = r.finalResult.mstEdges.length) ∧
    (∀ g startId r, primAlgorithm g startId = Except.ok r →
      r.finalResult.edgeCount + 1 ≠ g.nodes.length →
      (∀ stp ∈ r.steps, stp.action ≠ "complete") ∧
      r.finalResult.totalCost = (r.finalResult.mstEdges.map (fun m => m.weight)).sum ∧
      r.finalResult.edgeCount = r.finalResult.mstEdges.length) := by
  constructor
  · intro g r h hcount
    unfold kruskalAlgorithm at h
    split at h
    · exact absurd h (by simp)
    · rw [Except.ok.injEq] at h
      subst h
      refine ⟨?_, ?_, rfl⟩
      · intro stp hstp
        refine kruskalLoop_no_complete _ _ _ _ _ _ _ ?_ ?_ stp hstp
        · intro stp0 hstp0
          rw [List.mem_singleton] at hstp0
          subst hstp0
          simp
        · exact hcount
      · exact kruskalLoop_cost_sum _ _ _ _ _ _ _ rfl
  · intro g startId r h hcount
    unfold primAlgorithm at h
    split at h
    · exact absurd h (by simp)
    · split at h
      · exact absurd h (by simp)
      · dsimp only at h
        split at h
        · exact absurd h (by simp)
        · rw [Except.ok.injEq] at h
          subst h
          exact primMain_disconnected g _ hcount


/-- Witness for `disconnected_runs_report_partial_forest` on the disconnected
graph with isolated node C. -/
theorem disconnected_runs_report_partial_forest_witness :
    (∃ r, kruskalAlgorithm discGraph = Except.ok r ∧
      (∀ stp ∈ r.steps, stp.action ≠ "complete") ∧
      r.finalResult.totalCost = (r.finalResult.mstEdges.map (fun x => x.weight)).sum) ∧
    (∃ r, primAlgorithm discGraph (some "A") = Except.ok r ∧
      (∀ stp ∈ r.steps, stp.action ≠ "complete") ∧
      r.finalResult.totalCost = (r.finalResult.mstEdges.map (fun m => m.weight)).sum) := by
  constructor
  · cases hh : kruskalAlgorithm discGraph with
    | error e =>
      have hok : (kruskalAlgorithm discGraph).isOk = true := by decide
      rw [hh] at hok
      simp [Except.isOk, Except.toBool] at hok
    | ok r =>
      refine ⟨r, rfl, ?_⟩
      have hmap : (kruskalAlgorithm discGraph).map (fun x => x.finalResult.edgeCount) =
          Except.ok 1 := by rfl
      rw [hh] at hmap
      simp only [Except.map] at hmap
      rw [Except.ok.injEq] at hmap
      have hcount : r.finalResult.edgeCount + 1 < discGraph.nodes.length := by
        rw [hmap]
        decide
      have hres := disconnected_runs_report_partial_forest.1 discGraph r hh hcount
      exact ⟨hres.1, hres.2.1⟩
  · cases hh : primAlgorithm discGraph (some "A") with
    | error e =>
      have hok : (primAlgorithm discGraph (some "A")).isOk = true := by rfl
      rw [hh] at hok
      simp [Except.isOk, Except.toBool] at hok
    | ok r =>
      refine ⟨r, rfl, ?_⟩
      have hmap : (primAlgorithm discGraph (some "A")).map
          (fun x => x.finalResult.edgeCount) = Except.ok 1 := by
        simp +decide [primAlgorithm, primMain, primLoop, discGraph, mkEdge,
          validateGraph, createAdjacencyList, setEntry, getEntry, Arc.qedgeFrom]
        rfl
      rw [hh] at hmap
      simp only [Except.map] at hmap
      rw [Except.ok.injEq] at hmap
      have hcount : r.finalResult.edgeCount + 1 ≠ discGraph.nodes.length := by
        rw [hmap]
        decide
      have hres := disconnected_runs_report_partial_forest.2 discGraph (some "A") r hh hcount
      exact ⟨hres.1, hres.2.1⟩


/-! ## C6 -/

/-- The annotation property claimed for one Kruskal examination step: the
step examines the edge at some sorted position `index`; every earlier edge is
annotated `accepted` exactly when it is in the step's MST and `rejected`
exactly when it is not; the current edge carries its own outcome; and every
later edge is `pending`. -/
def KruskalExamGood (sorted : List Edge) (stp : KStep) : Prop :=
  stp.action = "accept" ∨ stp.action = "reject" →
  ∃ (index : Nat) (e : Edge), sorted[index]? = some e ∧ stp.step = index + 1 ∧
    stp.currentEdge = some (e.withStatus
      (if stp.action = "accept" then "accepted" else "rejected")) ∧
    (stp.action = "accept" ↔ e.withStatus "accepted" ∈ stp.mstEdges) ∧
    ∀ (j : Nat) (ej : Edge), sorted[j]? = some ej →
      (j < index →
        (ej.withStatus "accepted" ∈ stp.mstEdges →
          stp.sortedEdges[j]? = some (ej.withStatus "accepted")) ∧
        (ej.withStatus "accepted" ∉ stp.mstEdges →
          stp.sortedEdges[j]? = some (ej.withStatus "rejected"))) ∧
      (j = index → stp.sortedEdges[j]? = some (ej.withStatus
        (if stp.action = "accept" then "accepted" else "rejected"))) ∧
      (index < j → stp.sortedEdges[j]? = some (ej.withStatus "pending"))

theorem kruskalExamSnapshot_getElem (sorted : List Edge) (mst : List StatusEdge)
    (index : Nat) (status : String) (j : Nat) (ej : Edge)
    (hj : sorted[j]? = some ej) :
    (kruskalExamSnapshot sorted mst index status)[j]? = some (ej.withStatus
      (if j < index then
        (if (mst.find? (fun m => m.id = ej.id)).isSome then "accepted" else "rejected")
      else if j = index then status else "pending")) := by
  unfold kruskalExamSnapshot
  rw [List.getElem?_map, List.getElem?_enum, hj]
  rfl

/-- With pairwise-distinct edge ids, the id search the snapshot performs hits
exactly the accepted copy of the same edge. -/
theorem find_id_iff (sorted : List Edge) (hids : (sorted.map Edge.id).Nodup)
    (mst : List StatusEdge)
    (hmst : ∀ m ∈ mst, ∃ (k : Nat) (ek : Edge), sorted[k]? = some ek ∧ m = ek.withStatus "accepted")
    (j : Nat) (ej : Edge) (hj : sorted[j]? = some ej) :
    (mst.find? (fun m => m.id = ej.id)).isSome = true ↔
      ej.withStatus "accepted" ∈ mst := by
  constructor
  · intro hfind
    rw [List.find?_isSome] at hfind
    obtain ⟨m, hm, hpm⟩ := hfind
    obtain ⟨k, ek, hk, hmk⟩ := hmst m hm
    rw [decide_eq_true_eq] at hpm
    have hkid : ek.id = ej.id := by
      rw [hmk] at hpm
      exact hpm
    have hklen : k < sorted.length := by
      by_contra hcon
      rw [List.getElem?_eq_none (Nat.le_of_not_lt hcon)] at hk
      exact Option.noConfusion hk
    have hjlen : j < sorted.length := by
      by_contra hcon
      rw [List.getElem?_eq_none (Nat.le_of_not_lt hcon)] at hj
      exact Option.noConfusion hj
    have hkj : k = j := by
      have hek : sorted[k] = ek := by
        have := List.getElem?_eq_getElem hklen (l := sorted)
        rw [this] at hk
        exact (Option.some.injEq _ _).mp hk
      have hejj : sorted[j] = ej := by
        have := List.getElem?_eq_getElem hjlen (l := sorted)
        rw [this] at hj
        exact (Option.some.injEq _ _).mp hj
      have hklen2 : k < (sorted.map Edge.id).length := by
        simpa using hklen
      have hjlen2 : j < (sorted.map Edge.id).length := by
        simpa using hjlen
      have hmapk : (sorted.map Edge.id)[k] = ek.id := by
        simp [hek]
      have hmapj : (sorted.map Edge.id)[j] = ej.id := by
        simp [hejj]
      refine (@List.Nodup.getElem_inj_iff _ _ hids k hklen2 j hjlen2).mp ?_
      rw [hmapk, hmapj]
      exact hkid
    subst hkj
    have : ek = ej := by
      rw [hk] at hj
      exact (Option.some.injEq _ _).mp hj
    subst this
    rw [← hmk]
    exact hm
  · intro hmem
    rw [List.find?_isSome]
    exact ⟨ej.withStatus "accepted", hmem, by simp [Edge.withStatus]⟩

/-- A non-empty node id that occurs in the node list gets an entry in
`nodeMap`. -/
theorem nodeMap_pairs_isSome :
    ∀ (zs : List (Nat × String)) (acc : List (String × Nat)) (nid : String),
      nid ≠ "" → (nid ∈ zs.map (fun p => p.2) ∨ (getEntry nid acc).isSome = true) →
      (getEntry nid (zs.foldl (fun acc p =>
        if p.2 = "" then acc else setEntry p.2 p.1 acc) acc)).isSome = true := by
  intro zs
  induction zs with
  | nil =>
    intro acc nid hne hmem
    rcases hmem with hmem | hmem
    · simp at hmem
    · exact hmem
  | cons z rest ih =>
    intro acc nid hne hmem
    simp only [List.foldl_cons]
    by_cases hz : z.2 = ""
    · rw [if_pos hz]
      apply ih _ _ hne
      rcases hmem with hmem | hmem
      · simp only [List.map_cons, List.mem_cons] at hmem
        rcases hmem with hmem | hmem
        · exact absurd (hmem ▸ hz) hne
        · exact Or.inl hmem
      · exact Or.inr hmem
    · rw [if_neg hz]
      apply ih _ _ hne
      by_cases hzn : z.2 = nid
      · refine Or.inr ?_
        rw [getEntry_setEntry, if_pos hzn]
        rfl
      · rcases hmem with hmem | hmem
        · simp only [List.map_cons, List.mem_cons] at hmem
          rcases hmem with hmem | hmem
          · exact absurd hmem.symm hzn
          · exact Or.inl hmem
        · refine Or.inr ?_
          rw [getEntry_setEntry, if_neg hzn]
          exact hmem

theorem nodeMapOf_isSome (nodes : List String) (nid : String)
    (hne : nid ≠ "") (hmem : nid ∈ nodes) :
    (getEntry nid (nodeMapOf nodes)).isSome = true := by
  apply nodeMap_pairs_isSome nodes.enum [] nid hne
  left
  rw [List.enum_map_snd]
  exact hmem


/-- With pairwise-distinct ids, an id determines the sorted position. -/
theorem sorted_id_pos_unique (sorted : List Edge)
    (hids : (sorted.map Edge.id).Nodup) (k j : Nat) (ek ej : Edge)
    (hk : sorted[k]? = some ek) (hj : sorted[j]? = some ej)
    (hid : ek.id = ej.id) : k = j := by
  have hklen : k < sorted.length := by
    by_contra hcon
    rw [List.getElem?_eq_none (Nat.le_of_not_lt hcon)] at hk
    exact Option.noConfusion hk
  have hjlen : j < sorted.length := by
    by_contra hcon
    rw [List.getElem?_eq_none (Nat.le_of_not_lt hcon)] at hj
    exact Option.noConfusion hj
  have hek : sorted[k] = ek := by
    have := List.getElem?_eq_getElem hklen (l := sorted)
    rw [this] at hk
    exact (Option.some.injEq _ _).mp hk
  have hejj : sorted[j] = ej := by
    have := List.getElem?_eq_getElem hjlen (l := sorted)
    rw [this] at hj
    exact (Option.some.injEq _ _).mp hj
  have hklen2 : k < (sorted.map Edge.id).length := by
    simpa using hklen
  have hjlen2 : j < (sorted.map Edge.id).length := by
    simpa using hjlen
  have hmapk : (sorted.map Edge.id)[k] = ek.id := by
    simp [hek]
  have hmapj : (sorted.map Edge.id)[j] = ej.id := by
    simp [hejj]
  refine (@List.Nodup.getElem_inj_iff _ _ hids k hklen2 j hjlen2).mp ?_
  rw [hmapk, hmapj]
  exact hid

/-- The edge being examined at position `idx` is not yet in the MST when the
MST only holds accepted copies of edges at positions below `idx`. -/
theorem current_not_in_mst (sorted : List Edge)
    (hids : (sorted.map Edge.id).Nodup) (mst : List StatusEdge) (idx : Nat)
    (e : Edge) (he : sorted[idx]? = some e)
    (hmst : ∀ m ∈ mst, ∃ (k : Nat) (ek : Edge), k < idx ∧ sorted[k]? = some ek ∧
      m = ek.withStatus "accepted") :
    e.withStatus "accepted" ∉ mst := by
  intro hmem
  obtain ⟨k, ek, hklt, hk, hmk⟩ := hmst _ hmem
  have hid : ek.id = e.id := by
    have := congrArg StatusEdge.id hmk
    simpa [Edge.withStatus] using this.symm
  have := sorted_id_pos_unique sorted hids k idx ek e hk he hid
  omega

/-- The C6 loop invariant: the MST holds exactly accepted copies of edges at
positions below the current index, and every emitted step satisfies
`KruskalExamGood`. -/
def KruskalInv (sorted : List Edge) (idx : Nat) (st : KState) : Prop :=
  (∀ m ∈ st.mstEdges, ∃ (k : Nat) (ek : Edge), k < idx ∧ sorted[k]? = some ek ∧
    m = ek.withStatus "accepted") ∧
  (∀ stp ∈ st.steps, KruskalExamGood sorted stp)

theorem kruskalIter_good (sorted : List Edge) (nmap : List (String × Nat))
    (nodeCount : Nat) (nodes : List String)
    (hids : (sorted.map Edge.id).Nodup) (e : Edge) (idx : Nat) (st : KState)
    (he : sorted[idx]? = some e)
    (hef : e.from_ ≠ "") (het : e.to_ ≠ "")
    (hfs : (getEntry e.from_ nmap).isSome = true)
    (hts : (getEntry e.to_ nmap).isSome = true)
    (hinv : KruskalInv sorted idx st) :
    KruskalInv sorted (idx + 1) (kruskalIter sorted nmap nodeCount nodes e idx st) := by
  obtain ⟨hmst, hsteps⟩ := hinv
  have hmstU : ∀ m ∈ st.mstEdges, ∃ (k : Nat) (ek : Edge), sorted[k]? = some ek ∧
      m = ek.withStatus "accepted" := by
    intro m hm
    obtain ⟨k, ek, _, h1, h2⟩ := hmst m hm
    exact ⟨k, ek, h1, h2⟩
  have hnotmem := current_not_in_mst sorted hids st.mstEdges idx e he hmst
  unfold kruskalIter
  rw [if_neg (by push_neg; exact ⟨hef, het⟩)]
  obtain ⟨fromNode, hf⟩ := Option.isSome_iff_exists.mp hfs
  obtain ⟨toNode, ht2⟩ := Option.isSome_iff_exists.mp hts
  rw [hf, ht2]
  by_cases hc : st.uf.connected fromNode toNode = true
  · -- reject
    simp only [hc, if_pos, if_true]
    have hmst1 : ∀ m ∈ st.mstEdges, ∃ (k : Nat) (ek : Edge), k < idx + 1 ∧
        sorted[k]? = some ek ∧ m = ek.withStatus "accepted" := by
      intro m hm
      obtain ⟨k, ek, hlt, h1, h2⟩ := hmst m hm
      exact ⟨k, ek, Nat.lt_succ_of_lt hlt, h1, h2⟩
    have hgoodRej : KruskalExamGood sorted {
        step := idx + 1
        description := "Edge " ++ e.from_ ++ "-" ++ e.to_ ++ " (weight: " ++
          toString e.weight ++ ") would create a cycle. Rejected."
        currentEdge := some (e.withStatus "rejected")
        sortedEdges := kruskalExamSnapshot sorted st.mstEdges idx "rejected"
        mstEdges := st.mstEdges
        unionFindState := getUnionFindState st.uf nodes
        totalCost := st.totalCost
        action := "reject"
        wouldCreateCycle := some true } := by
      intro _
      refine ⟨idx, e, he, rfl, by simp, ?_, ?_⟩
      · constructor
        · intro hact
          exact absurd hact (by simp)
        · intro hmem
          exact absurd hmem hnotmem
      · intro j ej hj
        refine ⟨?_, ?_, ?_⟩
        · intro hlt
          constructor
          · intro hmem
            rw [kruskalExamSnapshot_getElem sorted st.mstEdges idx "rejected" j ej hj]
            rw [if_pos hlt]
            rw [if_pos ((find_id_iff sorted hids st.mstEdges hmstU j ej hj).mpr hmem)]
          · intro hmem
            rw [kruskalExamSnapshot_getElem sorted st.mstEdges idx "rejected" j ej hj]
            rw [if_pos hlt]
            rw [if_neg (fun hff => hmem ((find_id_iff sorted hids st.mstEdges hmstU j ej hj).mp hff))]
        · intro hEq
          rw [hEq] at hj ⊢
          rw [kruskalExamSnapshot_getElem sorted st.mstEdges idx "rejected" idx ej hj]
          simp
        · intro hgt
          rw [kruskalExamSnapshot_getElem sorted st.mstEdges idx "rejected" j ej hj]
          rw [if_neg (Nat.lt_asymm hgt), if_neg (Nat.ne_of_gt hgt)]
    split
    · refine ⟨hmst1, ?_⟩
      intro stp hstp
      simp only [List.append_assoc, List.mem_append, List.mem_singleton] at hstp
      rcases hstp with hstp | hstp | hstp
      · exact hsteps stp hstp
      · subst hstp
        exact hgoodRej
      · subst hstp
        intro hact
        rcases hact with hact | hact <;> simp at hact
    · refine ⟨hmst1, ?_⟩
      intro stp hstp
      simp only [List.mem_append, List.mem_singleton] at hstp
      rcases hstp with hstp | hstp
      · exact hsteps stp hstp
      · subst hstp
        exact hgoodRej
  · -- accept
    simp only [hc, if_neg, if_false, Bool.false_eq_true]
    have hmst2 : ∀ m ∈ st.mstEdges ++ [e.withStatus "accepted"],
        ∃ (k : Nat) (ek : Edge), k < idx + 1 ∧ sorted[k]? = some ek ∧
          m = ek.withStatus "accepted" := by
      intro m hm
      simp only [List.mem_append, List.mem_singleton] at hm
      rcases hm with hm | hm
      · obtain ⟨k, ek, hlt, h1, h2⟩ := hmst m hm
        exact ⟨k, ek, Nat.lt_succ_of_lt hlt, h1, h2⟩
      · exact ⟨idx, e, Nat.lt_succ_self idx, he, hm⟩
    have hmstU2 : ∀ m ∈ st.mstEdges ++ [e.withStatus "accepted"],
        ∃ (k : Nat) (ek : Edge), sorted[k]? = some ek ∧ m = ek.withStatus "accepted" := by
      intro m hm
      obtain ⟨k, ek, _, h1, h2⟩ := hmst2 m hm
      exact ⟨k, ek, h1, h2⟩
    have hgoodAcc : KruskalExamGood sorted {
        step := idx + 1
        description := "Edge " ++ e.from_ ++ "-" ++ e.to_ ++ " (weight: " ++
          toString e.weight ++ ") added to MST."
        currentEdge := some (e.withStatus "accepted")
        sortedEdges := kruskalExamSnapshot sorted
          (st.mstEdges ++ [e.withStatus "accepted"]) idx "accepted"
        mstEdges := st.mstEdges ++ [e.withStatus "accepted"]
        unionFindState := getUnionFindState (st.uf.union fromNode toNode).1 nodes
        totalCost := st.totalCost + e.weight
        action := "accept"
        wouldCreateCycle := some false } := by
      intro _
      refine ⟨idx, e, he, rfl, by simp, ?_, ?_⟩
      · simp only [show (("accept" : String) = "accept") from rfl, true_iff]
        simp
      · intro j ej hj
        refine ⟨?_, ?_, ?_⟩
        · intro hlt
          constructor
          · intro hmem
            rw [kruskalExamSnapshot_getElem sorted
              (st.mstEdges ++ [e.withStatus "accepted"]) idx "accepted" j ej hj]
            rw [if_pos hlt]
            rw [if_pos ((find_id_iff sorted hids _ hmstU2 j ej hj).mpr hmem)]
          · intro hmem
            rw [kruskalExamSnapshot_getElem sorted
              (st.mstEdges ++ [e.withStatus "accepted"]) idx "accepted" j ej hj]
            rw [if_pos hlt]
            rw [if_neg (fun hff => hmem ((find_id_iff sorted hids _ hmstU2 j ej hj).mp hff))]
        · intro hEq
          rw [hEq] at hj ⊢
          rw [kruskalExamSnapshot_getElem sorted
            (st.mstEdges ++ [e.withStatus "accepted"]) idx "accepted" idx ej hj]
          simp
        · intro hgt
          rw [kruskalExamSnapshot_getElem sorted
            (st.mstEdges ++ [e.withStatus "accepted"]) idx "accepted" j ej hj]
          rw [if_neg (Nat.lt_asymm hgt), if_neg (Nat.ne_of_gt hgt)]
    split
    · refine ⟨hmst2, ?_⟩
      intro stp hstp
      simp only [List.append_assoc, List.mem_append, List.mem_singleton] at hstp
      rcases hstp with hstp | hstp | hstp
      · exact hsteps stp hstp
      · subst hstp
        exact hgoodAcc
      · subst hstp
        intro hact
        rcases hact with hact | hact <;> simp at hact
    · refine ⟨hmst2, ?_⟩
      intro stp hstp
      simp only [List.mem_append, List.mem_singleton] at hstp
      rcases hstp with hstp | hstp
      · exact hsteps stp hstp
      · subst hstp
        exact hgoodAcc


theorem validateGraph_ok_edges (g : Graph) (h : validateGraph g = Except.ok ()) :
    ∀ e ∈ g.edges, e.from_ ≠ "" ∧ e.to_ ≠ "" := by
  intro e hmem
  unfold validateGraph at h
  split at h
  · exact Except.noConfusion h
  · split at h
    · exact Except.noConfusion h
    · next hany =>
        simp only [List.any_eq_true, not_exists] at hany
        have := hany e
        simp only [Bool.or_eq_true, decide_eq_true_eq, not_and, not_or] at this
        exact this hmem

theorem kruskalLoop_good (sorted : List Edge) (nmap : List (String × Nat))
    (nodeCount : Nat) (nodes : List String)
    (hids : (sorted.map Edge.id).Nodup)
    (hvalid : ∀ e ∈ sorted, e.from_ ≠ "" ∧ e.to_ ≠ "" ∧
      (getEntry e.from_ nmap).isSome = true ∧ (getEntry e.to_ nmap).isSome = true) :
    ∀ rem idx st, rem = sorted.drop idx → KruskalInv sorted idx st →
      ∀ stp ∈ (kruskalLoop sorted nmap nodeCount nodes rem idx st).steps,
        KruskalExamGood sorted stp := by
  intro rem
  induction rem with
  | nil =>
    intro idx st _ hinv
    exact hinv.2
  | cons e rest ih =>
    intro idx st hrem hinv
    have he : sorted[idx]? = some e := by
      rw [← List.head?_drop, ← hrem]
      rfl
    have hrest : rest = sorted.drop (idx + 1) := by
      rw [← List.tail_drop, ← hrem]
      rfl
    have hmem : e ∈ sorted := by
      have hlen : idx < sorted.length := by
        by_contra hcon
        rw [List.getElem?_eq_none (Nat.le_of_not_lt hcon)] at he
        exact Option.noConfusion he
      have : sorted[idx] = e := by
        have h2 := List.getElem?_eq_getElem hlen (l := sorted)
        rw [h2] at he
        exact (Option.some.injEq _ _).mp he
      rw [← this]
      exact List.getElem_mem hlen
    obtain ⟨hef, het, hfs, hts⟩ := hvalid e hmem
    rw [kruskalLoop]
    exact ih (idx + 1) _ hrest
      (kruskalIter_good sorted nmap nodeCount nodes hids e idx st he hef het hfs hts hinv)

/-- C6: in every Kruskal accept/reject step, the `sortedEdges` snapshot
annotates edges before the current index `accepted` exactly when they are in
the MST so far and `rejected` exactly when they are not, annotates the
current edge with its own outcome, and annotates every later edge `pending`.
Hypotheses: the run succeeded, edge ids are pairwise distinct, and every
edge's endpoints are (non-empty) ids of nodes of the graph, so no edge is
silently skipped. -/
theorem kruskal_snapshot_annotation (g : Graph) (r : KResult)
    (h : kruskalAlgorithm g = Except.ok r)
    (hids : (g.edges.map Edge.id).Nodup)
    (hends : ∀ e ∈ g.edges, e.from_ ∈ g.nodes ∧ e.to_ ∈ g.nodes) :
    ∀ stp ∈ r.steps,
      KruskalExamGood (g.edges.insertionSort (fun a b => a.weight ≤ b.weight)) stp := by
  have hperm := List.perm_insertionSort (fun (a b : Edge) => a.weight ≤ b.weight) g.edges
  unfold kruskalAlgorithm at h
  split at h
  · exact absurd h (by simp)
  · next u heq =>
      have hval : validateGraph g = Except.ok () := by
        cases u
        exact heq
      have hedges := validateGraph_ok_edges g hval
      rw [Except.ok.injEq] at h
      subst h
      have hids2 : ((g.edges.insertionSort (fun a b => a.weight ≤ b.weight)).map
          Edge.id).Nodup := by
        exact ((hperm.map Edge.id).nodup_iff).mpr hids
      have hvalid : ∀ e ∈ g.edges.insertionSort (fun a b => a.weight ≤ b.weight),
          e.from_ ≠ "" ∧ e.to_ ≠ "" ∧
          (getEntry e.from_ (nodeMapOf g.nodes)).isSome = true ∧
          (getEntry e.to_ (nodeMapOf g.nodes)).isSome = true := by
        intro e hmem
        have hmem2 : e ∈ g.edges := hperm.subset hmem
        obtain ⟨h1, h2⟩ := hedges e hmem2
        obtain ⟨h3, h4⟩ := hends e hmem2
        exact ⟨h1, h2, nodeMapOf_isSome g.nodes e.from_ h1 h3,
          nodeMapOf_isSome g.nodes e.to_ h2 h4⟩
      intro stp hstp
      refine kruskalLoop_good _ _ _ _ hids2 hvalid _ 0 _ (List.drop_zero _).symm
        ⟨?_, ?_⟩ stp hstp
      · intro m hm
        simp at hm
      · intro stp0 hstp0
        rw [List.mem_singleton] at hstp0
        subst hstp0
        intro hact
        rcases hact with hact | hact <;> simp at hact

/-- Witness for `kruskal_snapshot_annotation`. -/
theorem kruskal_snapshot_annotation_witness :
    ∃ r, kruskalAlgorithm triangleGraph = Except.ok r ∧
      ∀ stp ∈ r.steps,
        KruskalExamGood (triangleGraph.edges.insertionSort
          (fun a b => a.weight ≤ b.weight)) stp := by
  cases hh : kruskalAlgorithm triangleGraph with
  | error e =>
    have hok : (kruskalAlgorithm triangleGraph).isOk = true := by decide
    rw [hh] at hok
    simp [Except.isOk, Except.toBool] at hok
  | ok r =>
    exact ⟨r, rfl, kruskal_snapshot_annotation triangleGraph r hh (by decide) (by decide)⟩


/-! ## C1 -/

/-- A graph that passes validation and in which every node reaches every
other (even directionally), but which carries a `directed` edge.  Kruskal
ignores the `directed` flag (it unions the endpoints of every edge), while
Prim's adjacency list honours it, so the two engines disagree on the
minimum total cost. -/
def dirGraph : Graph :=
  { nodes := ["A", "B", "C"],
    edges := [
      { id := some "e1", from_ := "A", to_ := "B", weight := 1, directed := false },
      { id := some "e2", from_ := "B", to_ := "C", weight := 1, directed := true },
      { id := some "e3", from_ := "C", to_ := "A", weight := 10, directed := false } ] }

/-- C1 counterexample (claim: for every valid connected graph, Kruskal's
total cost equals Prim's from any start node).  On `dirGraph`, Kruskal
accepts A-B and B-C for a total of 2, while Prim started from C cannot use
the directed edge B→C to leave C and accepts C-A (10) and A-B (1) for a
total of 11. -/
theorem kruskal_prim_cost_differ_on_directed :
    (kruskalAlgorithm dirGraph).map (fun r => r.finalResult.totalCost) = Except.ok 2 ∧
    (primAlgorithm dirGraph (some "C")).map (fun r => r.finalResult.totalCost) =
      Except.ok 11 := by
  constructor
  · rfl
  · simp +decide [primAlgorithm, primMain, primLoop, dirGraph, validateGraph,
      createAdjacencyList, setEntry, getEntry, Arc.qedgeFrom, Edge.edgeIdOf,
      Except.map]

/-! ### Undirected connectivity generated by a list of edges.

Both MST engines presuppose a "connected graph"; `connS S a b` is the
reflexive-transitive closure of "an edge of `S` joins `a` and `b` in either
orientation". -/

def estep (S : List Edge) (a b : String) : Prop :=
  ∃ e ∈ S, (e.from_ = a ∧ e.to_ = b) ∨ (e.from_ = b ∧ e.to_ = a)

def connS (S : List Edge) : String → String → Prop :=
  Relation.ReflTransGen (estep S)

/-- `x` is an endpoint of some edge of `S`. -/
def touchS (S : List Edge) (x : String) : Prop :=
  ∃ e ∈ S, e.from_ = x ∨ e.to_ = x

theorem estep_symm {S : List Edge} {a b : String} (h : estep S a b) : estep S b a := by
  obtain ⟨e, he, hor⟩ := h
  exact ⟨e, he, hor.symm⟩

theorem estep_mono {S S' : List Edge} (hs : ∀ x ∈ S, x ∈ S') {a b : String}
    (h : estep S a b) : estep S' a b := by
  obtain ⟨e, he, hor⟩ := h
  exact ⟨e, hs e he, hor⟩

theorem connS_refl (S : List Edge) (a : String) : connS S a a :=
  Relation.ReflTransGen.refl

theorem connS_symm {S : List Edge} {a b : String} (h : connS S a b) : connS S b a :=
  Relation.ReflTransGen.symmetric (fun _ _ hab => estep_symm hab) h

theorem connS_trans {S : List Edge} {a b c : String} (h1 : connS S a b)
    (h2 : connS S b c) : connS S a c :=
  Relation.ReflTransGen.trans h1 h2

theorem connS_mono {S S' : List Edge} (hs : ∀ x ∈ S, x ∈ S') {a b : String}
    (h : connS S a b) : connS S' a b :=
  Relation.ReflTransGen.mono (fun _ _ hab => estep_mono hs hab) h

theorem connS_congr_mem {S S' : List Edge} (hs : ∀ x, x ∈ S ↔ x ∈ S')
    (a b : String) : connS S a b ↔ connS S' a b :=
  ⟨connS_mono (fun x hx => (hs x).mp hx), connS_mono (fun x hx => (hs x).mpr hx)⟩

theorem connS_single {S : List Edge} {e : Edge} (he : e ∈ S) :
    connS S e.from_ e.to_ :=
  Relation.ReflTransGen.single ⟨e, he, Or.inl ⟨rfl, rfl⟩⟩

theorem connS_nil {a b : String} : connS [] a b ↔ a = b := by
  constructor
  · intro h
    induction h with
    | refl => rfl
    | tail _ hstep _ =>
      obtain ⟨e, he, _⟩ := hstep
      exact absurd he (List.not_mem_nil e)
  · intro h
    exact h ▸ connS_refl [] a

theorem connS_touch {S : List Edge} {a b : String} (h : connS S a b) (hne : a ≠ b) :
    touchS S b := by
  induction h with
  | refl => exact absurd rfl hne
  | tail _ hstep _ =>
    obtain ⟨e, he, hor⟩ := hstep
    rcases hor with ⟨_, h2⟩ | ⟨h1, _⟩
    · exact ⟨e, he, Or.inr h2⟩
    · exact ⟨e, he, Or.inl h1⟩

/-- Appending one edge joins the classes of its two endpoints. -/
theorem connS_snoc (S : List Edge) (e : Edge) (a b : String) :
    connS (S ++ [e]) a b ↔ connS S a b ∨
      (connS S a e.from_ ∧ connS S e.to_ b) ∨
      (connS S a e.to_ ∧ connS S e.from_ b) := by
  constructor
  · intro h
    induction h with
    | refl => exact Or.inl (connS_refl S a)
    | tail _ hstep ih =>
      obtain ⟨f, hf, hor⟩ := hstep
      rw [List.mem_append, List.mem_singleton] at hf
      rcases hf with hf | hf
      · have hcd : estep S _ _ := ⟨f, hf, hor⟩
        rcases ih with ih | ⟨h1, h2⟩ | ⟨h1, h2⟩
        · exact Or.inl (ih.tail hcd)
        · exact Or.inr (Or.inl ⟨h1, h2.tail hcd⟩)
        · exact Or.inr (Or.inr ⟨h1, h2.tail hcd⟩)
      · subst hf
        rcases hor with ⟨h1, h2⟩ | ⟨h1, h2⟩
        · subst h1
          subst h2
          rcases ih with ih | ⟨g1, _⟩ | ⟨g1, _⟩
          · exact Or.inr (Or.inl ⟨ih, connS_refl S _⟩)
          · exact Or.inr (Or.inl ⟨g1, connS_refl S _⟩)
          · exact Or.inl g1
        · subst h1
          subst h2
          rcases ih with ih | ⟨g1, _⟩ | ⟨g1, _⟩
          · exact Or.inr (Or.inr ⟨ih, connS_refl S _⟩)
          · exact Or.inl g1
          · exact Or.inr (Or.inr ⟨g1, connS_refl S _⟩)
  · intro h
    have hsub : ∀ x ∈ S, x ∈ S ++ [e] := fun x hx => List.mem_append_left _ hx
    have hee : connS (S ++ [e]) e.from_ e.to_ :=
      connS_single (List.mem_append_right _ (List.mem_singleton.mpr rfl))
    rcases h with h | ⟨h1, h2⟩ | ⟨h1, h2⟩
    · exact connS_mono hsub h
    · exact connS_trans (connS_trans (connS_mono hsub h1) hee) (connS_mono hsub h2)
    · exact connS_trans (connS_trans (connS_mono hsub h1) (connS_symm hee))
        (connS_mono hsub h2)

/-- A walk out of a vertex set must use a crossing edge. -/
theorem connS_cross {S : List Edge} {V : List String} {a b : String}
    (h : connS S a b) : a ∈ V → b ∉ V →
    ∃ x y, x ∈ V ∧ y ∉ V ∧ estep S x y := by
  induction h with
  | refl => exact fun ha hb => absurd ha hb
  | tail hac hstep ih =>
    rename_i c d
    intro ha hb
    by_cases hc : c ∈ V
    · exact ⟨c, d, hc, hb, hstep⟩
    · exact ih ha hc

/-! ### Counting equivalence classes over a finite carrier list. -/

/-- `v` is the earliest member of its `R`-class in `N`. -/
def firstRep (N : List String) (R : String → String → Prop) (v : String) : Prop :=
  v ∈ N ∧ ∀ u ∈ N, R u v → N.indexOf v ≤ N.indexOf u

noncomputable def numClasses (N : List String) (R : String → String → Prop) : Nat :=
  {v | firstRep N R v}.ncard

theorem firstRep_finite (N : List String) (R : String → String → Prop) :
    {v | firstRep N R v}.Finite :=
  N.finite_toSet.subset (fun _ hv => hv.1)

theorem indexOf_inj_of_mem (N : List String) (a b : String) (ha : a ∈ N)
    (hb : b ∈ N) (h : N.indexOf a = N.indexOf b) : a = b := by
  have ha' := List.indexOf_lt_length.mpr ha
  have hb' := List.indexOf_lt_length.mpr hb
  have h1 : N[N.indexOf a]? = some a := by
    rw [List.getElem?_eq_getElem ha']
    exact congrArg some (List.getElem_indexOf ha')
  have h2 : N[N.indexOf b]? = some b := by
    rw [List.getElem?_eq_getElem hb']
    exact congrArg some (List.getElem_indexOf hb')
  rw [h, h2] at h1
  exact (Option.some.injEq _ _).mp h1.symm

theorem firstRep_exists (N : List String) (R : String → String → Prop)
    (hrefl : ∀ x, R x x) (htrans : ∀ {x y z : String}, R x y → R y z → R x z) :
    ∀ k, ∀ v ∈ N, N.indexOf v ≤ k → ∃ r, firstRep N R r ∧ R r v := by
  intro k
  induction k with
  | zero =>
    intro v hv hk
    by_cases hfr : firstRep N R v
    · exact ⟨v, hfr, hrefl v⟩
    · exfalso
      rw [firstRep, not_and] at hfr
      have := hfr hv
      push_neg at this
      obtain ⟨u, _, _, hlt⟩ := this
      omega
  | succ k ih =>
    intro v hv hk
    by_cases hfr : firstRep N R v
    · exact ⟨v, hfr, hrefl v⟩
    · rw [firstRep, not_and] at hfr
      have := hfr hv
      push_neg at this
      obtain ⟨u, hu, huv, hlt⟩ := this
      obtain ⟨r, hr, hru⟩ := ih u hu (by omega)
      exact ⟨r, hr, htrans hru huv⟩

theorem firstRep_unique (N : List String) (R : String → String → Prop)
    (v w : String) (hv : firstRep N R v) (hw : firstRep N R w)
    (h1 : R v w) (h2 : R w v) : v = w := by
  have hle1 := hv.2 w hw.1 h2
  have hle2 := hw.2 v hv.1 h1
  exact indexOf_inj_of_mem N v w hv.1 hw.1 (Nat.le_antisymm hle1 hle2)

theorem numClasses_eqRel (N : List String) (hN : N.Nodup)
    (R : String → String → Prop) (hR : ∀ x ∈ N, ∀ y ∈ N, (R x y ↔ x = y)) :
    numClasses N R = N.length := by
  have hset : {v | firstRep N R v} = {v | v ∈ N} := by
    ext v
    simp only [Set.mem_setOf_eq]
    constructor
    · exact fun h => h.1
    · intro hv
      refine ⟨hv, ?_⟩
      intro u hu hR'
      have := (hR u hu v hv).mp hR'
      subst this
      exact Nat.le_refl _
  rw [numClasses, hset, ← List.coe_toFinset, Set.ncard_coe_Finset,
    List.toFinset_card_of_nodup hN]

theorem numClasses_congr (N : List String) (R R' : String → String → Prop)
    (h : ∀ x ∈ N, ∀ y ∈ N, (R x y ↔ R' x y)) :
    numClasses N R = numClasses N R' := by
  unfold numClasses
  congr 1
  ext v
  simp only [Set.mem_setOf_eq, firstRep]
  constructor
  · intro ⟨hv, hall⟩
    exact ⟨hv, fun u hu hR' => hall u hu ((h u hu v hv).mpr hR')⟩
  · intro ⟨hv, hall⟩
    exact ⟨hv, fun u hu hR' => hall u hu ((h u hu v hv).mp hR')⟩

theorem numClasses_join_aux (N : List String)
    (R R' : String → String → Prop)
    (hsymm : ∀ {x y : String}, R x y → R y x)
    (htrans : ∀ {x y z : String}, R x y → R y z → R x z)
    (a b : String)
    (hR' : ∀ x y, R' x y ↔ R x y ∨ (R x a ∧ R b y) ∨ (R x b ∧ R a y))
    (ra rb : String) (hra : firstRep N R ra) (hrb : firstRep N R rb)
    (hraa : R ra a) (hrbb : R rb b) (hlt : N.indexOf ra < N.indexOf rb) :
    numClasses N R' + 1 = numClasses N R := by
  have hset : {v | firstRep N R' v} = {v | firstRep N R v} \ {rb} := by
    ext v
    simp only [Set.mem_setOf_eq, Set.mem_diff, Set.mem_singleton_iff]
    constructor
    · intro hv'
      refine ⟨⟨hv'.1, fun u hu huv => hv'.2 u hu ((hR' u v).mpr (Or.inl huv))⟩, ?_⟩
      intro hvb
      subst hvb
      have hstep : R' ra v := (hR' ra v).mpr (Or.inr (Or.inl ⟨hraa, hsymm hrbb⟩))
      have := hv'.2 ra hra.1 hstep
      omega
    · intro ⟨hv, hne⟩
      refine ⟨hv.1, ?_⟩
      intro u hu hR'uv
      rcases (hR' u v).mp hR'uv with huv | ⟨hua, hbv⟩ | ⟨hub, hav⟩
      · exact hv.2 u hu huv
      · exfalso
        have hrbv : R rb v := htrans hrbb hbv
        exact hne (firstRep_unique N R v rb hv hrb (hsymm hrbv) hrbv)
      · have hrav : R ra v := htrans hraa hav
        have hvra : v = ra := firstRep_unique N R v ra hv hra (hsymm hrav) hrav
        have hurb : R u rb := htrans hub (hsymm hrbb)
        have := hrb.2 u hu hurb
        rw [hvra]
        omega
  rw [numClasses, numClasses, hset]
  exact Set.ncard_diff_singleton_add_one hrb (firstRep_finite N R)

theorem numClasses_join (N : List String) (R R' : String → String → Prop)
    (hrefl : ∀ x, R x x)
    (hsymm : ∀ {x y : String}, R x y → R y x)
    (htrans : ∀ {x y z : String}, R x y → R y z → R x z)
    (a b : String) (ha : a ∈ N) (hb : b ∈ N) (hab : ¬ R a b)
    (hR' : ∀ x y, R' x y ↔ R x y ∨ (R x a ∧ R b y) ∨ (R x b ∧ R a y)) :
    numClasses N R' + 1 = numClasses N R := by
  obtain ⟨ra, hra, hraa⟩ := firstRep_exists N R hrefl htrans (N.indexOf a) a ha
    (Nat.le_refl _)
  obtain ⟨rb, hrb, hrbb⟩ := firstRep_exists N R hrefl htrans (N.indexOf b) b hb
    (Nat.le_refl _)
  have hne : N.indexOf ra ≠ N.indexOf rb := by
    intro h
    have hr : ra = rb := indexOf_inj_of_mem N ra rb hra.1 hrb.1 h
    subst hr
    exact hab (htrans (hsymm hraa) hrbb)
  rcases Nat.lt_or_ge (N.indexOf ra) (N.indexOf rb) with hlt | hge
  · exact numClasses_join_aux N R R' hsymm htrans a b hR' ra rb hra hrb hraa hrbb hlt
  · have hlt : N.indexOf rb < N.indexOf ra := by omega
    refine numClasses_join_aux N R R' hsymm htrans b a ?_ rb ra hrb hra hrbb hraa hlt
    intro x y
    rw [hR' x y]
    constructor
    · rintro (h | h | h)
      · exact Or.inl h
      · exact Or.inr (Or.inr h)
      · exact Or.inr (Or.inl h)
    · rintro (h | h | h)
      · exact Or.inl h
      · exact Or.inr (Or.inr h)
      · exact Or.inr (Or.inl h)

/-! ### Incremental forests: every edge joins two distinct classes of its
predecessors, so each one removes exactly one class. -/

def filterW (w : Nat) (F : List Edge) : List Edge :=
  F.filter (fun e => decide (e.weight ≤ w))

def Incremental (F : List Edge) : Prop :=
  ∀ i (h : i < F.length),
    ¬ connS (F.take i) (F[i].from_) (F[i].to_)

theorem incremental_count (N : List String) (hN : N.Nodup) :
    ∀ F : List Edge, Incremental F → (∀ e ∈ F, e.from_ ∈ N ∧ e.to_ ∈ N) →
      numClasses N (connS F) + F.length = N.length := by
  intro F
  induction F using List.reverseRecOn with
  | nil =>
    intro _ _
    have h := numClasses_eqRel N hN (connS [])
      (fun x _ y _ => connS_nil)
    simpa using h
  | append_singleton F e ih =>
    intro hinc hend
    have hF : Incremental F := by
      intro i h
      have hlen : i < (F ++ [e]).length := by simp; omega
      have h2 := hinc i hlen
      rw [List.take_append_of_le_length (by omega)] at h2
      have hg : (F ++ [e])[i] = F[i] := List.getElem_append_left h
      rw [hg] at h2
      exact h2
    have hlast : ¬ connS F e.from_ e.to_ := by
      have hlen : F.length < (F ++ [e]).length := by simp
      have h2 := hinc F.length hlen
      rw [List.take_left] at h2
      have hg : (F ++ [e])[F.length] = e :=
        List.getElem_concat_length F e F.length rfl hlen
      rw [hg] at h2
      exact h2
    have hmem : e ∈ F ++ [e] := List.mem_append_right _ (List.mem_singleton.mpr rfl)
    have h1 := numClasses_join N (connS F) (connS (F ++ [e]))
      (connS_refl F) (fun h => connS_symm h) (fun h1 h2 => connS_trans h1 h2)
      e.from_ e.to_ (hend e hmem).1 (hend e hmem).2 hlast
      (fun x y => connS_snoc F e x y)
    have h2 := ih hF (fun x hx => hend x (List.mem_append_left _ hx))
    simp only [List.length_append, List.length_singleton]
    omega

theorem Incremental_take (F : List Edge) (k : Nat) (h : Incremental F) :
    Incremental (F.take k) := by
  intro i hi
  have hik : i < k := by
    simp only [List.length_take] at hi
    omega
  have hi' : i < F.length := by
    simp only [List.length_take] at hi
    omega
  have h2 := h i hi'
  have htt : (F.take k).take i = F.take i := by
    rw [List.take_take]
    congr 1
    omega
  have hg : (F.take k)[i] = F[i] := by rw [List.getElem_take]
  rw [htt, hg]
  exact h2

/-- In a weight-sorted list, filtering by a weight threshold takes a prefix. -/
theorem sorted_filterW_eq_take (l : List Edge)
    (hs : List.Sorted (fun a b : Edge => a.weight ≤ b.weight) l) (w : Nat) :
    filterW w l = l.take (filterW w l).length := by
  have htw : ∀ l' : List Edge, List.Sorted (fun a b : Edge => a.weight ≤ b.weight) l' →
      filterW w l' = l'.takeWhile (fun e => decide (e.weight ≤ w)) := by
    intro l'
    induction l' with
    | nil => intro _; rfl
    | cons a rest ih =>
      intro hs'
      rw [List.sorted_cons] at hs'
      unfold filterW
      simp only [List.filter_cons, List.takeWhile_cons]
      by_cases h : a.weight ≤ w
      · rw [if_pos (by simpa using h), if_pos (by simpa using h)]
        rw [← filterW, ih hs'.2]
      · rw [if_neg (by simpa using h), if_neg (by simpa using h)]
        rw [List.filter_eq_nil_iff.mpr]
        intro x hx
        have := hs'.1 x hx
        simp only [decide_eq_true_eq]
        omega
  rw [htw l hs]
  exact List.prefix_iff_eq_take.mp (List.takeWhile_prefix _)

theorem sublist_getElem_take {α : Type} (l F : List α) (hsub : l.Sublist F) :
    ∀ i (h : i < l.length), ∃ k, ∃ hk : k < F.length,
      l[i] = F[k] ∧ ∀ x ∈ l.take i, x ∈ F.take k := by
  induction hsub with
  | slnil =>
    intro i h
    simp at h
  | cons a hsub ih =>
    intro i h
    obtain ⟨k, hk, heq, htake⟩ := ih i h
    rename_i F'
    refine ⟨k + 1, by simp; omega, by simpa using heq, ?_⟩
    intro x hx
    rw [List.take_succ_cons]
    exact List.mem_cons_of_mem a (htake x hx)
  | cons₂ a hsub ih =>
    intro i h
    cases i with
    | zero => exact ⟨0, by simp, rfl, by simp⟩
    | succ i =>
      obtain ⟨k, hk, heq, htake⟩ := ih i (by simpa using h)
      refine ⟨k + 1, by simp; omega, by simpa using heq, ?_⟩
      intro x hx
      rw [List.take_succ_cons] at hx ⊢
      rcases List.mem_cons.mp hx with hx | hx
      · exact hx ▸ List.mem_cons_self _ _
      · exact List.mem_cons_of_mem a (htake x hx)

theorem nodup_getElem_not_mem_take {α : Type} (L : List α) (h : L.Nodup) (k : Nat)
    (hk : k < L.length) : L[k] ∉ L.take k := by
  intro hmem
  rw [List.mem_iff_getElem] at hmem
  obtain ⟨i, hi, hieq⟩ := hmem
  have hilen : i < k := by
    simp only [List.length_take] at hi
    omega
  have hi' : i < L.length := by omega
  rw [List.getElem_take] at hieq
  have hik : i = k := (List.Nodup.getElem_inj_iff h).mp hieq
  omega

/-- The MST edge record of Prim as a bare edge. -/
def pEdge (m : PMstEdge) : Edge :=
  { id := none, from_ := m.from_, to_ := m.to_, weight := m.weight, directed := false }

/-- Prim's forests: each accepted edge takes a fresh far endpoint, so every
sublist of the accepted list is incremental. -/
theorem fresh_incremental (start : String) (F : List Edge)
    (hfrom : ∀ i (h : i < F.length),
      F[i].from_ ∈ start :: ((F.take i).map Edge.to_))
    (hnd : (start :: F.map Edge.to_).Nodup) :
    ∀ l, l.Sublist F → Incremental l := by
  intro l hsub i hi hconn
  obtain ⟨k, hk, heq, htake⟩ := sublist_getElem_take l F hsub i hi
  have hkL : k + 1 < (start :: F.map Edge.to_).length := by simp; omega
  have hgetL : (start :: F.map Edge.to_)[k + 1] = F[k].to_ := by
    simp
  have htakeL : (start :: F.map Edge.to_).take (k + 1) =
      start :: (F.take k).map Edge.to_ := by
    rw [List.take_succ_cons, List.map_take]
  have hnotin : F[k].to_ ∉ start :: (F.take k).map Edge.to_ := by
    rw [← htakeL, ← hgetL]
    exact nodup_getElem_not_mem_take _ hnd (k + 1) hkL
  have htouch : ∀ x ∈ F.take k, x.from_ ∈ start :: (F.take k).map Edge.to_ ∧
      x.to_ ∈ start :: (F.take k).map Edge.to_ := by
    intro x hx
    have hx' := hx
    rw [List.mem_iff_getElem] at hx'
    obtain ⟨j, hj, hjeq⟩ := hx'
    have hjk : j < k := by
      simp only [List.length_take] at hj
      omega
    have hjF : j < F.length := by omega
    have hgj : (F.take k)[j] = F[j] := by rw [List.getElem_take]
    constructor
    · have hf := hfrom j hjF
      rw [← hgj, hjeq] at hf
      rcases List.mem_cons.mp hf with hf | hf
      · exact hf ▸ List.mem_cons_self _ _
      · refine List.mem_cons_of_mem _ ?_
        have hsubj : ∀ y ∈ F.take j, y ∈ F.take k := by
          intro y hy
          have : F.take j = (F.take k).take j := by
            rw [List.take_take]
            congr 1
            omega
          rw [this] at hy
          exact List.take_subset _ _ hy
        obtain ⟨y, hy1, hy2⟩ := List.mem_map.mp hf
        exact List.mem_map.mpr ⟨y, hsubj y hy1, hy2⟩
    · exact List.mem_cons_of_mem _ (List.mem_map_of_mem Edge.to_ hx)
  have hconn' : connS (F.take k) (F[k].from_) (F[k].to_) := by
    rw [heq] at hconn
    exact connS_mono htake hconn
  have hne : F[k].from_ ≠ F[k].to_ := by
    intro hEq
    apply hnotin
    rw [← hEq]
    exact hfrom k hk
  obtain ⟨x, hxmem, hor⟩ := connS_touch hconn' hne
  rcases hor with hor | hor
  · exact hnotin (hor ▸ (htouch x hxmem).1)
  · exact hnotin (hor ▸ (htouch x hxmem).2)

/-! ### From per-threshold counts to total weights. -/

def maxW (F : List Edge) : Nat := F.foldr (fun e m => max e.weight m) 0

theorem le_maxW (F : List Edge) : ∀ e ∈ F, e.weight ≤ maxW F := by
  induction F with
  | nil => intro e he; simp at he
  | cons a rest ih =>
    intro e he
    rcases List.mem_cons.mp he with he | he
    · subst he
      exact Nat.le_max_left _ _
    · exact Nat.le_trans (ih e he) (Nat.le_max_right _ _)

theorem sum_range_ite_lt (W c : Nat) (h : c ≤ W) :
    ∑ w ∈ Finset.range W, (if w < c then 1 else 0) = c := by
  induction W with
  | zero =>
    have : c = 0 := by omega
    simp [this]
  | succ W ih =>
    rw [Finset.sum_range_succ]
    by_cases hc : c ≤ W
    · rw [ih hc, if_neg (by omega)]
      omega
    · have hc1 : c = W + 1 := by omega
      rw [if_pos (by omega)]
      have hall : ∑ w ∈ Finset.range W, (if w < c then 1 else 0) =
          ∑ _w ∈ Finset.range W, 1 := by
        refine Finset.sum_congr rfl ?_
        intro w hw
        rw [Finset.mem_range] at hw
        rw [if_pos (by omega)]
      rw [hall, Finset.sum_const, Finset.card_range, smul_eq_mul, mul_one]
      omega

theorem sum_weights_threshold (F : List Edge) (W : Nat) (hW : ∀ e ∈ F, e.weight < W) :
    (F.map Edge.weight).sum =
      ∑ w ∈ Finset.range W, (F.filter (fun e => decide (w < e.weight))).length := by
  induction F with
  | nil => simp
  | cons e F' ih =>
    have hlen : ∀ w, ((e :: F').filter (fun x => decide (w < x.weight))).length =
        (if w < e.weight then 1 else 0) +
          (F'.filter (fun x => decide (w < x.weight))).length := by
      intro w
      by_cases h : w < e.weight
      · simp [List.filter_cons, h]
        omega
      · simp [List.filter_cons, h]
    rw [Finset.sum_congr rfl (fun w _ => hlen w), Finset.sum_add_distrib]
    rw [sum_range_ite_lt W e.weight (Nat.le_of_lt (hW e (List.mem_cons_self e F')))]
    rw [← ih (fun x hx => hW x (List.mem_cons_of_mem e hx))]
    simp

theorem length_filter_le_add_gt (F : List Edge) (w : Nat) :
    (filterW w F).length + (F.filter (fun e => decide (w < e.weight))).length =
      F.length := by
  have h := @List.length_eq_length_filter_add _ F (fun e => decide (e.weight ≤ w))
  rw [h, filterW]
  congr 2
  refine List.filter_congr ?_
  intro x _
  by_cases hx : x.weight ≤ w
  · simp [hx]
  · simp [hx]
    omega

/-! ### Verification of the rank-based union-find.

`pget`/`rget` read a parent or rank entry with the code's `getD` defaults;
the invariant `UFGood` says parents stay in range, ranks strictly increase
along non-trivial parent links (which bounds every chain), and every rank is
at most `n` minus the number of roots (which makes the `parent.length` fuel
of `find` sufficient). -/

def pget (uf : UnionFind) (i : Nat) : Nat := uf.parent.getD i i

def rget (uf : UnionFind) (i : Nat) : Nat := uf.rank.getD i 0

def nroots (uf : UnionFind) (n : Nat) : Nat :=
  ((List.range n).filter (fun i => decide (pget uf i = i))).length

def UFGood (uf : UnionFind) (n : Nat) : Prop :=
  uf.parent.length = n ∧ uf.rank.length = n ∧
  (∀ i, i < n → pget uf i < n) ∧
  (∀ i, i < n → pget uf i ≠ i → rget uf i < rget uf (pget uf i)) ∧
  (∀ i, i < n → rget uf i + nroots uf n ≤ n)

theorem findAux_succ (uf : UnionFind) (fuel x : Nat) :
    UnionFind.findAux uf.parent (fuel + 1) x =
      if pget uf x = x then x else UnionFind.findAux uf.parent fuel (pget uf x) :=
  rfl

theorem findAux_good (uf : UnionFind) (n : Nat) (hinv : UFGood uf n) :
    ∀ fuel x, x < n → n ≤ fuel + rget uf x + nroots uf n →
      (UnionFind.findAux uf.parent fuel x < n ∧
       pget uf (UnionFind.findAux uf.parent fuel x) =
         UnionFind.findAux uf.parent fuel x ∧
       UnionFind.findAux uf.parent (fuel + 1) x =
         UnionFind.findAux uf.parent fuel x) := by
  intro fuel
  induction fuel with
  | zero =>
    intro x hx hcond
    have hroot : pget uf x = x := by
      by_contra hne
      have h1 := hinv.2.2.2.1 x hx hne
      have h2 := hinv.2.2.2.2 (pget uf x) (hinv.2.2.1 x hx)
      omega
    refine ⟨hx, hroot, ?_⟩
    rw [findAux_succ, if_pos hroot]
    rfl
  | succ fuel ih =>
    intro x hx hcond
    by_cases hroot : pget uf x = x
    · rw [findAux_succ, if_pos hroot]
      refine ⟨hx, hroot, ?_⟩
      rw [findAux_succ, if_pos hroot]
    · have hpx : pget uf x < n := hinv.2.2.1 x hx
      have hrx : rget uf x < rget uf (pget uf x) := hinv.2.2.2.1 x hx hroot
      have ih2 := ih (pget uf x) hpx (by omega)
      rw [findAux_succ, if_neg hroot]
      refine ⟨ih2.1, ih2.2.1, ?_⟩
      rw [findAux_succ, if_neg hroot]
      exact ih2.2.2

theorem find_good (uf : UnionFind) (n : Nat) (hinv : UFGood uf n) (x : Nat)
    (hx : x < n) : uf.find x < n ∧ pget uf (uf.find x) = uf.find x := by
  unfold UnionFind.find
  rw [hinv.1]
  have h := findAux_good uf n hinv n x hx (by omega)
  exact ⟨h.1, h.2.1⟩

theorem find_of_root (uf : UnionFind) (x : Nat) (hroot : pget uf x = x) :
    uf.find x = x := by
  unfold UnionFind.find
  cases h : uf.parent.length with
  | zero => rfl
  | succ m => rw [findAux_succ, if_pos hroot]

theorem find_parent (uf : UnionFind) (n : Nat) (hinv : UFGood uf n) (x : Nat)
    (hx : x < n) (hnr : pget uf x ≠ x) :
    uf.find x = uf.find (pget uf x) := by
  unfold UnionFind.find
  rw [hinv.1]
  obtain ⟨m, hm⟩ : ∃ m, n = m + 1 := ⟨n - 1, by omega⟩
  have hpx : pget uf x < n := hinv.2.2.1 x hx
  have hrx : rget uf x < rget uf (pget uf x) := hinv.2.2.2.1 x hx hnr
  subst hm
  rw [findAux_succ, if_neg hnr]
  exact (findAux_good uf (m + 1) hinv m (pget uf x) hpx (by omega)).2.2.symm

theorem pget_set (uf uf' : UnionFind) (rA rB : Nat)
    (hpar : uf'.parent = uf.parent.set rA rB) (hA : rA < uf.parent.length) :
    ∀ z, pget uf' z = if z = rA then rB else pget uf z := by
  intro z
  unfold pget
  rw [hpar]
  by_cases hz : z = rA
  · subst hz
    rw [if_pos rfl]
    simp [List.getD, List.getElem?_set, hA]
  · rw [if_neg hz]
    have : rA ≠ z := fun h => hz h.symm
    simp [List.getD, List.getElem?_set, this]

theorem rget_set (uf uf' : UnionFind) (i v : Nat)
    (hr : uf'.rank = uf.rank.set i v) (hi : i < uf.rank.length) :
    ∀ j, rget uf' j = if j = i then v else rget uf j := by
  intro j
  unfold rget
  rw [hr]
  by_cases hj : j = i
  · subst hj
    rw [if_pos rfl]
    simp [List.getD, List.getElem?_set, hi]
  · rw [if_neg hj]
    have : i ≠ j := fun h => hj h.symm
    simp [List.getD, List.getElem?_set, this]

theorem filter_length_flip {α : Type} (l : List α) (hl : l.Nodup) (a : α)
    (ha : a ∈ l) (p q : α → Bool) (hpq : ∀ x ∈ l, x ≠ a → p x = q x)
    (hpa : p a = true) (hqa : q a = false) :
    (l.filter q).length + 1 = (l.filter p).length := by
  induction l with
  | nil => simp at ha
  | cons x rest ih =>
    rw [List.nodup_cons] at hl
    rcases List.mem_cons.mp ha with hxa | ha'
    · subst hxa
      rw [List.filter_cons, List.filter_cons, hpa, hqa]
      simp only [if_pos, if_neg, Bool.false_eq_true, if_false, if_true,
        List.length_cons]
      have hcongr : rest.filter q = rest.filter p := by
        refine List.filter_congr ?_
        intro y hy
        exact (hpq y (List.mem_cons_of_mem _ hy) (fun h => hl.1 (h ▸ hy))).symm
      rw [hcongr]
    · have hxa : x ≠ a := fun h => hl.1 (h ▸ ha')
      rw [List.filter_cons, List.filter_cons, hpq x (List.mem_cons_self x rest) hxa]
      have hrec := ih hl.2 ha' (fun y hy hya => hpq y (List.mem_cons_of_mem x hy) hya)
      by_cases hqx : q x = true
      · rw [hqx]
        simp only [if_true, List.length_cons]
        omega
      · rw [Bool.not_eq_true] at hqx
        rw [hqx]
        simp only [Bool.false_eq_true, if_false]
        exact hrec

theorem nroots_set_root (uf uf' : UnionFind) (n rA rB : Nat)
    (hpar : uf'.parent = uf.parent.set rA rB)
    (hA : rA < n) (hlen : uf.parent.length = n)
    (hrootA : pget uf rA = rA) (hBA : rB ≠ rA) :
    nroots uf' n + 1 = nroots uf n := by
  unfold nroots
  have hpget := pget_set uf uf' rA rB hpar (by omega)
  refine filter_length_flip (List.range n) (List.nodup_range n) rA
    (List.mem_range.mpr hA) _ _ ?_ ?_ ?_
  · intro x _ hxa
    have := hpget x
    rw [if_neg hxa] at this
    simp [this]
  · simp [hrootA]
  · have := hpget rA
    rw [if_pos rfl] at this
    simp [this, hBA]

theorem nroots_pos (uf : UnionFind) (n : Nat) (hinv : UFGood uf n) (hn : 0 < n) :
    0 < nroots uf n := by
  obtain ⟨hrlt, hroot⟩ := find_good uf n hinv 0 hn
  unfold nroots
  have hmem : uf.find 0 ∈ (List.range n).filter (fun i => decide (pget uf i = i)) :=
    List.mem_filter.mpr ⟨List.mem_range.mpr hrlt, by simp [hroot]⟩
  exact List.length_pos_of_mem hmem

theorem find_after_set (uf uf' : UnionFind) (n rA rB : Nat)
    (hinv : UFGood uf n) (hinv' : UFGood uf' n)
    (hpar : uf'.parent = uf.parent.set rA rB)
    (hrootA : pget uf rA = rA) (hrootB : pget uf rB = rB)
    (hAB : rA ≠ rB) (hA : rA < n) (hB : rB < n) :
    ∀ z, z < n → uf'.find z = if uf.find z = rA then rB else uf.find z := by
  have hpget := pget_set uf uf' rA rB hpar (by rw [hinv.1]; exact hA)
  have main : ∀ m z, z < n → n - rget uf z ≤ m →
      uf'.find z = if uf.find z = rA then rB else uf.find z := by
    intro m
    induction m with
    | zero =>
      intro z hz hm
      have hroot : pget uf z = z := by
        by_contra hne
        have h1 := hinv.2.2.2.1 z hz hne
        have h2 := hinv.2.2.2.2 (pget uf z) (hinv.2.2.1 z hz)
        have h3 := hinv.2.2.2.2 z hz
        omega
      exfalso
      have h3 := hinv.2.2.2.2 z hz
      have h4 := nroots_pos uf n hinv (by omega)
      omega
    | succ m ih =>
      intro z hz hm
      by_cases hroot : pget uf z = z
      · by_cases hzA : z = rA
        · rw [hzA]
          have holdfind : uf.find rA = rA := find_of_root uf rA hrootA
          have hnew1 : pget uf' rA = rB := by
            have := hpget rA
            rwa [if_pos rfl] at this
          have hstep : uf'.find rA = uf'.find (pget uf' rA) :=
            find_parent uf' n hinv' rA hA (by rw [hnew1]; exact fun h => hAB h.symm)
          have hnewB : pget uf' rB = rB := by
            have := hpget rB
            rw [if_neg (fun h => hAB h.symm), hrootB] at this
            exact this
          rw [hstep, hnew1, find_of_root uf' rB hnewB, holdfind, if_pos rfl]
        · have holdfind : uf.find z = z := find_of_root uf z hroot
          have hnew : pget uf' z = pget uf z := by
            have := hpget z
            rwa [if_neg hzA] at this
          rw [find_of_root uf' z (by rw [hnew, hroot]), holdfind, if_neg hzA]
      · have hzA : z ≠ rA := fun h => hroot (h ▸ hrootA)
        have hnew : pget uf' z = pget uf z := by
          have := hpget z
          rwa [if_neg hzA] at this
        have hrx : rget uf z < rget uf (pget uf z) := hinv.2.2.2.1 z hz hroot
        have hstep' : uf'.find z = uf'.find (pget uf z) := by
          have h := find_parent uf' n hinv' z hz (by rw [hnew]; exact hroot)
          rwa [hnew] at h
        have hstep : uf.find z = uf.find (pget uf z) :=
          find_parent uf n hinv z hz hroot
        rw [hstep', hstep]
        exact ih (pget uf z) (hinv.2.2.1 z hz) (by omega)
  intro z hz
  exact main (n - rget uf z) z hz (Nat.le_refl _)

theorem connected_iff (uf : UnionFind) (a b : Nat) :
    uf.connected a b = true ↔ uf.find a = uf.find b := by
  simp [UnionFind.connected]

/-- Relinking root `rA` under root `rB` (with the rank discipline of
`union`) preserves `UFGood` and redirects exactly `rA`'s class. -/
theorem link_good (uf uf' : UnionFind) (n rA rB : Nat)
    (hinv : UFGood uf n)
    (hpar : uf'.parent = uf.parent.set rA rB)
    (hrootA : pget uf rA = rA) (hrootB : pget uf rB = rB)
    (hAB : rA ≠ rB) (hA : rA < n) (hB : rB < n)
    (hrank : (uf'.rank = uf.rank ∧ rget uf rA < rget uf rB) ∨
             (uf'.rank = uf.rank.set rB (rget uf rB + 1) ∧
               rget uf rA = rget uf rB)) :
    UFGood uf' n ∧
    (∀ z, z < n → uf'.find z = if uf.find z = rA then rB else uf.find z) := by
  have hlen : uf.parent.length = n := hinv.1
  have hrlen : uf.rank.length = n := hinv.2.1
  have hpget := pget_set uf uf' rA rB hpar (by omega)
  have hrg1 : ∀ j, j ≠ rB → rget uf' j = rget uf j := by
    intro j hj
    rcases hrank with ⟨hr, _⟩ | ⟨hr, _⟩
    · rw [rget, hr, ← rget]
    · have := rget_set uf uf' rB (rget uf rB + 1) hr (by omega) j
      rwa [if_neg hj] at this
  have hrg2 : ∀ j, rget uf j ≤ rget uf' j := by
    intro j
    rcases hrank with ⟨hr, _⟩ | ⟨hr, _⟩
    · have h : rget uf' j = rget uf j := by
        unfold rget
        rw [hr]
      omega
    · have := rget_set uf uf' rB (rget uf rB + 1) hr (by omega) j
      by_cases hj : j = rB
      · rw [if_pos hj] at this
        rw [this, hj]
        omega
      · rw [if_neg hj] at this
        omega
  have hrg3 : rget uf rA < rget uf' rB := by
    rcases hrank with ⟨hr, hlt⟩ | ⟨hr, heq⟩
    · have : rget uf' rB = rget uf rB := by rw [rget, hr, ← rget]
      omega
    · have := rget_set uf uf' rB (rget uf rB + 1) hr (by omega) rB
      rw [if_pos rfl] at this
      omega
  have hbump : rget uf' rB = rget uf rB ∨ rget uf' rB = rget uf rB + 1 := by
    rcases hrank with ⟨hr, _⟩ | ⟨hr, _⟩
    · left
      rw [rget, hr, ← rget]
    · right
      have := rget_set uf uf' rB (rget uf rB + 1) hr (by omega) rB
      rwa [if_pos rfl] at this
  have hnr : nroots uf' n + 1 = nroots uf n :=
    nroots_set_root uf uf' n rA rB hpar hA hlen hrootA (fun h => hAB h.symm)
  have hinv' : UFGood uf' n := by
    refine ⟨by rw [hpar, List.length_set, hlen], ?_, ?_, ?_, ?_⟩
    · rcases hrank with ⟨hr, _⟩ | ⟨hr, _⟩
      · rw [hr, hrlen]
      · rw [hr, List.length_set, hrlen]
    · intro i hi
      rw [hpget i]
      by_cases hiA : i = rA
      · rw [if_pos hiA]
        exact hB
      · rw [if_neg hiA]
        exact hinv.2.2.1 i hi
    · intro i hi hne
      rw [hpget i] at hne ⊢
      by_cases hiA : i = rA
      · rw [if_pos hiA] at hne ⊢
        rw [hrg1 i (by rw [hiA]; exact hAB), hiA]
        exact Nat.lt_of_le_of_lt (Nat.le_refl _) hrg3
      · rw [if_neg hiA] at hne ⊢
        have hiB : i ≠ rB := by
          intro h
          rw [h] at hne
          exact hne hrootB
        rw [hrg1 i hiB]
        exact Nat.lt_of_lt_of_le (hinv.2.2.2.1 i hi hne) (hrg2 _)
    · intro i hi
      by_cases hiB : i = rB
      · rw [hiB]
        have hvB := hinv.2.2.2.2 rB hB
        rcases hbump with hb | hb
        · rw [hb]
          omega
        · rw [hb]
          have hA1 : 0 < nroots uf n := nroots_pos uf n hinv (by omega)
          omega
      · rw [hrg1 i hiB]
        have := hinv.2.2.2.2 i hi
        omega
  refine ⟨hinv', ?_⟩
  exact find_after_set uf uf' n rA rB hinv hinv' hpar hrootA hrootB hAB hA hB

theorem create_good (n : Nat) :
    UFGood (UnionFind.create n) n ∧
    ∀ z w, z < n → w < n →
      ((UnionFind.create n).connected z w = true ↔ z = w) := by
  have hpget : ∀ i, pget (UnionFind.create n) i = i := by
    intro i
    unfold pget UnionFind.create
    by_cases hi : i < n
    · simp [List.getD, List.getElem?_range, hi]
    · have : n ≤ i := by omega
      simp [List.getD, List.getElem?_eq_none, this]
  have hrget : ∀ i, rget (UnionFind.create n) i = 0 := by
    intro i
    unfold rget UnionFind.create
    by_cases hi : i < n
    · simp [List.getD, List.getElem?_replicate, hi]
    · have : n ≤ i := by omega
      simp [List.getD, List.getElem?_eq_none, this]
  have hgood : UFGood (UnionFind.create n) n := by
    refine ⟨by simp [UnionFind.create], by simp [UnionFind.create], ?_, ?_, ?_⟩
    · intro i hi
      rw [hpget]
      exact hi
    · intro i _ hne
      exact absurd (hpget i) hne
    · intro i hi
      rw [hrget]
      have : nroots (UnionFind.create n) n ≤ n := by
        unfold nroots
        calc ((List.range n).filter _).length ≤ (List.range n).length :=
              List.length_filter_le _ _
          _ = n := List.length_range n
      omega
  refine ⟨hgood, ?_⟩
  intro z w _ _
  rw [connected_iff, find_of_root _ z (hpget z), find_of_root _ w (hpget w)]

/-- `union` on two unconnected elements: the flag is true, the invariant is
preserved, and the classes of `x` and `y` are merged, all others unchanged. -/
theorem union_spec (uf : UnionFind) (n : Nat) (hinv : UFGood uf n) (x y : Nat)
    (hx : x < n) (hy : y < n) (hcon : uf.connected x y = false) :
    UFGood (uf.union x y).1 n ∧ (uf.union x y).2 = true ∧
    (∀ z w, z < n → w < n →
      ((uf.union x y).1.connected z w = true ↔
        (uf.connected z w = true ∨
         (uf.connected z x = true ∧ uf.connected y w = true) ∨
         (uf.connected z y = true ∧ uf.connected x w = true)))) := by
  have hne : uf.find x ≠ uf.find y := by
    intro h
    rw [← connected_iff] at h
    rw [h] at hcon
    exact Bool.noConfusion hcon
  obtain ⟨hxlt, hxroot⟩ := find_good uf n hinv x hx
  obtain ⟨hylt, hyroot⟩ := find_good uf n hinv y hy
  have hlink : ∃ rA rB : Nat,
      (uf.union x y).1.parent = uf.parent.set rA rB ∧
      ((uf.union x y).1.rank = uf.rank ∧ rget uf rA < rget uf rB ∨
        (uf.union x y).1.rank = uf.rank.set rB (rget uf rB + 1) ∧
          rget uf rA = rget uf rB) ∧
      pget uf rA = rA ∧ pget uf rB = rB ∧ rA ≠ rB ∧ rA < n ∧ rB < n ∧
      (uf.union x y).2 = true ∧
      ((rA = uf.find x ∧ rB = uf.find y) ∨ (rA = uf.find y ∧ rB = uf.find x)) := by
    unfold UnionFind.union
    rw [if_neg hne]
    by_cases h1 : uf.rank.getD (uf.find x) 0 < uf.rank.getD (uf.find y) 0
    · rw [if_pos h1]
      exact ⟨uf.find x, uf.find y, rfl, Or.inl ⟨rfl, h1⟩, hxroot, hyroot, hne,
        hxlt, hylt, rfl, Or.inl ⟨rfl, rfl⟩⟩
    · rw [if_neg h1]
      by_cases h2 : uf.rank.getD (uf.find y) 0 < uf.rank.getD (uf.find x) 0
      · rw [if_pos h2]
        exact ⟨uf.find y, uf.find x, rfl, Or.inl ⟨rfl, h2⟩, hyroot, hxroot,
          (fun h => hne h.symm), hylt, hxlt, rfl, Or.inr ⟨rfl, rfl⟩⟩
      · rw [if_neg h2]
        refine ⟨uf.find y, uf.find x, rfl, Or.inr ⟨rfl, ?_⟩, hyroot, hxroot,
          (fun h => hne h.symm), hylt, hxlt, rfl, Or.inr ⟨rfl, rfl⟩⟩
        unfold rget
        omega
  obtain ⟨rA, rB, hpar, hrank, hrootA, hrootB, hAB, hA, hB, hflag, hwhich⟩ := hlink
  obtain ⟨hinv', hfind⟩ :=
    link_good uf (uf.union x y).1 n rA rB hinv hpar hrootA hrootB hAB hA hB hrank
  refine ⟨hinv', hflag, ?_⟩
  intro z w hz hw
  rw [connected_iff, hfind z hz, hfind w hw]
  simp only [connected_iff]
  rcases hwhich with ⟨ha, hb⟩ | ⟨ha, hb⟩ <;> split_ifs with h1 h2 h2 <;> omega

/-! ### The node map sends the i-th node id to i (distinct non-empty ids). -/

theorem foldl_nmap_skip (zs : List (Nat × String)) (nid : String)
    (hnotin : ∀ p ∈ zs, p.2 ≠ nid) :
    ∀ acc, getEntry nid (zs.foldl (fun acc p =>
      if p.2 = "" then acc else setEntry p.2 p.1 acc) acc) = getEntry nid acc := by
  induction zs with
  | nil => intro acc; rfl
  | cons z rest ih =>
    intro acc
    simp only [List.foldl_cons]
    rw [ih (fun p hp => hnotin p (List.mem_cons_of_mem z hp))]
    by_cases hz : z.2 = ""
    · rw [if_pos hz]
    · rw [if_neg hz, getEntry_setEntry, if_neg (hnotin z (List.mem_cons_self z rest))]

theorem foldl_nmap_write (zs : List (Nat × String))
    (hnd : (zs.map Prod.snd).Nodup) :
    ∀ acc i nid, nid ≠ "" → (i, nid) ∈ zs →
      getEntry nid (zs.foldl (fun acc p =>
        if p.2 = "" then acc else setEntry p.2 p.1 acc) acc) = some i := by
  induction zs with
  | nil =>
    intro acc i nid _ hmem
    simp at hmem
  | cons z rest ih =>
    intro acc i nid hne hmem
    simp only [List.map_cons, List.nodup_cons] at hnd
    simp only [List.foldl_cons]
    rcases List.mem_cons.mp hmem with hz | hmem'
    · have hz2 : z.2 = nid := by rw [← hz]
      have hz1 : z.1 = i := by rw [← hz]
      rw [foldl_nmap_skip rest nid
        (fun p hp h => hnd.1 (hz2 ▸ h ▸ List.mem_map_of_mem Prod.snd hp))]
      rw [if_neg (by rw [hz2]; exact hne), getEntry_setEntry, if_pos hz2, hz1]
    · exact ih hnd.2 _ i nid hne hmem'

theorem nodeMapOf_lookup (nodes : List String) (hnd : nodes.Nodup) (a : String)
    (ha : a ∈ nodes) (hne : a ≠ "") :
    getEntry a (nodeMapOf nodes) = some (nodes.indexOf a) := by
  unfold nodeMapOf
  apply foldl_nmap_write
  · rw [List.enum_map_snd]
    exact hnd
  · exact hne
  · have hlt := List.indexOf_lt_length.mpr ha
    have hlt' : nodes.indexOf a < nodes.enum.length := by
      rw [List.enum_length]
      exact hlt
    have hg : nodes.enum[nodes.indexOf a] = (nodes.indexOf a, a) := by
      rw [List.getElem_enum]
      rw [List.getElem_indexOf hlt]
    rw [← hg]
    exact List.getElem_mem hlt'

theorem indexOf_lt_of_mem (nodes : List String) (a : String) (ha : a ∈ nodes) :
    nodes.indexOf a < nodes.length :=
  List.indexOf_lt_length.mpr ha

/-! ### Sortedness of the engines' insertion sorts. -/

instance edgeWleTotal : IsTotal Edge (fun a b => a.weight ≤ b.weight) :=
  ⟨fun a b => Nat.le_total a.weight b.weight⟩

instance edgeWleTrans : IsTrans Edge (fun a b => a.weight ≤ b.weight) :=
  ⟨fun _ _ _ h1 h2 => Nat.le_trans h1 h2⟩

instance qedgeWleTotal : IsTotal QEdge (fun a b => a.weight ≤ b.weight) :=
  ⟨fun a b => Nat.le_total a.weight b.weight⟩

instance qedgeWleTrans : IsTrans QEdge (fun a b => a.weight ≤ b.weight) :=
  ⟨fun _ _ _ h1 h2 => Nat.le_trans h1 h2⟩

/-! ### Soundness and completeness of the adjacency list (undirected,
well-formed graphs): arcs correspond exactly to the edges. -/

def AdjKeys (g : Graph) (acc : AdjList) : Prop :=
  ∀ k, k ∈ g.nodes → (getEntry k acc).isSome = true

def AdjSoundE (E : List Edge) (acc : AdjList) : Prop :=
  ∀ p ∈ acc, ∀ a ∈ p.2, ∃ e ∈ E, a.weight = e.weight ∧
    ((e.from_ = p.1 ∧ e.to_ = a.to_) ∨ (e.from_ = a.to_ ∧ e.to_ = p.1))

def AdjCompleteE (E : List Edge) (acc : AdjList) : Prop :=
  ∀ e ∈ E, ∀ u v : String,
    ((e.from_ = u ∧ e.to_ = v) ∨ (e.from_ = v ∧ e.to_ = u)) →
    ∃ arcs, getEntry u acc = some arcs ∧
      ∃ a ∈ arcs, a.to_ = v ∧ a.weight = e.weight

theorem initFold_isSome {β : Type} (f : String → β) (nodes : List String) :
    ∀ acc k, k ≠ "" → (k ∈ nodes ∨ (getEntry k acc).isSome = true) →
      (getEntry k (nodes.foldl (fun acc nid =>
        if nid = "" then acc else setEntry nid (f nid) acc) acc)).isSome = true := by
  induction nodes with
  | nil =>
    intro acc k _ h
    rcases h with h | h
    · simp at h
    · exact h
  | cons nid rest ih =>
    intro acc k hk h
    simp only [List.foldl_cons]
    by_cases h0 : nid = ""
    · rw [if_pos h0]
      apply ih _ _ hk
      rcases h with h | h
      · rcases List.mem_cons.mp h with h | h
        · exact absurd (h.trans h0) hk
        · exact Or.inl h
      · exact Or.inr h
    · rw [if_neg h0]
      apply ih _ _ hk
      rcases h with h | h
      · rcases List.mem_cons.mp h with h | h
        · right
          rw [getEntry_setEntry, if_pos h.symm]
          rfl
        · exact Or.inl h
      · right
        rw [getEntry_setEntry]
        by_cases hn : nid = k
        · rw [if_pos hn]
          rfl
        · rw [if_neg hn]
          exact h

theorem getEntry_setEntry_isSome {β : Type} (acc : List (String × β))
    (k k' : String) (v : β) (h : (getEntry k acc).isSome = true) :
    (getEntry k (setEntry k' v acc)).isSome = true := by
  rw [getEntry_setEntry]
  by_cases hk : k' = k
  · rw [if_pos hk]
    rfl
  · rw [if_neg hk]
    exact h

theorem getEntry_mono_setEntry (acc : AdjList) (k : String) (arcs new : List Arc)
    (hk : getEntry k acc = some arcs) :
    ∀ u arcs0, getEntry u acc = some arcs0 →
      ∃ arcs1, getEntry u (setEntry k (arcs ++ new) acc) = some arcs1 ∧
        ∀ a ∈ arcs0, a ∈ arcs1 := by
  intro u arcs0 hu
  by_cases hku : k = u
  · subst hku
    rw [hk] at hu
    have : arcs0 = arcs := (Option.some.injEq _ _).mp hu.symm
    subst this
    refine ⟨arcs0 ++ new, ?_, fun a ha => List.mem_append_left _ ha⟩
    rw [getEntry_setEntry, if_pos rfl]
  · refine ⟨arcs0, ?_, fun a ha => ha⟩
    rw [getEntry_setEntry, if_neg hku]
    exact hu

theorem adjacency_spec (g : Graph) (hnn : "" ∉ g.nodes)
    (hends : ∀ e ∈ g.edges, e.from_ ∈ g.nodes ∧ e.to_ ∈ g.nodes)
    (hundir : ∀ e ∈ g.edges, e.directed = false) :
    AdjKeys g (createAdjacencyList g) ∧
    AdjSoundE g.edges (createAdjacencyList g) ∧
    AdjCompleteE g.edges (createAdjacencyList g) := by
  have hmain : ∀ (l : List Edge) (acc : AdjList) (E : List Edge),
      (∀ x ∈ l, x ∈ g.edges) → AdjKeys g acc → AdjSoundE E acc →
      AdjCompleteE E acc →
      AdjKeys g (l.foldl (fun acc e =>
        if e.from_ ≠ "" ∧ e.to_ ≠ "" ∧ (getEntry e.from_ acc).isSome ∧
            (getEntry e.to_ acc).isSome then
          let fwd : Arc := { to_ := e.to_, weight := e.weight, edgeId := e.edgeIdOf }
          let acc1 :=
            match getEntry e.from_ acc with
            | some arcs => setEntry e.from_ (arcs ++ [fwd]) acc
            | none => acc
          if e.directed then acc1
          else
            let rev : Arc := { to_ := e.from_, weight := e.weight, edgeId := e.edgeIdOf }
            match getEntry e.to_ acc1 with
            | some arcs => setEntry e.to_ (arcs ++ [rev]) acc1
            | none => acc1
        else acc) acc) ∧
      AdjSoundE (E ++ l) (l.foldl (fun acc e =>
        if e.from_ ≠ "" ∧ e.to_ ≠ "" ∧ (getEntry e.from_ acc).isSome ∧
            (getEntry e.to_ acc).isSome then
          let fwd : Arc := { to_ := e.to_, weight := e.weight, edgeId := e.edgeIdOf }
          let acc1 :=
            match getEntry e.from_ acc with
            | some arcs => setEntry e.from_ (arcs ++ [fwd]) acc
            | none => acc
          if e.directed then acc1
          else
            let rev : Arc := { to_ := e.from_, weight := e.weight, edgeId := e.edgeIdOf }
            match getEntry e.to_ acc1 with
            | some arcs => setEntry e.to_ (arcs ++ [rev]) acc1
            | none => acc1
        else acc) acc) ∧
      AdjCompleteE (E ++ l) (l.foldl (fun acc e =>
        if e.from_ ≠ "" ∧ e.to_ ≠ "" ∧ (getEntry e.from_ acc).isSome ∧
            (getEntry e.to_ acc).isSome then
          let fwd : Arc := { to_ := e.to_, weight := e.weight, edgeId := e.edgeIdOf }
          let acc1 :=
            match getEntry e.from_ acc with
            | some arcs => setEntry e.from_ (arcs ++ [fwd]) acc
            | none => acc
          if e.directed then acc1
          else
            let rev : Arc := { to_ := e.from_, weight := e.weight, edgeId := e.edgeIdOf }
            match getEntry e.to_ acc1 with
            | some arcs => setEntry e.to_ (arcs ++ [rev]) acc1
            | none => acc1
        else acc) acc) := by
    intro l
    induction l with
    | nil =>
      intro acc E _ h1 h2 h3
      simpa using ⟨h1, h2, h3⟩
    | cons e rest ih =>
      intro acc E hl hKeys hSound hComp
      simp only [List.foldl_cons]
      have he : e ∈ g.edges := hl e (List.mem_cons_self e rest)
      have hfm : e.from_ ∈ g.nodes := (hends e he).1
      have htm : e.to_ ∈ g.nodes := (hends e he).2
      have hfne : e.from_ ≠ "" := fun h => hnn (h ▸ hfm)
      have htne : e.to_ ≠ "" := fun h => hnn (h ▸ htm)
      have hc : e.from_ ≠ "" ∧ e.to_ ≠ "" ∧ (getEntry e.from_ acc).isSome = true ∧
          (getEntry e.to_ acc).isSome = true :=
        ⟨hfne, htne, hKeys _ hfm, hKeys _ htm⟩
      rw [if_pos hc]
      obtain ⟨arcsF, harcsF⟩ := Option.isSome_iff_exists.mp hc.2.2.1
      rw [harcsF]
      have hd : e.directed = false := hundir e he
      simp only [hd, Bool.false_eq_true, if_false]
      have hsome1 : (getEntry e.to_ (setEntry e.from_
          (arcsF ++ [{ to_ := e.to_, weight := e.weight, edgeId := e.edgeIdOf }])
          acc)).isSome = true :=
        getEntry_setEntry_isSome acc e.to_ e.from_ _ hc.2.2.2
      obtain ⟨arcsT, hts1⟩ := Option.isSome_iff_exists.mp hsome1
      rw [hts1]
      -- names for the two intermediate maps
      have hSound1 : AdjSoundE (E ++ [e]) (setEntry e.from_
          (arcsF ++ [{ to_ := e.to_, weight := e.weight, edgeId := e.edgeIdOf }]) acc) := by
        intro p hp a ha
        rcases mem_setEntry _ _ _ _ hp with h | h
        · rw [h] at ha ⊢
          rcases List.mem_append.mp ha with ha | ha
          · obtain ⟨e0, he0, hw0, hor0⟩ :=
              hSound _ (getEntry_mem _ _ _ harcsF) a ha
            exact ⟨e0, List.mem_append_left _ he0, hw0, hor0⟩
          · rw [List.mem_singleton] at ha
            subst ha
            exact ⟨e, List.mem_append_right _ (List.mem_singleton.mpr rfl), rfl,
              Or.inl ⟨rfl, rfl⟩⟩
        · obtain ⟨e0, he0, hw0, hor0⟩ := hSound p h a ha
          exact ⟨e0, List.mem_append_left _ he0, hw0, hor0⟩
      have hSound2 : AdjSoundE (E ++ [e]) (setEntry e.to_ (arcsT ++
          [{ to_ := e.from_, weight := e.weight, edgeId := e.edgeIdOf }])
          (setEntry e.from_
            (arcsF ++ [{ to_ := e.to_, weight := e.weight, edgeId := e.edgeIdOf }]) acc)) := by
        intro p hp a ha
        rcases mem_setEntry _ _ _ _ hp with h | h
        · rw [h] at ha ⊢
          rcases List.mem_append.mp ha with ha | ha
          · exact hSound1 _ (getEntry_mem _ _ _ hts1) a ha
          · rw [List.mem_singleton] at ha
            subst ha
            exact ⟨e, List.mem_append_right _ (List.mem_singleton.mpr rfl), rfl,
              Or.inr ⟨rfl, rfl⟩⟩
        · exact hSound1 p h a ha
      have hKeys2 : AdjKeys g (setEntry e.to_ (arcsT ++
          [{ to_ := e.from_, weight := e.weight, edgeId := e.edgeIdOf }])
          (setEntry e.from_
            (arcsF ++ [{ to_ := e.to_, weight := e.weight, edgeId := e.edgeIdOf }]) acc)) := by
        intro k hk
        exact getEntry_setEntry_isSome _ k e.to_ _
          (getEntry_setEntry_isSome _ k e.from_ _ (hKeys k hk))
      have hComp2 : AdjCompleteE (E ++ [e]) (setEntry e.to_ (arcsT ++
          [{ to_ := e.from_, weight := e.weight, edgeId := e.edgeIdOf }])
          (setEntry e.from_
            (arcsF ++ [{ to_ := e.to_, weight := e.weight, edgeId := e.edgeIdOf }]) acc)) := by
        intro e' he' u v hor
        rcases List.mem_append.mp he' with he' | he'
        · obtain ⟨arcs, hlook, a, hamem, hato, haw⟩ := hComp e' he' u v hor
          obtain ⟨arcs1, hlook1, hsub1⟩ :=
            getEntry_mono_setEntry acc e.from_ arcsF
              [{ to_ := e.to_, weight := e.weight, edgeId := e.edgeIdOf }]
              harcsF u arcs hlook
          obtain ⟨arcs2, hlook2, hsub2⟩ :=
            getEntry_mono_setEntry _ e.to_ arcsT
              [{ to_ := e.from_, weight := e.weight, edgeId := e.edgeIdOf }]
              hts1 u arcs1 hlook1
          exact ⟨arcs2, hlook2, a, hsub2 _ (hsub1 _ hamem), hato, haw⟩
        · rw [List.mem_singleton] at he'
          have he2 : e = e' := he'.symm
          subst he2
          rcases hor with ⟨h1, h2⟩ | ⟨h1, h2⟩
          · subst h1
            subst h2
            by_cases hfe : e.to_ = e.from_
            · have hts1' := hts1
              rw [hfe, getEntry_setEntry, if_pos rfl] at hts1'
              have harcsT : arcsT = arcsF ++
                  [{ to_ := e.from_, weight := e.weight, edgeId := e.edgeIdOf }] :=
                ((Option.some.injEq _ _).mp hts1').symm
              refine ⟨arcsT ++
                [{ to_ := e.from_, weight := e.weight, edgeId := e.edgeIdOf }], ?_, ?_⟩
              · rw [getEntry_setEntry, if_pos hfe]
              · refine ⟨{ to_ := e.from_, weight := e.weight, edgeId := e.edgeIdOf },
                  ?_, hfe.symm, rfl⟩
                rw [harcsT]
                exact List.mem_append_left _
                  (List.mem_append_right _ (List.mem_singleton.mpr rfl))
            · refine ⟨arcsF ++
                [{ to_ := e.to_, weight := e.weight, edgeId := e.edgeIdOf }], ?_, ?_⟩
              · rw [getEntry_setEntry, if_neg hfe, getEntry_setEntry, if_pos rfl]
              · exact ⟨{ to_ := e.to_, weight := e.weight, edgeId := e.edgeIdOf },
                  List.mem_append_right _ (List.mem_singleton.mpr rfl), rfl, rfl⟩
          · subst h1
            subst h2
            refine ⟨arcsT ++
              [{ to_ := e.from_, weight := e.weight, edgeId := e.edgeIdOf }], ?_, ?_⟩
            · rw [getEntry_setEntry, if_pos rfl]
            · exact ⟨{ to_ := e.from_, weight := e.weight, edgeId := e.edgeIdOf },
                List.mem_append_right _ (List.mem_singleton.mpr rfl), rfl, rfl⟩
      have hres := ih _ (E ++ [e]) (fun x hx => hl x (List.mem_cons_of_mem e hx))
        hKeys2 hSound2 hComp2
      rw [List.append_assoc] at hres
      simpa using hres
  -- initial accumulator facts
  have hKeys0 : AdjKeys g (g.nodes.foldl (fun acc nid =>
      if nid = "" then acc else setEntry nid [] acc) []) := by
    intro k hk
    have hkne : k ≠ "" := fun h => hnn (h ▸ hk)
    exact initFold_isSome (fun _ => ([] : List Arc)) g.nodes [] k hkne (Or.inl hk)
  have hVals0 : ∀ p ∈ (g.nodes.foldl (fun acc nid =>
      if nid = "" then acc else setEntry nid [] acc) ([] : AdjList)), p.2 = [] := by
    refine foldl_invariant _ (fun acc : AdjList => ∀ p ∈ acc, p.2 = ([] : List Arc)) _ _ ?_ ?_
    · intro p hp
      simp at hp
    · intro s nid _ hs p hp
      by_cases h0 : nid = ""
      · rw [if_pos h0] at hp
        exact hs p hp
      · rw [if_neg h0] at hp
        rcases mem_setEntry _ _ _ _ hp with h | h
        · rw [h]
        · exact hs p h
  have hSound0 : AdjSoundE [] (g.nodes.foldl (fun acc nid =>
      if nid = "" then acc else setEntry nid [] acc) []) := by
    intro p hp a ha
    rw [hVals0 p hp] at ha
    simp at ha
  have hComp0 : AdjCompleteE [] (g.nodes.foldl (fun acc nid =>
      if nid = "" then acc else setEntry nid [] acc) []) := by
    intro e' he'
    simp at he'
  have := hmain g.edges _ [] (fun x hx => hx) hKeys0 hSound0 hComp0
  simpa [createAdjacencyList] using this

/-! ### Kruskal run invariant: the union-find mirrors the accepted forest,
and per weight threshold the accepted forest connects exactly what the
processed prefix connects. -/

def stripS (m : StatusEdge) : Edge :=
  { id := m.id, from_ := m.from_, to_ := m.to_, weight := m.weight,
    directed := m.directed }

theorem stripS_withStatus (e : Edge) (s : String) : stripS (e.withStatus s) = e :=
  rfl

/-- Appending an edge whose endpoints are already connected changes nothing. -/
theorem connS_snoc_absorb (S : List Edge) (e : Edge)
    (hft : connS S e.from_ e.to_) (a b : String) :
    connS (S ++ [e]) a b ↔ connS S a b := by
  rw [connS_snoc]
  constructor
  · rintro (h | ⟨h1, h2⟩ | ⟨h1, h2⟩)
    · exact h
    · exact connS_trans h1 (connS_trans hft h2)
    · exact connS_trans h1 (connS_trans (connS_symm hft) h2)
  · exact fun h => Or.inl h

theorem filterW_append (w : Nat) (S : List Edge) (e : Edge) :
    filterW w (S ++ [e]) =
      if e.weight ≤ w then filterW w S ++ [e] else filterW w S := by
  unfold filterW
  rw [List.filter_append]
  by_cases h : e.weight ≤ w
  · rw [if_pos h]
    congr 1
    simp [h]
  · rw [if_neg h]
    simp [h]

/-- The part of the Kruskal invariant depending only on the union-find and
the accepted list. -/
def KC1InvC (g : Graph) (proc : List Edge) (uf : UnionFind)
    (mst : List StatusEdge) : Prop :=
  UFGood uf g.nodes.length ∧
  (∀ a ∈ g.nodes, ∀ b ∈ g.nodes,
    (uf.connected (g.nodes.indexOf a) (g.nodes.indexOf b) = true ↔
      connS (mst.map stripS) a b)) ∧
  (∀ w, ∀ a ∈ g.nodes, ∀ b ∈ g.nodes,
    (connS (filterW w (mst.map stripS)) a b ↔ connS (filterW w proc) a b)) ∧
  (∀ m ∈ mst, stripS m ∈ proc) ∧
  Incremental (mst.map stripS) ∧
  List.Sorted (fun a b : Edge => a.weight ≤ b.weight) (mst.map stripS)

/-- The per-edge body touches the union-find and the accepted list in exactly
one of two ways. -/
theorem kruskalIter_uf_mst (sorted : List Edge) (nmap : List (String × Nat))
    (nodeCount : Nat) (nodes : List String) (e : Edge) (idx : Nat) (st : KState)
    (nf nt : Nat)
    (hfne : e.from_ ≠ "") (htne : e.to_ ≠ "")
    (hlookf : getEntry e.from_ nmap = some nf)
    (hlookt : getEntry e.to_ nmap = some nt) :
    (st.uf.connected nf nt = true ∧
      (kruskalIter sorted nmap nodeCount nodes e idx st).uf = st.uf ∧
      (kruskalIter sorted nmap nodeCount nodes e idx st).mstEdges = st.mstEdges) ∨
    (st.uf.connected nf nt = false ∧
      (kruskalIter sorted nmap nodeCount nodes e idx st).uf = (st.uf.union nf nt).1 ∧
      (kruskalIter sorted nmap nodeCount nodes e idx st).mstEdges =
        st.mstEdges ++ [e.withStatus "accepted"]) := by
  unfold kruskalIter
  rw [if_neg (by push_neg; exact ⟨hfne, htne⟩), hlookf, hlookt]
  by_cases hcyc : st.uf.connected nf nt = true
  · left
    refine ⟨hcyc, ?_, ?_⟩ <;> simp only [hcyc, if_true] <;> split <;> rfl
  · right
    rw [Bool.not_eq_true] at hcyc
    refine ⟨hcyc, ?_, ?_⟩ <;> simp only [hcyc, Bool.false_eq_true, if_false] <;>
      split <;> rfl

theorem KC1_step_reject (g : Graph) (proc : List Edge) (e : Edge)
    (hfm : e.from_ ∈ g.nodes) (htm : e.to_ ∈ g.nodes)
    (hproc : ∀ p ∈ proc, p.weight ≤ e.weight)
    (uf : UnionFind) (mst : List StatusEdge)
    (hinv : KC1InvC g proc uf mst)
    (hcyc : uf.connected (g.nodes.indexOf e.from_) (g.nodes.indexOf e.to_) = true) :
    KC1InvC g (proc ++ [e]) uf mst := by
  obtain ⟨hUF, hiff, hw, hsub, hinc, hsort⟩ := hinv
  have hft : connS (mst.map stripS) e.from_ e.to_ := (hiff _ hfm _ htm).mp hcyc
  refine ⟨hUF, hiff, ?_, ?_, hinc, hsort⟩
  · intro w a ha b hb
    rw [filterW_append]
    by_cases hew : e.weight ≤ w
    · rw [if_pos hew]
      have hall : filterW w (mst.map stripS) = mst.map stripS := by
        unfold filterW
        rw [List.filter_eq_self]
        intro x hx
        obtain ⟨m, hm, hms⟩ := List.mem_map.mp hx
        have hxe : x.weight ≤ e.weight := hms ▸ hproc _ (hsub m hm)
        simp only [decide_eq_true_eq]
        omega
      have hft' : connS (filterW w proc) e.from_ e.to_ := by
        have h1 : connS (filterW w (mst.map stripS)) e.from_ e.to_ := by
          rw [hall]
          exact hft
        exact (hw w _ hfm _ htm).mp h1
      rw [connS_snoc_absorb _ _ hft']
      exact hw w a ha b hb
    · rw [if_neg hew]
      exact hw w a ha b hb
  · intro m hm
    exact List.mem_append_left _ (hsub m hm)

theorem KC1_step_accept (g : Graph) (proc : List Edge) (e : Edge)
    (hfm : e.from_ ∈ g.nodes) (htm : e.to_ ∈ g.nodes)
    (hproc : ∀ p ∈ proc, p.weight ≤ e.weight)
    (uf : UnionFind) (mst : List StatusEdge)
    (hinv : KC1InvC g proc uf mst)
    (hcyc : uf.connected (g.nodes.indexOf e.from_) (g.nodes.indexOf e.to_) = false) :
    KC1InvC g (proc ++ [e])
      ((uf.union (g.nodes.indexOf e.from_) (g.nodes.indexOf e.to_)).1)
      (mst ++ [e.withStatus "accepted"]) := by
  obtain ⟨hUF, hiff, hw, hsub, hinc, hsort⟩ := hinv
  have hnf : g.nodes.indexOf e.from_ < g.nodes.length := indexOf_lt_of_mem _ _ hfm
  have hnt : g.nodes.indexOf e.to_ < g.nodes.length := indexOf_lt_of_mem _ _ htm
  obtain ⟨hUF', hflag, hchar⟩ := union_spec uf g.nodes.length hUF _ _ hnf hnt hcyc
  have hmapped : (mst ++ [e.withStatus "accepted"]).map stripS =
      mst.map stripS ++ [e] := by
    rw [List.map_append]
    rfl
  have hnotconn : ¬ connS (mst.map stripS) e.from_ e.to_ := by
    intro h
    have h2 := (hiff _ hfm _ htm).mpr h
    rw [h2] at hcyc
    exact Bool.noConfusion hcyc
  refine ⟨hUF', ?_, ?_, ?_, ?_, ?_⟩
  · intro a ha b hb
    rw [hmapped, connS_snoc,
      hchar _ _ (indexOf_lt_of_mem _ _ ha) (indexOf_lt_of_mem _ _ hb)]
    constructor
    · rintro (h | ⟨h1, h2⟩ | ⟨h1, h2⟩)
      · exact Or.inl ((hiff _ ha _ hb).mp h)
      · exact Or.inr (Or.inl ⟨(hiff _ ha _ hfm).mp h1, (hiff _ htm _ hb).mp h2⟩)
      · exact Or.inr (Or.inr ⟨(hiff _ ha _ htm).mp h1, (hiff _ hfm _ hb).mp h2⟩)
    · rintro (h | ⟨h1, h2⟩ | ⟨h1, h2⟩)
      · exact Or.inl ((hiff _ ha _ hb).mpr h)
      · exact Or.inr (Or.inl ⟨(hiff _ ha _ hfm).mpr h1, (hiff _ htm _ hb).mpr h2⟩)
      · exact Or.inr (Or.inr ⟨(hiff _ ha _ htm).mpr h1, (hiff _ hfm _ hb).mpr h2⟩)
  · intro w a ha b hb
    rw [hmapped, filterW_append, filterW_append]
    by_cases hew : e.weight ≤ w
    · rw [if_pos hew, if_pos hew, connS_snoc, connS_snoc]
      constructor
      · rintro (h | ⟨h1, h2⟩ | ⟨h1, h2⟩)
        · exact Or.inl ((hw w _ ha _ hb).mp h)
        · exact Or.inr (Or.inl ⟨(hw w _ ha _ hfm).mp h1, (hw w _ htm _ hb).mp h2⟩)
        · exact Or.inr (Or.inr ⟨(hw w _ ha _ htm).mp h1, (hw w _ hfm _ hb).mp h2⟩)
      · rintro (h | ⟨h1, h2⟩ | ⟨h1, h2⟩)
        · exact Or.inl ((hw w _ ha _ hb).mpr h)
        · exact Or.inr (Or.inl ⟨(hw w _ ha _ hfm).mpr h1, (hw w _ htm _ hb).mpr h2⟩)
        · exact Or.inr (Or.inr ⟨(hw w _ ha _ htm).mpr h1, (hw w _ hfm _ hb).mpr h2⟩)
    · rw [if_neg hew, if_neg hew]
      exact hw w a ha b hb
  · intro m hm
    rcases List.mem_append.mp hm with hm | hm
    · exact List.mem_append_left _ (hsub m hm)
    · rw [List.mem_singleton] at hm
      subst hm
      rw [stripS_withStatus]
      exact List.mem_append_right _ (List.mem_singleton.mpr rfl)
  · rw [hmapped]
    intro i hi
    by_cases hilen : i < (mst.map stripS).length
    · have h2 := hinc i hilen
      rw [List.take_append_of_le_length (by omega)]
      have hg : (mst.map stripS ++ [e])[i] = (mst.map stripS)[i] :=
        List.getElem_append_left hilen
      rw [hg]
      exact h2
    · have hieq : i = (mst.map stripS).length := by
        simp only [List.length_append, List.length_singleton] at hi
        omega
      subst hieq
      rw [List.take_left]
      have hg : (mst.map stripS ++ [e])[(mst.map stripS).length] = e :=
        List.getElem_concat_length _ e _ rfl hi
      rw [hg]
      exact hnotconn
  · rw [hmapped]
    have hall : ∀ x ∈ mst.map stripS, x.weight ≤ e.weight := by
      intro x hx
      obtain ⟨m, hm, hms⟩ := List.mem_map.mp hx
      exact hms ▸ hproc _ (hsub m hm)
    refine List.pairwise_append.mpr ⟨hsort, by simp, ?_⟩
    intro x hx y hy
    rw [List.mem_singleton] at hy
    subst hy
    exact hall x hx

theorem kruskalIter_c1 (g : Graph) (hnd : g.nodes.Nodup) (hnn : "" ∉ g.nodes)
    (sorted : List Edge) (e : Edge) (idx : Nat) (st : KState) (proc : List Edge)
    (hfm : e.from_ ∈ g.nodes) (htm : e.to_ ∈ g.nodes)
    (hproc : ∀ p ∈ proc, p.weight ≤ e.weight)
    (hinv : KC1InvC g proc st.uf st.mstEdges) :
    KC1InvC g (proc ++ [e])
      (kruskalIter sorted (nodeMapOf g.nodes) g.nodes.length g.nodes e idx st).uf
      (kruskalIter sorted (nodeMapOf g.nodes) g.nodes.length g.nodes e idx
        st).mstEdges := by
  have hfne : e.from_ ≠ "" := fun h => hnn (h ▸ hfm)
  have htne : e.to_ ≠ "" := fun h => hnn (h ▸ htm)
  have hlookf := nodeMapOf_lookup g.nodes hnd e.from_ hfm hfne
  have hlookt := nodeMapOf_lookup g.nodes hnd e.to_ htm htne
  rcases kruskalIter_uf_mst sorted (nodeMapOf g.nodes) g.nodes.length g.nodes e idx
      st _ _ hfne htne hlookf hlookt with ⟨hcyc, hu, hm⟩ | ⟨hcyc, hu, hm⟩
  · rw [hu, hm]
    exact KC1_step_reject g proc e hfm htm hproc st.uf st.mstEdges hinv hcyc
  · rw [hu, hm]
    exact KC1_step_accept g proc e hfm htm hproc st.uf st.mstEdges hinv hcyc

theorem kruskalLoop_c1 (g : Graph) (hnd : g.nodes.Nodup) (hnn : "" ∉ g.nodes)
    (sorted : List Edge) :
    ∀ rem idx st proc,
      List.Sorted (fun a b : Edge => a.weight ≤ b.weight) (proc ++ rem) →
      (∀ x ∈ rem, x.from_ ∈ g.nodes ∧ x.to_ ∈ g.nodes) →
      KC1InvC g proc st.uf st.mstEdges →
      KC1InvC g (proc ++ rem)
        (kruskalLoop sorted (nodeMapOf g.nodes) g.nodes.length g.nodes rem idx
          st).uf
        (kruskalLoop sorted (nodeMapOf g.nodes) g.nodes.length g.nodes rem idx
          st).mstEdges := by
  intro rem
  induction rem with
  | nil =>
    intro idx st proc _ _ hinv
    rw [List.append_nil]
    exact hinv
  | cons e rest ih =>
    intro idx st proc hsort hrem hinv
    rw [kruskalLoop]
    have hsort' : List.Pairwise (fun a b : Edge => a.weight ≤ b.weight)
        (proc ++ e :: rest) := hsort
    have hproc_le : ∀ p ∈ proc, p.weight ≤ e.weight := by
      intro p hp
      exact (List.pairwise_append.mp hsort').2.2 p hp e (List.mem_cons_self e rest)
    have hstep := kruskalIter_c1 g hnd hnn sorted e idx st proc
      (hrem e (List.mem_cons_self e rest)).1 (hrem e (List.mem_cons_self e rest)).2
      hproc_le hinv
    have hres := ih (idx + 1)
      (kruskalIter sorted (nodeMapOf g.nodes) g.nodes.length g.nodes e idx st)
      (proc ++ [e])
      (by rw [List.append_assoc, List.singleton_append]; exact hsort)
      (fun x hx => hrem x (List.mem_cons_of_mem e hx)) hstep
    rwa [List.append_assoc, List.singleton_append] at hres

theorem kruskal_c1_core (g : Graph) (hnd : g.nodes.Nodup) (hnn : "" ∉ g.nodes)
    (hends : ∀ e ∈ g.edges, e.from_ ∈ g.nodes ∧ e.to_ ∈ g.nodes)
    (st0 : KState)
    (hu : st0.uf = UnionFind.create g.nodes.length) (hm : st0.mstEdges = [])
    (hc : st0.totalCost = 0) :
    (kruskalLoop (g.edges.insertionSort (fun a b => a.weight ≤ b.weight))
        (nodeMapOf g.nodes) g.nodes.length g.nodes
        (g.edges.insertionSort (fun a b => a.weight ≤ b.weight)) 0 st0).totalCost =
      ((((kruskalLoop (g.edges.insertionSort (fun a b => a.weight ≤ b.weight))
        (nodeMapOf g.nodes) g.nodes.length g.nodes
        (g.edges.insertionSort (fun a b => a.weight ≤ b.weight)) 0
        st0).mstEdges.map stripS).map Edge.weight).sum) ∧
    (∀ x ∈ (kruskalLoop (g.edges.insertionSort (fun a b => a.weight ≤ b.weight))
        (nodeMapOf g.nodes) g.nodes.length g.nodes
        (g.edges.insertionSort (fun a b => a.weight ≤ b.weight)) 0
        st0).mstEdges.map stripS, x ∈ g.edges) ∧
    (∀ w, (filterW w ((kruskalLoop (g.edges.insertionSort
          (fun a b => a.weight ≤ b.weight))
        (nodeMapOf g.nodes) g.nodes.length g.nodes
        (g.edges.insertionSort (fun a b => a.weight ≤ b.weight)) 0
        st0).mstEdges.map stripS)).length +
      numClasses g.nodes (connS (filterW w g.edges)) = g.nodes.length) := by
  have hperm := List.perm_insertionSort
    (fun (a b : Edge) => a.weight ≤ b.weight) g.edges
  have hsorted : List.Sorted (fun a b : Edge => a.weight ≤ b.weight)
      (g.edges.insertionSort (fun a b => a.weight ≤ b.weight)) :=
    List.sorted_insertionSort _ _
  have hinv0 : KC1InvC g [] st0.uf st0.mstEdges := by
    rw [hu, hm]
    obtain ⟨hgood, hchar⟩ := create_good g.nodes.length
    refine ⟨hgood, ?_, ?_, ?_, ?_, ?_⟩
    · intro a ha b hb
      rw [hchar _ _ (indexOf_lt_of_mem _ _ ha) (indexOf_lt_of_mem _ _ hb)]
      simp only [List.map_nil]
      rw [connS_nil]
      constructor
      · intro h
        exact indexOf_inj_of_mem g.nodes a b ha hb h
      · intro h
        rw [h]
    · intro w a _ b _
      exact Iff.rfl
    · intro m hm2
      simp at hm2
    · intro i hi
      simp at hi
    · simp
  have hfull := kruskalLoop_c1 g hnd hnn
    (g.edges.insertionSort (fun a b => a.weight ≤ b.weight))
    (g.edges.insertionSort (fun a b => a.weight ≤ b.weight)) 0 st0 []
    (by simpa using hsorted)
    (fun x hx => hends x (hperm.subset hx)) hinv0
  rw [List.nil_append] at hfull
  obtain ⟨hUF, hiff, hw, hsub, hinc, hmsorted⟩ := hfull
  refine ⟨?_, ?_, ?_⟩
  · have hcost := kruskalLoop_cost_sum
      (g.edges.insertionSort (fun a b => a.weight ≤ b.weight))
      (nodeMapOf g.nodes) g.nodes.length g.nodes
      (g.edges.insertionSort (fun a b => a.weight ≤ b.weight)) 0 st0
      (by rw [hm, hc]; rfl)
    rw [hcost, List.map_map]
    rfl
  · intro x hx
    obtain ⟨m, hm2, hms⟩ := List.mem_map.mp hx
    have := hsub m hm2
    rw [hms] at this
    exact hperm.subset this
  · intro w
    have hfilter := sorted_filterW_eq_take _ hmsorted w
    have hinc2 : Incremental (filterW w
        ((kruskalLoop (g.edges.insertionSort (fun a b => a.weight ≤ b.weight))
          (nodeMapOf g.nodes) g.nodes.length g.nodes
          (g.edges.insertionSort (fun a b => a.weight ≤ b.weight)) 0
          st0).mstEdges.map stripS)) := by
      rw [hfilter]
      exact Incremental_take _ _ hinc
    have hend2 : ∀ e ∈ filterW w
        ((kruskalLoop (g.edges.insertionSort (fun a b => a.weight ≤ b.weight))
          (nodeMapOf g.nodes) g.nodes.length g.nodes
          (g.edges.insertionSort (fun a b => a.weight ≤ b.weight)) 0
          st0).mstEdges.map stripS), e.from_ ∈ g.nodes ∧ e.to_ ∈ g.nodes := by
      intro e he
      have he2 := List.mem_of_mem_filter he
      obtain ⟨m, hm2, hms⟩ := List.mem_map.mp he2
      have := hsub m hm2
      rw [hms] at this
      exact hends e (hperm.subset this)
    have hcount := incremental_count g.nodes hnd _ hinc2 hend2
    have hcongr : numClasses g.nodes (connS (filterW w
        ((kruskalLoop (g.edges.insertionSort (fun a b => a.weight ≤ b.weight))
          (nodeMapOf g.nodes) g.nodes.length g.nodes
          (g.edges.insertionSort (fun a b => a.weight ≤ b.weight)) 0
          st0).mstEdges.map stripS))) =
        numClasses g.nodes (connS (filterW w g.edges)) := by
      apply numClasses_congr
      intro a ha b hb
      rw [hw w a ha b hb]
      apply connS_congr_mem
      intro x
      unfold filterW
      rw [List.mem_filter, List.mem_filter, hperm.mem_iff]
    rw [hcongr] at hcount
    omega

theorem kruskal_c1 (g : Graph) (rK : KResult)
    (hK : kruskalAlgorithm g = Except.ok rK)
    (hnd : g.nodes.Nodup) (hnn : "" ∉ g.nodes)
    (hends : ∀ e ∈ g.edges, e.from_ ∈ g.nodes ∧ e.to_ ∈ g.nodes) :
    ∃ TK : List Edge,
      rK.finalResult.totalCost = (TK.map Edge.weight).sum ∧
      (∀ x ∈ TK, x ∈ g.edges) ∧
      (∀ w, (filterW w TK).length +
        numClasses g.nodes (connS (filterW w g.edges)) = g.nodes.length) := by
  unfold kruskalAlgorithm at hK
  split at hK
  · exact absurd hK (by simp)
  · next u heq =>
    rw [Except.ok.injEq] at hK
    subst hK
    obtain ⟨h1, h2, h3⟩ := kruskal_c1_core g hnd hnn hends
      { uf := UnionFind.create g.nodes.length, mstEdges := [], totalCost := 0,
        steps := [{
          step := 0
          description := "Starting Kruskal's Algorithm. Edges sorted by weight."
          currentEdge := none
          sortedEdges := (g.edges.insertionSort
            (fun a b => a.weight ≤ b.weight)).map (fun e => e.withStatus "pending")
          mstEdges := []
          unionFindState := getUnionFindState (UnionFind.create g.nodes.length)
            g.nodes
          totalCost := 0
          action := "initialize"
          wouldCreateCycle := none }] } rfl rfl rfl
    exact ⟨_, h1, h2, h3⟩

/-! ### Prim run invariant: the accepted list grows by fresh far endpoints in
lockstep with `visited`, the queue holds exactly the frontier with true edge
weights, and per weight threshold the accepted forest connects visited nodes
exactly as the graph does. -/

def QMatches (g : Graph) (fr tt : String) (w : Nat) : Prop :=
  ∃ e ∈ g.edges, w = e.weight ∧
    ((e.from_ = fr ∧ e.to_ = tt) ∨ (e.from_ = tt ∧ e.to_ = fr))

def PC1Core (g : Graph) (startN : String) (visited : List String)
    (mst : List PMstEdge) (cost : Nat) : Prop :=
  visited = startN :: mst.map (fun m => m.to_) ∧
  visited.Nodup ∧
  (∀ v ∈ visited, v ∈ g.nodes) ∧
  (∀ i (h : i < mst.length), (mst[i]).from_ ∈
    startN :: ((mst.take i).map (fun m => m.to_))) ∧
  (∀ m ∈ mst, QMatches g m.from_ m.to_ m.weight) ∧
  cost = (mst.map (fun m => m.weight)).sum ∧
  (∀ w, ∀ a ∈ visited, ∀ b ∈ visited,
    (connS (filterW w (mst.map pEdge)) a b ↔ connS (filterW w g.edges) a b))

def PC1Queue (g : Graph) (visited : List String) (queue : List QEdge) : Prop :=
  (∀ qe ∈ queue, qe.from_ ∈ visited ∧ qe.to_ ∉ visited ∧ qe.to_ ∈ g.nodes ∧
    QMatches g qe.from_ qe.to_ qe.weight) ∧
  (∀ e ∈ g.edges, ∀ u v : String,
    ((e.from_ = u ∧ e.to_ = v) ∨ (e.from_ = v ∧ e.to_ = u)) →
    u ∈ visited → v ∉ visited →
    ∃ qe ∈ queue, qe.to_ = v ∧ qe.weight = e.weight) ∧
  List.Sorted (fun a b : QEdge => a.weight ≤ b.weight) queue

/-- No edge of the graph crosses out of `visited`. -/
def NoCross (g : Graph) (visited : List String) : Prop :=
  ∀ e ∈ g.edges, ∀ u v : String,
    ((e.from_ = u ∧ e.to_ = v) ∨ (e.from_ = v ∧ e.to_ = u)) →
    u ∈ visited → v ∉ visited → False

theorem touchS_mono {S S' : List Edge} (hs : ∀ e ∈ S, e ∈ S') {x : String}
    (h : touchS S x) : touchS S' x := by
  obtain ⟨e, he, hor⟩ := h
  exact ⟨e, hs e he, hor⟩

theorem nodup_subset_length {α : Type} [DecidableEq α] (l L : List α)
    (hnd : l.Nodup) (hsub : ∀ x ∈ l, x ∈ L) : l.length ≤ L.length := by
  have h1 : l.toFinset.card = l.length := List.toFinset_card_of_nodup hnd
  have h2 : l.toFinset ⊆ L.toFinset := fun x hx =>
    List.mem_toFinset.mpr (hsub x (List.mem_toFinset.mp hx))
  have h3 := Finset.card_le_card h2
  have h4 := L.toFinset_card_le
  omega

theorem nodup_subset_full {α : Type} [DecidableEq α] (l L : List α)
    (hnd : l.Nodup) (hndL : L.Nodup) (hsub : ∀ x ∈ l, x ∈ L)
    (hlen : L.length ≤ l.length) : ∀ x ∈ L, x ∈ l := by
  have h1 : l.toFinset.card = l.length := List.toFinset_card_of_nodup hnd
  have h1L : L.toFinset.card = L.length := List.toFinset_card_of_nodup hndL
  have h2 : l.toFinset ⊆ L.toFinset := fun x hx =>
    List.mem_toFinset.mpr (hsub x (List.mem_toFinset.mp hx))
  have h3 : l.toFinset = L.toFinset :=
    Finset.eq_of_subset_of_card_le h2 (by omega)
  intro x hx
  have := List.mem_toFinset.mpr hx
  rw [← h3] at this
  exact List.mem_toFinset.mp this

/-- Endpoints of the accepted forest stay inside `visited`. -/
theorem PC1Core_endpoints (g : Graph) (startN : String) (visited : List String)
    (mst : List PMstEdge) (cost : Nat)
    (hcore : PC1Core g startN visited mst cost) :
    ∀ m ∈ mst, m.from_ ∈ visited ∧ m.to_ ∈ visited := by
  obtain ⟨hlock, _, _, hfrom, _, _, _⟩ := hcore
  intro m hm
  have hm' := hm
  rw [List.mem_iff_getElem] at hm'
  obtain ⟨i, hi, hieq⟩ := hm'
  constructor
  · have hf := hfrom i hi
    rw [hieq] at hf
    rw [hlock]
    rcases List.mem_cons.mp hf with hf | hf
    · exact hf ▸ List.mem_cons_self _ _
    · refine List.mem_cons_of_mem _ ?_
      obtain ⟨m0, hm0, hm0e⟩ := List.mem_map.mp hf
      exact List.mem_map.mpr ⟨m0, List.take_subset _ _ hm0, hm0e⟩
  · rw [hlock]
    exact List.mem_cons_of_mem _ (List.mem_map_of_mem _ hm)

theorem pEdge_touch_visited (g : Graph) (startN : String) (visited : List String)
    (mst : List PMstEdge) (cost : Nat)
    (hcore : PC1Core g startN visited mst cost) :
    ∀ x, touchS (mst.map pEdge) x → x ∈ visited := by
  intro x hx
  obtain ⟨e, he, hor⟩ := hx
  obtain ⟨m, hm, hme⟩ := List.mem_map.mp he
  have hends := PC1Core_endpoints g startN visited mst cost hcore m hm
  rcases hor with hor | hor
  · rw [← hor, ← hme]
    exact hends.1
  · rw [← hor, ← hme]
    exact hends.2

/-- A visited node is never connected to an unvisited one through the
accepted forest (nor any filtered part of it). -/
theorem forest_no_escape (g : Graph) (startN : String) (visited : List String)
    (mst : List PMstEdge) (cost : Nat) (w : Nat)
    (hcore : PC1Core g startN visited mst cost)
    (a x : String) (ha : a ∈ visited) (hx : x ∉ visited) :
    ¬ connS (filterW w (mst.map pEdge)) a x := by
  intro hcn
  have hne : a ≠ x := fun h => hx (h ▸ ha)
  have htch := connS_touch hcn hne
  have := pEdge_touch_visited g startN visited mst cost hcore x
    (touchS_mono (fun e he => List.mem_of_mem_filter he) htch)
  exact hx this

/-- The MST record and bare edge that accepting queue entry `q` appends. -/
def qMst (q : QEdge) : PMstEdge :=
  { id := q.edgeId, from_ := q.from_, to_ := q.to_, weight := q.weight,
    status := "accepted" }

def qNew (q : QEdge) : Edge :=
  { id := none, from_ := q.from_, to_ := q.to_, weight := q.weight,
    directed := false }

theorem pEdge_qMst (q : QEdge) : pEdge (qMst q) = qNew q := rfl

/-- Accepting the minimum frontier edge preserves the per-threshold partition
agreement (the cut property: any lighter path out of `visited` would imply a
lighter frontier entry). -/
theorem PC1_partition_step (g : Graph) (startN : String) (visited : List String)
    (mst : List PMstEdge) (cost : Nat) (q : QEdge)
    (hcore : PC1Core g startN visited mst cost)
    (hqf : q.from_ ∈ visited) (hqv : q.to_ ∉ visited)
    (hqm : QMatches g q.from_ q.to_ q.weight)
    (hqmin : ∀ e ∈ g.edges, ∀ u v : String,
      ((e.from_ = u ∧ e.to_ = v) ∨ (e.from_ = v ∧ e.to_ = u)) →
      u ∈ visited → v ∉ visited → q.weight ≤ e.weight) :
    ∀ w, ∀ a ∈ visited ++ [q.to_], ∀ b ∈ visited ++ [q.to_],
      (connS (filterW w ((mst ++ [qMst q]).map pEdge)) a b ↔
        connS (filterW w g.edges) a b) := by
  intro w
  have hpart := hcore.2.2.2.2.2.2
  obtain ⟨e1, he1, hw1, hor1⟩ := hqm
  have hMeq : (mst ++ [qMst q]).map pEdge = mst.map pEdge ++ [qNew q] := by
    rw [List.map_append]
    rfl
  rw [hMeq]
  have hfrom : (qNew q).from_ = q.from_ := rfl
  have hto : (qNew q).to_ = q.to_ := rfl
  by_cases hwq : q.weight ≤ w
  · have hfW : filterW w (mst.map pEdge ++ [qNew q]) =
        filterW w (mst.map pEdge) ++ [qNew q] := by
      rw [filterW_append]
      exact if_pos hwq
    rw [hfW]
    have hedge : connS (filterW w g.edges) q.from_ q.to_ := by
      have he1f : e1 ∈ filterW w g.edges := by
        unfold filterW
        refine List.mem_filter.mpr ⟨he1, ?_⟩
        simp only [decide_eq_true_eq]
        omega
      rcases hor1 with ⟨hf, ht⟩ | ⟨hf, ht⟩
      · have h2 := connS_single he1f
        rw [hf, ht] at h2
        exact h2
      · have h2 := connS_single he1f
        rw [hf, ht] at h2
        exact connS_symm h2
    have hkey : ∀ a ∈ visited,
        (connS (filterW w (mst.map pEdge) ++ [qNew q]) a q.to_ ↔
          connS (filterW w g.edges) a q.to_) := by
      intro a ha
      rw [connS_snoc, hfrom, hto]
      constructor
      · rintro (hc | ⟨h1, h2⟩ | ⟨h1, h2⟩)
        · exact absurd hc
            (forest_no_escape g startN visited mst cost w hcore a q.to_ ha hqv)
        · have h3 := (hpart w a ha q.from_ hqf).mp h1
          exact connS_trans h3 hedge
        · exact absurd h1
            (forest_no_escape g startN visited mst cost w hcore a q.to_ ha hqv)
      · intro hc
        have hG : connS (filterW w g.edges) a q.from_ :=
          connS_trans hc (connS_symm hedge)
        have hF : connS (filterW w (mst.map pEdge)) a q.from_ :=
          (hpart w a ha q.from_ hqf).mpr hG
        exact Or.inr (Or.inl ⟨hF, connS_refl _ _⟩)
    intro a ha b hb
    rcases List.mem_append.mp ha with ha | ha <;>
      rcases List.mem_append.mp hb with hb | hb
    · rw [connS_snoc, hfrom, hto]
      constructor
      · rintro (hc | ⟨h1, h2⟩ | ⟨h1, h2⟩)
        · exact (hpart w a ha b hb).mp hc
        · exact absurd (connS_symm h2)
            (forest_no_escape g startN visited mst cost w hcore b q.to_ hb hqv)
        · exact absurd h1
            (forest_no_escape g startN visited mst cost w hcore a q.to_ ha hqv)
      · intro hc
        exact Or.inl ((hpart w a ha b hb).mpr hc)
    · rw [List.mem_singleton] at hb
      subst hb
      exact hkey a ha
    · rw [List.mem_singleton] at ha
      subst ha
      constructor
      · intro hc
        exact connS_symm ((hkey b hb).mp (connS_symm hc))
      · intro hc
        exact connS_symm ((hkey b hb).mpr (connS_symm hc))
    · rw [List.mem_singleton] at ha hb
      subst ha
      subst hb
      exact iff_of_true (connS_refl _ _) (connS_refl _ _)
  · have hfW : filterW w (mst.map pEdge ++ [qNew q]) =
        filterW w (mst.map pEdge) := by
      rw [filterW_append]
      exact if_neg hwq
    rw [hfW]
    have hcut : ∀ a ∈ visited, ¬ connS (filterW w g.edges) a q.to_ := by
      intro a ha hc
      obtain ⟨x, y, hx, hy, hstep⟩ := connS_cross hc ha hqv
      obtain ⟨e0, he0, hor0⟩ := hstep
      have he0m := List.mem_of_mem_filter he0
      have he0w : e0.weight ≤ w := by
        have h2 := List.of_mem_filter he0
        simpa using h2
      have := hqmin e0 he0m x y hor0 hx hy
      omega
    intro a ha b hb
    rcases List.mem_append.mp ha with ha | ha <;>
      rcases List.mem_append.mp hb with hb | hb
    · exact hpart w a ha b hb
    · rw [List.mem_singleton] at hb
      subst hb
      constructor
      · intro hc
        exact absurd hc
          (forest_no_escape g startN visited mst cost w hcore a q.to_ ha hqv)
      · intro hc
        exact absurd hc (hcut a ha)
    · rw [List.mem_singleton] at ha
      subst ha
      constructor
      · intro hc
        exact absurd (connS_symm hc)
          (forest_no_escape g startN visited mst cost w hcore b q.to_ hb hqv)
      · intro hc
        exact absurd (connS_symm hc) (hcut b hb)
    · rw [List.mem_singleton] at ha hb
      subst ha
      subst hb
      exact iff_of_true (connS_refl _ _) (connS_refl _ _)

theorem primLoop_c1 (g : Graph) (hnn : "" ∉ g.nodes)
    (hends : ∀ e ∈ g.edges, e.from_ ∈ g.nodes ∧ e.to_ ∈ g.nodes)
    (hadjS : AdjSoundE g.edges (createAdjacencyList g))
    (hadjC : AdjCompleteE g.edges (createAdjacencyList g))
    (startN : String) :
    ∀ queue visited mst cost steps sc,
      PC1Core g startN visited mst cost →
      PC1Queue g visited queue →
      (PC1Core g startN
        (primLoop (createAdjacencyList g) g.nodes.length queue visited mst cost
          steps sc).2.1
        (primLoop (createAdjacencyList g) g.nodes.length queue visited mst cost
          steps sc).2.2.1
        (primLoop (createAdjacencyList g) g.nodes.length queue visited mst cost
          steps sc).2.2.2.1) ∧
      ((primLoop (createAdjacencyList g) g.nodes.length queue visited mst cost
          steps sc).2.1.length = g.nodes.length ∨
        NoCross g (primLoop (createAdjacencyList g) g.nodes.length queue visited
          mst cost steps sc).2.1) := by
  intro queue visited mst cost steps sc
  induction queue, visited, mst, cost, steps, sc using
      primLoop.induct (createAdjacencyList g) g.nodes.length with
  | case1 visited mst cost steps sc =>
    intro hcore hqueue
    rw [primLoop_nil]
    refine ⟨hcore, Or.inr ?_⟩
    intro e he u v hor hu hv
    obtain ⟨qe, hqe, _, _⟩ := hqueue.2.1 e he u v hor hu hv
    simp at hqe
  | case2 q rest visited mst cost steps sc h hto ih =>
    intro hcore hqueue
    exfalso
    have hq := hqueue.1 q (List.mem_cons_self q rest)
    exact hnn (hto ▸ hq.2.2.1)
  | case3 q rest visited mst cost steps sc h hto hv ih =>
    intro hcore hqueue
    exact absurd hv (hqueue.1 q (List.mem_cons_self q rest)).2.1
  | case4 q rest visited mst cost steps sc h hto hv ih =>
    intro hcore hqueue
    rw [primLoop]
    simp only [dif_pos h, if_neg hto, dif_neg hv]
    obtain ⟨hlock, hndv, hvn, hfrom, hmatch, hcost, hpart⟩ := hcore
    obtain ⟨hqs, hqc, hqsort⟩ := hqueue
    obtain ⟨hqfrom, hqto_nv, hqto_nodes, hqmatch⟩ :=
      hqs q (List.mem_cons_self q rest)
    have hqmin : ∀ e ∈ g.edges, ∀ u v : String,
        ((e.from_ = u ∧ e.to_ = v) ∨ (e.from_ = v ∧ e.to_ = u)) →
        u ∈ visited → v ∉ visited → q.weight ≤ e.weight := by
      intro e he u v hor hu hv2
      obtain ⟨qe, hqe, hto2, hwe⟩ := hqc e he u v hor hu hv2
      rw [List.sorted_cons] at hqsort
      rcases List.mem_cons.mp hqe with hqe | hqe
      · rw [hqe] at hwe
        omega
      · have := hqsort.1 qe hqe
        omega
    apply ih
    · -- the new PC1Core
      refine ⟨?_, ?_, ?_, ?_, ?_, ?_, ?_⟩
      · rw [hlock, List.map_append]
        rfl
      · simp [List.nodup_append, hndv, hv]
      · intro x hx
        rcases List.mem_append.mp hx with hx | hx
        · exact hvn x hx
        · rw [List.mem_singleton] at hx
          exact hx ▸ hqto_nodes
      · intro i hi
        by_cases hil : i < mst.length
        · have hold := hfrom i hil
          rw [List.take_append_of_le_length (Nat.le_of_lt hil)]
          have hg : (mst ++ [{ id := q.edgeId, from_ := q.from_, to_ := q.to_, weight := q.weight, status := "accepted" }])[i] = mst[i] :=
            List.getElem_append_left hil
          rw [hg]
          exact hold
        · have hieq : i = mst.length := by
            simp only [List.length_append, List.length_singleton] at hi
            omega
          subst hieq
          rw [List.take_left]
          have hg : (mst ++ [{ id := q.edgeId, from_ := q.from_, to_ := q.to_, weight := q.weight, status := "accepted" }])[mst.length] =
              ({ id := q.edgeId, from_ := q.from_, to_ := q.to_, weight := q.weight, status := "accepted" } : PMstEdge) :=
            List.getElem_concat_length _ _ _ rfl hi
          rw [hg]
          rw [hlock] at hqfrom
          exact hqfrom
      · intro m hm
        rcases List.mem_append.mp hm with hm | hm
        · exact hmatch m hm
        · rw [List.mem_singleton] at hm
          exact hm ▸ hqmatch
      · rw [hcost, List.map_append, List.sum_append]
        simp [qMst]
      · exact PC1_partition_step g startN visited mst cost q
          ⟨hlock, hndv, hvn, hfrom, hmatch, hcost, hpart⟩
          hqfrom hv hqmatch hqmin
    · -- the new PC1Queue
      refine ⟨?_, ?_, List.sorted_insertionSort _ _⟩
      · intro qe hqe
        have hqe2 : qe ∈ (rest ++ (((getEntry q.to_ (createAdjacencyList g)).getD
            []).filterMap (fun a =>
            if a.to_ ≠ "" ∧ a.to_ ∉ visited ++ [q.to_] then
              some (a.qedgeFrom q.to_) else none))).filter
            (fun e => decide (e.to_ ≠ "" ∧ e.to_ ∉ visited ++ [q.to_])) :=
          (List.perm_insertionSort _ _).subset hqe
        have hpred := List.of_mem_filter hqe2
        simp only [decide_eq_true_eq] at hpred
        have hqe3 := List.mem_of_mem_filter hqe2
        rcases List.mem_append.mp hqe3 with hqe4 | hqe4
        · obtain ⟨h1, _, h3, h4⟩ := hqs qe (List.mem_cons_of_mem q hqe4)
          exact ⟨List.mem_append_left _ h1, hpred.2, h3, h4⟩
        · obtain ⟨a, hamem, haeq⟩ := List.mem_filterMap.mp hqe4
          split at haeq
          · have heq : a.qedgeFrom q.to_ = qe := (Option.some.injEq _ _).mp haeq
            subst heq
            cases hget : getEntry q.to_ (createAdjacencyList g) with
            | none =>
              rw [hget] at hamem
              simp at hamem
            | some arcs0 =>
              rw [hget, Option.getD_some] at hamem
              obtain ⟨e0, he0, hw0, hor0⟩ :=
                hadjS (q.to_, arcs0) (getEntry_mem _ _ _ hget) a hamem
              have hanodes : a.to_ ∈ g.nodes := by
                rcases hor0 with ⟨h1, h2⟩ | ⟨h1, h2⟩
                · exact h2 ▸ (hends e0 he0).2
                · exact h1 ▸ (hends e0 he0).1
              refine ⟨?_, hpred.2, hanodes, ?_⟩
              · exact List.mem_append_right _ (List.mem_singleton.mpr rfl)
              · exact ⟨e0, he0, hw0, hor0⟩
          · exact Option.noConfusion haeq
      · intro e he u v hor hu hv2
        have hvnodes : v ∈ g.nodes := by
          rcases hor with ⟨h1, h2⟩ | ⟨h1, h2⟩
          · exact h2 ▸ (hends e he).2
          · exact h1 ▸ (hends e he).1
        have hvne : v ≠ "" := fun hx => hnn (hx ▸ hvnodes)
        have hvnv : v ∉ visited := fun hm => hv2 (List.mem_append_left _ hm)
        rcases List.mem_append.mp hu with hu | hu
        · obtain ⟨qe, hqe, hto2, hwe⟩ := hqc e he u v hor hu hvnv
          rcases List.mem_cons.mp hqe with hqe | hqe
          · exfalso
            rw [hqe] at hto2
            exact hv2 (hto2 ▸ List.mem_append_right _ (List.mem_singleton.mpr rfl))
          · refine ⟨qe, ?_, hto2, hwe⟩
            refine (List.perm_insertionSort _ _).mem_iff.mpr ?_
            refine List.mem_filter.mpr ⟨List.mem_append_left _ hqe, ?_⟩
            simp only [decide_eq_true_eq]
            rw [hto2]
            exact ⟨hvne, hv2⟩
        · rw [List.mem_singleton] at hu
          subst hu
          obtain ⟨arcs, hlook, a, hamem, hato, haw⟩ := hadjC e he q.to_ v hor
          refine ⟨a.qedgeFrom q.to_, ?_, hato, by rw [Arc.qedgeFrom]; exact haw⟩
          refine (List.perm_insertionSort _ _).mem_iff.mpr ?_
          refine List.mem_filter.mpr ⟨?_, ?_⟩
          · refine List.mem_append_right _ ?_
            refine List.mem_filterMap.mpr ⟨a, ?_, ?_⟩
            · rw [hlook, Option.getD_some]
              exact hamem
            · rw [dif_pos ⟨by rw [hato]; exact hvne, by rw [hato]; exact hv2⟩]
          · simp only [decide_eq_true_eq, Arc.qedgeFrom]
            rw [hato]
            exact ⟨hvne, hv2⟩
  | case5 q rest visited mst cost steps sc h =>
    intro hcore hqueue
    rw [primLoop]
    simp only [dif_neg h]
    refine ⟨hcore, Or.inl ?_⟩
    have hle := nodup_subset_length visited g.nodes hcore.2.1 hcore.2.2.1
    omega

theorem prim_c1 (g : Graph) (s : String) (rP : PResult)
    (hP : primAlgorithm g (some s) = Except.ok rP)
    (hnd : g.nodes.Nodup) (hnn : "" ∉ g.nodes)
    (hends : ∀ e ∈ g.edges, e.from_ ∈ g.nodes ∧ e.to_ ∈ g.nodes)
    (hundir : ∀ e ∈ g.edges, e.directed = false)
    (hs : s ∈ g.nodes)
    (hconn : ∀ a ∈ g.nodes, ∀ b ∈ g.nodes, connS g.edges a b) :
    ∃ TP : List Edge,
      rP.finalResult.totalCost = (TP.map Edge.weight).sum ∧
      (∀ x ∈ TP, ∃ e ∈ g.edges, x.weight = e.weight) ∧
      (∀ w, (filterW w TP).length +
        numClasses g.nodes (connS (filterW w g.edges)) = g.nodes.length) := by
  obtain ⟨hadjK, hadjS, hadjC⟩ := adjacency_spec g hnn hends hundir
  -- extract rP = primMain g s
  have hval : validateGraph g = Except.ok () := by
    cases hv : validateGraph g with
    | error m =>
      rw [primAlgorithm, hv] at hP
      exact Except.noConfusion hP
    | ok u =>
      cases u
      rfl
  have hlen := validateGraph_ok_nodes_ne g hval
  have hsne : s ≠ "" := fun h => hnn (h ▸ hs)
  rw [primAlgorithm, hval] at hP
  simp only [hlen, if_false, if_neg hsne] at hP
  have hrp : primMain g s = rP := (Except.ok.injEq _ _).mp hP
  subst hrp
  -- initial invariants
  have hcore0 : PC1Core g s [s] [] 0 := by
    refine ⟨rfl, by simp, ?_, ?_, ?_, rfl, ?_⟩
    · intro x hx
      rw [List.mem_singleton] at hx
      exact hx ▸ hs
    · intro i hi
      simp at hi
    · intro m hm
      simp at hm
    · intro w a ha b hb
      rw [List.mem_singleton] at ha hb
      subst ha
      subst hb
      exact iff_of_true (connS_refl _ _) (connS_refl _ _)
  have hqueue0 : PC1Queue g [s]
      ((((getEntry s (createAdjacencyList g)).getD []).filterMap (fun a =>
        if a.to_ ≠ "" ∧ a.to_ ∉ [s] then some (a.qedgeFrom s)
        else none)).insertionSort (fun a b => a.weight ≤ b.weight)) := by
    refine ⟨?_, ?_, List.sorted_insertionSort _ _⟩
    · intro qe hqe
      have hqe2 := (List.perm_insertionSort _ _).subset hqe
      obtain ⟨a, hamem, haeq⟩ := List.mem_filterMap.mp hqe2
      split at haeq
      · next hcnd =>
        have heq : a.qedgeFrom s = qe := (Option.some.injEq _ _).mp haeq
        subst heq
        cases hget : getEntry s (createAdjacencyList g) with
        | none =>
          rw [hget] at hamem
          simp at hamem
        | some arcs0 =>
          rw [hget, Option.getD_some] at hamem
          obtain ⟨e0, he0, hw0, hor0⟩ :=
            hadjS (s, arcs0) (getEntry_mem _ _ _ hget) a hamem
          have hanodes : a.to_ ∈ g.nodes := by
            rcases hor0 with ⟨h1, h2⟩ | ⟨h1, h2⟩
            · exact h2 ▸ (hends e0 he0).2
            · exact h1 ▸ (hends e0 he0).1
          exact ⟨List.mem_singleton.mpr rfl, hcnd.2, hanodes, e0, he0, hw0, hor0⟩
      · exact Option.noConfusion haeq
    · intro e he u v hor hu hv2
      have hvnodes : v ∈ g.nodes := by
        rcases hor with ⟨h1, h2⟩ | ⟨h1, h2⟩
        · exact h2 ▸ (hends e he).2
        · exact h1 ▸ (hends e he).1
      have hvne : v ≠ "" := fun hx => hnn (hx ▸ hvnodes)
      rw [List.mem_singleton] at hu
      subst hu
      obtain ⟨arcs, hlook, a, hamem, hato, haw⟩ := hadjC e he u v hor
      refine ⟨a.qedgeFrom u, ?_, hato, by rw [Arc.qedgeFrom]; exact haw⟩
      refine (List.perm_insertionSort _ _).mem_iff.mpr ?_
      refine List.mem_filterMap.mpr ⟨a, ?_, ?_⟩
      · rw [hlook, Option.getD_some]
        exact hamem
      · rw [if_pos ⟨by rw [hato]; exact hvne, by rw [hato]; exact hv2⟩]
  obtain ⟨hcoreF, hdisj⟩ := primLoop_c1 g hnn hends hadjS hadjC s
    ((((getEntry s (createAdjacencyList g)).getD []).filterMap (fun a =>
      if a.to_ ≠ "" ∧ a.to_ ∉ [s] then some (a.qedgeFrom s)
      else none)).insertionSort (fun a b => a.weight ≤ b.weight))
    [s] [] 0
    [{ step := 0
       description := "Starting Prim's Algorithm from node " ++ s
       currentEdge := none
       visitedNodes := [s]
       priorityQueue := (((getEntry s (createAdjacencyList g)).getD
         []).filterMap (fun a =>
         if a.to_ ≠ "" ∧ a.to_ ∉ [s] then some (a.qedgeFrom s)
         else none)).insertionSort (fun a b => a.weight ≤ b.weight)
       mstEdges := []
       totalCost := 0
       action := "initialize"
       newEdgesAdded := none }] 1 hcore0 hqueue0
  obtain ⟨hlock, hndv, hvn, hfrom, hmatch, hcost, hpart⟩ := hcoreF
  -- every node is visited at the end
  have hall : ∀ x ∈ g.nodes, x ∈ (primLoop (createAdjacencyList g) g.nodes.length
      ((((getEntry s (createAdjacencyList g)).getD []).filterMap (fun a =>
        if a.to_ ≠ "" ∧ a.to_ ∉ [s] then some (a.qedgeFrom s)
        else none)).insertionSort (fun a b => a.weight ≤ b.weight))
      [s] [] 0
      [{ step := 0
         description := "Starting Prim's Algorithm from node " ++ s
         currentEdge := none
         visitedNodes := [s]
         priorityQueue := (((getEntry s (createAdjacencyList g)).getD
           []).filterMap (fun a =>
           if a.to_ ≠ "" ∧ a.to_ ∉ [s] then some (a.qedgeFrom s)
           else none)).insertionSort (fun a b => a.weight ≤ b.weight)
         mstEdges := []
         totalCost := 0
         action := "initialize"
         newEdgesAdded := none }] 1).2.1 := by
    rcases hdisj with hlenF | hnc
    · exact nodup_subset_full _ _ hndv hnd hvn (by omega)
    · intro x hx
      by_contra hxv
      have hsv : s ∈ (primLoop (createAdjacencyList g) g.nodes.length
          ((((getEntry s (createAdjacencyList g)).getD []).filterMap (fun a =>
            if a.to_ ≠ "" ∧ a.to_ ∉ [s] then some (a.qedgeFrom s)
            else none)).insertionSort (fun a b => a.weight ≤ b.weight))
          [s] [] 0
          [{ step := 0
             description := "Starting Prim's Algorithm from node " ++ s
             currentEdge := none
             visitedNodes := [s]
             priorityQueue := (((getEntry s (createAdjacencyList g)).getD
               []).filterMap (fun a =>
               if a.to_ ≠ "" ∧ a.to_ ∉ [s] then some (a.qedgeFrom s)
               else none)).insertionSort (fun a b => a.weight ≤ b.weight)
             mstEdges := []
             totalCost := 0
             action := "initialize"
             newEdgesAdded := none }] 1).2.1 := by
        rw [hlock]
        exact List.mem_cons_self _ _
      obtain ⟨u, v, hu, hv, hstep⟩ := connS_cross (hconn s hs x hx) hsv hxv
      obtain ⟨e0, he0, hor0⟩ := hstep
      exact hnc e0 he0 u v hor0 hu hv
  refine ⟨(primLoop (createAdjacencyList g) g.nodes.length
      ((((getEntry s (createAdjacencyList g)).getD []).filterMap (fun a =>
        if a.to_ ≠ "" ∧ a.to_ ∉ [s] then some (a.qedgeFrom s)
        else none)).insertionSort (fun a b => a.weight ≤ b.weight))
      [s] [] 0
      [{ step := 0
         description := "Starting Prim's Algorithm from node " ++ s
         currentEdge := none
         visitedNodes := [s]
         priorityQueue := (((getEntry s (createAdjacencyList g)).getD
           []).filterMap (fun a =>
           if a.to_ ≠ "" ∧ a.to_ ∉ [s] then some (a.qedgeFrom s)
           else none)).insertionSort (fun a b => a.weight ≤ b.weight)
         mstEdges := []
         totalCost := 0
         action := "initialize"
         newEdgesAdded := none }] 1).2.2.1.map pEdge, ?_, ?_, ?_⟩
  · have hmm : ∀ l : List PMstEdge,
        (l.map pEdge).map Edge.weight = l.map (fun m => m.weight) := by
      intro l
      rw [List.map_map]
      rfl
    rw [hmm]
    exact hcost
  · intro x hx
    obtain ⟨m, hm, hme⟩ := List.mem_map.mp hx
    obtain ⟨e0, he0, hw0, _⟩ := hmatch m hm
    exact ⟨e0, he0, by rw [← hme]; exact hw0⟩
  · intro w
    have hinc : Incremental (filterW w
        ((primLoop (createAdjacencyList g) g.nodes.length
          ((((getEntry s (createAdjacencyList g)).getD []).filterMap (fun a =>
            if a.to_ ≠ "" ∧ a.to_ ∉ [s] then some (a.qedgeFrom s)
            else none)).insertionSort (fun a b => a.weight ≤ b.weight))
          [s] [] 0
          [{ step := 0
             description := "Starting Prim's Algorithm from node " ++ s
             currentEdge := none
             priorityQueue := (((getEntry s (createAdjacencyList g)).getD
               []).filterMap (fun a =>
               if a.to_ ≠ "" ∧ a.to_ ∉ [s] then some (a.qedgeFrom s)
               else none)).insertionSort (fun a b => a.weight ≤ b.weight)
             visitedNodes := [s]
             mstEdges := []
             totalCost := 0
             action := "initialize"
             newEdgesAdded := none }] 1).2.2.1.map pEdge)) := by
      refine fresh_incremental s _ ?_ ?_ _ (List.filter_sublist _)
      · intro i hi
        have hi2 : i < (primLoop (createAdjacencyList g) g.nodes.length
            ((((getEntry s (createAdjacencyList g)).getD []).filterMap (fun a =>
              if a.to_ ≠ "" ∧ a.to_ ∉ [s] then some (a.qedgeFrom s)
              else none)).insertionSort (fun a b => a.weight ≤ b.weight))
            [s] [] 0
            [{ step := 0
               description := "Starting Prim's Algorithm from node " ++ s
               currentEdge := none
               priorityQueue := (((getEntry s (createAdjacencyList g)).getD
                 []).filterMap (fun a =>
                 if a.to_ ≠ "" ∧ a.to_ ∉ [s] then some (a.qedgeFrom s)
                 else none)).insertionSort (fun a b => a.weight ≤ b.weight)
               visitedNodes := [s]
               mstEdges := []
               totalCost := 0
               action := "initialize"
               newEdgesAdded := none }] 1).2.2.1.length := by
          simpa using hi
        have hf := hfrom i hi2
        rw [List.getElem_map]
        have hmaps : (((primLoop (createAdjacencyList g) g.nodes.length
            ((((getEntry s (createAdjacencyList g)).getD []).filterMap (fun a =>
              if a.to_ ≠ "" ∧ a.to_ ∉ [s] then some (a.qedgeFrom s)
              else none)).insertionSort (fun a b => a.weight ≤ b.weight))
            [s] [] 0
            [{ step := 0
               description := "Starting Prim's Algorithm from node " ++ s
               currentEdge := none
               priorityQueue := (((getEntry s (createAdjacencyList g)).getD
                 []).filterMap (fun a =>
                 if a.to_ ≠ "" ∧ a.to_ ∉ [s] then some (a.qedgeFrom s)
                 else none)).insertionSort (fun a b => a.weight ≤ b.weight)
               visitedNodes := [s]
               mstEdges := []
               totalCost := 0
               action := "initialize"
               newEdgesAdded := none }] 1).2.2.1.map pEdge).take i).map Edge.to_ =
            ((primLoop (createAdjacencyList g) g.nodes.length
            ((((getEntry s (createAdjacencyList g)).getD []).filterMap (fun a =>
              if a.to_ ≠ "" ∧ a.to_ ∉ [s] then some (a.qedgeFrom s)
              else none)).insertionSort (fun a b => a.weight ≤ b.weight))
            [s] [] 0
            [{ step := 0
               description := "Starting Prim's Algorithm from node " ++ s
               currentEdge := none
               priorityQueue := (((getEntry s (createAdjacencyList g)).getD
                 []).filterMap (fun a =>
                 if a.to_ ≠ "" ∧ a.to_ ∉ [s] then some (a.qedgeFrom s)
                 else none)).insertionSort (fun a b => a.weight ≤ b.weight)
               visitedNodes := [s]
               mstEdges := []
               totalCost := 0
               action := "initialize"
               newEdgesAdded := none }] 1).2.2.1.take i).map
              (fun m => m.to_) := by
          rw [← List.map_take, List.map_map]
          rfl
        rw [hmaps]
        exact hf
      · have hndmap : ((s :: ((primLoop (createAdjacencyList g) g.nodes.length
            ((((getEntry s (createAdjacencyList g)).getD []).filterMap (fun a =>
              if a.to_ ≠ "" ∧ a.to_ ∉ [s] then some (a.qedgeFrom s)
              else none)).insertionSort (fun a b => a.weight ≤ b.weight))
            [s] [] 0
            [{ step := 0
               description := "Starting Prim's Algorithm from node " ++ s
               currentEdge := none
               priorityQueue := (((getEntry s (createAdjacencyList g)).getD
                 []).filterMap (fun a =>
                 if a.to_ ≠ "" ∧ a.to_ ∉ [s] then some (a.qedgeFrom s)
                 else none)).insertionSort (fun a b => a.weight ≤ b.weight)
               visitedNodes := [s]
               mstEdges := []
               totalCost := 0
               action := "initialize"
               newEdgesAdded := none }] 1).2.2.1.map pEdge).map Edge.to_)) =
            s :: ((primLoop (createAdjacencyList g) g.nodes.length
            ((((getEntry s (createAdjacencyList g)).getD []).filterMap (fun a =>
              if a.to_ ≠ "" ∧ a.to_ ∉ [s] then some (a.qedgeFrom s)
              else none)).insertionSort (fun a b => a.weight ≤ b.weight))
            [s] [] 0
            [{ step := 0
               description := "Starting Prim's Algorithm from node " ++ s
               currentEdge := none
               priorityQueue := (((getEntry s (createAdjacencyList g)).getD
                 []).filterMap (fun a =>
                 if a.to_ ≠ "" ∧ a.to_ ∉ [s] then some (a.qedgeFrom s)
                 else none)).insertionSort (fun a b => a.weight ≤ b.weight)
               visitedNodes := [s]
               mstEdges := []
               totalCost := 0
               action := "initialize"
               newEdgesAdded := none }] 1).2.2.1.map (fun m => m.to_)) := by
          rw [List.map_map]
          rfl
        rw [hndmap, ← hlock]
        exact hndv
    have hend2 : ∀ x ∈ filterW w
        ((primLoop (createAdjacencyList g) g.nodes.length
          ((((getEntry s (createAdjacencyList g)).getD []).filterMap (fun a =>
            if a.to_ ≠ "" ∧ a.to_ ∉ [s] then some (a.qedgeFrom s)
            else none)).insertionSort (fun a b => a.weight ≤ b.weight))
          [s] [] 0
          [{ step := 0
             description := "Starting Prim's Algorithm from node " ++ s
             currentEdge := none
             priorityQueue := (((getEntry s (createAdjacencyList g)).getD
               []).filterMap (fun a =>
               if a.to_ ≠ "" ∧ a.to_ ∉ [s] then some (a.qedgeFrom s)
               else none)).insertionSort (fun a b => a.weight ≤ b.weight)
             visitedNodes := [s]
             mstEdges := []
             totalCost := 0
             action := "initialize"
             newEdgesAdded := none }] 1).2.2.1.map pEdge),
        x.from_ ∈ g.nodes ∧ x.to_ ∈ g.nodes := by
      intro x hx
      have hx2 := List.mem_of_mem_filter hx
      obtain ⟨m, hm, hme⟩ := List.mem_map.mp hx2
      have hmm := PC1Core_endpoints g s _ _ _
        ⟨hlock, hndv, hvn, hfrom, hmatch, hcost, hpart⟩ m hm
      constructor
      · rw [← hme]
        exact hvn _ hmm.1
      · rw [← hme]
        exact hvn _ hmm.2
    have hcount := incremental_count g.nodes hnd _ hinc hend2
    have hcongr : numClasses g.nodes (connS (filterW w
        ((primLoop (createAdjacencyList g) g.nodes.length
          ((((getEntry s (createAdjacencyList g)).getD []).filterMap (fun a =>
            if a.to_ ≠ "" ∧ a.to_ ∉ [s] then some (a.qedgeFrom s)
            else none)).insertionSort (fun a b => a.weight ≤ b.weight))
          [s] [] 0
          [{ step := 0
             description := "Starting Prim's Algorithm from node " ++ s
             currentEdge := none
             priorityQueue := (((getEntry s (createAdjacencyList g)).getD
               []).filterMap (fun a =>
               if a.to_ ≠ "" ∧ a.to_ ∉ [s] then some (a.qedgeFrom s)
               else none)).insertionSort (fun a b => a.weight ≤ b.weight)
             visitedNodes := [s]
             mstEdges := []
             totalCost := 0
             action := "initialize"
             newEdgesAdded := none }] 1).2.2.1.map pEdge))) =
        numClasses g.nodes (connS (filterW w g.edges)) := by
      apply numClasses_congr
      intro a ha b hb
      exact hpart w a (hall a ha) b (hall b hb)
    rw [hcongr] at hcount
    omega

/-- C1 (amended: the equality claim fails for graphs with `directed` edges —
see `kruskal_prim_cost_differ_on_directed` — because Kruskal ignores the
`directed` flag while Prim's adjacency list honours it; restricted to graphs
with only undirected edges it holds).  For every graph with pairwise-distinct
non-empty node ids, only undirected edges whose endpoints are node ids, and
every node reachable from every other, a successful Kruskal run and a
successful Prim run from any start node id report the same
`finalResult.totalCost`.  Proof: per weight threshold `w`, each engine's
accepted forest connects the nodes exactly as the subgraph of edges of weight
at most `w` does, and an incremental forest inducing a given partition has a
forced size, so the two accepted weight multisets coincide. -/
theorem kruskal_prim_equal_total (g : Graph) (s : String) (rK : KResult)
    (rP : PResult)
    (hK : kruskalAlgorithm g = Except.ok rK)
    (hP : primAlgorithm g (some s) = Except.ok rP)
    (hnd : g.nodes.Nodup) (hnn : "" ∉ g.nodes)
    (hundir : ∀ e ∈ g.edges, e.directed = false)
    (hends : ∀ e ∈ g.edges, e.from_ ∈ g.nodes ∧ e.to_ ∈ g.nodes)
    (hs : s ∈ g.nodes)
    (hconn : ∀ a ∈ g.nodes, ∀ b ∈ g.nodes, connS g.edges a b) :
    rK.finalResult.totalCost = rP.finalResult.totalCost := by
  obtain ⟨TK, hKcost, hKmem, hKcount⟩ := kruskal_c1 g rK hK hnd hnn hends
  obtain ⟨TP, hPcost, hPmem, hPcount⟩ :=
    prim_c1 g s rP hP hnd hnn hends hundir hs hconn
  have hKW : ∀ e ∈ TK, e.weight < maxW g.edges + 1 := by
    intro e he
    have := le_maxW g.edges e (hKmem e he)
    omega
  have hPW : ∀ e ∈ TP, e.weight < maxW g.edges + 1 := by
    intro e he
    obtain ⟨e0, he0, hw0⟩ := hPmem e he
    have := le_maxW g.edges e0 he0
    omega
  have hle : ∀ w, (filterW w TK).length = (filterW w TP).length := by
    intro w
    have h1 := hKcount w
    have h2 := hPcount w
    omega
  have hKfull : filterW (maxW g.edges) TK = TK := by
    unfold filterW
    rw [List.filter_eq_self]
    intro e he
    simp only [decide_eq_true_eq]
    have := hKW e he
    omega
  have hPfull : filterW (maxW g.edges) TP = TP := by
    unfold filterW
    rw [List.filter_eq_self]
    intro e he
    simp only [decide_eq_true_eq]
    have := hPW e he
    omega
  have hlenTT : TK.length = TP.length := by
    have := hle (maxW g.edges)
    rw [hKfull, hPfull] at this
    exact this
  rw [hKcost, hPcost, sum_weights_threshold TK (maxW g.edges + 1) hKW,
    sum_weights_threshold TP (maxW g.edges + 1) hPW]
  refine Finset.sum_congr rfl ?_
  intro w _
  have h1 := length_filter_le_add_gt TK w
  have h2 := length_filter_le_add_gt TP w
  have h3 := hle w
  omega

/-- Witness for `kruskal_prim_equal_total` on the triangle graph from "A". -/
theorem kruskal_prim_equal_total_witness :
    ∃ (rK : KResult) (rP : PResult),
      kruskalAlgorithm triangleGraph = Except.ok rK ∧
      primAlgorithm triangleGraph (some "A") = Except.ok rP ∧
      rK.finalResult.totalCost = rP.finalResult.totalCost := by
  have hconn : ∀ a ∈ triangleGraph.nodes, ∀ b ∈ triangleGraph.nodes,
      connS triangleGraph.edges a b := by
    have hAB : connS triangleGraph.edges "A" "B" :=
      Relation.ReflTransGen.single
        ⟨mkEdge "e1" "A" "B" 1, by decide, Or.inl ⟨rfl, rfl⟩⟩
    have hBC : connS triangleGraph.edges "B" "C" :=
      Relation.ReflTransGen.single
        ⟨mkEdge "e2" "B" "C" 2, by decide, Or.inl ⟨rfl, rfl⟩⟩
    have hAC : connS triangleGraph.edges "A" "C" := connS_trans hAB hBC
    intro a ha b hb
    simp only [triangleGraph, List.mem_cons, List.not_mem_nil, or_false] at ha hb
    rcases ha with ha | ha | ha <;> rcases hb with hb | hb | hb <;>
      subst ha <;> subst hb
    · exact connS_refl _ _
    · exact hAB
    · exact hAC
    · exact connS_symm hAB
    · exact connS_refl _ _
    · exact hBC
    · exact connS_symm hAC
    · exact connS_symm hBC
    · exact connS_refl _ _
  cases hK : kruskalAlgorithm triangleGraph with
  | error m =>
    exfalso
    have hok : (kruskalAlgorithm triangleGraph).isOk = true := by rfl
    rw [hK] at hok
    exact Bool.noConfusion hok
  | ok rK =>
    cases hP : primAlgorithm triangleGraph (some "A") with
    | error m =>
      exfalso
      have hok : (primAlgorithm triangleGraph (some "A")).isOk = true := by
        simp +decide [primAlgorithm, primMain, primLoop, triangleGraph,
          validateGraph, createAdjacencyList, setEntry, getEntry, Arc.qedgeFrom,
          Edge.edgeIdOf, Except.isOk, Except.toBool]
      rw [hP] at hok
      exact Bool.noConfusion hok
    | ok rP =>
      refine ⟨rK, rP, rfl, rfl, ?_⟩
      exact kruskal_prim_equal_total triangleGraph "A" rK rP hK hP
        (by decide) (by decide) (by decide) (by decide) (by decide) hconn

end GreedyViz
